import Mathlib

/-!
# Verification of the interflop MCA backend (`interflop_mca.c`)

This file gives a shallow embedding of the Monte Carlo Arithmetic backend of
Verificarlo (`src/backends/interflop-mca/interflop_mca.c`) and proves, or
refutes, the frozen behavioural claims about it.

IEEE-754 values are modelled bit-exactly: a value of a binary interchange
format is a record of the `sign`, biased `exponent` and `mantissa` bit-fields,
exactly as the C code views them through the `binary64` / `binary128` unions of
`float_struct.h`.  The rational `toRat` gives the numeric value of a finite
bit pattern; the native IEEE operations (`+ - * /` on `float`, `double`,
`__float128` performed by the hardware) are modelled as exact rational
arithmetic followed by correct rounding to nearest, ties to even, which is
their IEEE-754 semantics.

Helper code that the backend uses but that lives in headers outside the
repository snapshot (`float_utils.h`, `options.h`, `vfc_rng.h`) is modelled
from the specification; each such definition carries a doc comment starting
with `Modelled from the spec:`.
-/

namespace Verificarlo

set_option maxRecDepth 4000

/-- `2 ^ e` on `ℕ` by squaring: recursion depth `log₂ e`, so that concrete
instances reduce without deep recursion (the unary recursion of `Nat.pow`
is not folded during elaboration). The first argument is fuel. -/
def npow2Aux : ℕ → ℕ → ℕ
  | 0, _ => 1
  | fuel + 1, e =>
    if e = 0 then 1
    else
      let h := npow2Aux fuel (e / 2)
      if e % 2 = 0 then h * h else 2 * (h * h)

/-- `2 ^ e` on `ℕ`, computed by squaring. -/
def npow2 (e : ℕ) : ℕ := npow2Aux e e

/-- `2 ^ z` as a rational, computed through `npow2` (efficient in the
kernel and in elaboration, unlike `Monoid.npow` on `ℚ`). -/
def pow2 (z : ℤ) : ℚ :=
  if 0 ≤ z then ((npow2 z.toNat : ℕ) : ℚ) else ((npow2 (-z).toNat : ℕ) : ℚ)⁻¹

/-! ## IEEE-754 binary formats and bit-field views -/

/-- An IEEE-754 binary interchange format: `w` exponent-field bits and
`prec` bits of precision (significand length including the implicit bit).
The mantissa bit-field has `prec - 1` bits. -/
structure Fmt where
  w : ℕ
  prec : ℕ
  deriving DecidableEq, Repr

/-- The binary32 format (`float`). -/
def binary32 : Fmt := ⟨8, 24⟩

/-- The binary64 format (`double`), the working format for binary32 ops. -/
def binary64 : Fmt := ⟨11, 53⟩

/-- The binary128 format (`__float128`), the working format for binary64 ops. -/
def binary128 : Fmt := ⟨15, 113⟩

/-- Width of the mantissa bit-field. -/
def Fmt.mantBits (fmt : Fmt) : ℕ := fmt.prec - 1

/-- Exponent bias. -/
def Fmt.bias (fmt : Fmt) : ℤ := 2 ^ (fmt.w - 1) - 1

/-- Largest unbiased exponent of a normal value. -/
def Fmt.emax (fmt : Fmt) : ℤ := fmt.bias

/-- Smallest unbiased exponent of a normal value. -/
def Fmt.emin (fmt : Fmt) : ℤ := 1 - fmt.bias

/-- All-ones value of the exponent field (infinities and NaNs). -/
def Fmt.expTop (fmt : Fmt) : ℕ := 2 ^ fmt.w - 1

/-- Exponent of the least significant bit of the subnormal grid:
every finite value of the format is an integer multiple of `2 ^ gridMin`. -/
def Fmt.gridMin (fmt : Fmt) : ℤ := fmt.emin - fmt.mantBits

/-- Largest finite value of the format. -/
def Fmt.maxFinite (fmt : Fmt) : ℚ :=
  ((npow2 fmt.prec - 1 : ℕ) : ℚ) * pow2 (fmt.emax - fmt.mantBits)

/-- The bit-field view of an IEEE-754 value of format `fmt`, exactly as the C
code sees it through the unions of `float_struct.h`: a sign bit, a biased
exponent field and a mantissa field. -/
structure FPBits (fmt : Fmt) where
  sign : Bool
  exponent : ℕ
  mantissa : ℕ
  deriving DecidableEq, Repr

/-- The bit-fields are in range for the format. -/
def FPBits.WF {fmt : Fmt} (b : FPBits fmt) : Prop :=
  b.exponent < 2 ^ fmt.w ∧ b.mantissa < 2 ^ fmt.mantBits

instance {fmt : Fmt} (b : FPBits fmt) : Decidable b.WF := by
  unfold FPBits.WF; infer_instance

/-- Floating-point classes, as distinguished by `FPCLASSIFY`. -/
inductive FPClass where
  | nan | inf | zero | subnormal | normal
  deriving DecidableEq, Repr

/-- Classification of a bit pattern (the semantics of `FPCLASSIFY`). -/
def classify {fmt : Fmt} (b : FPBits fmt) : FPClass :=
  if b.exponent = fmt.expTop then
    (if b.mantissa = 0 then .inf else .nan)
  else if b.exponent = 0 then
    (if b.mantissa = 0 then .zero else .subnormal)
  else .normal

/-- Numeric sign factor of a sign bit. -/
def sgn (s : Bool) : ℚ := if s then -1 else 1

/-- The rational value of a finite bit pattern (zero, subnormal or normal).
For non-finite patterns the result is meaningless (they have no rational
value) and is never relied upon. -/
def toRat {fmt : Fmt} (b : FPBits fmt) : ℚ :=
  if b.exponent = 0 then
    sgn b.sign * b.mantissa * pow2 fmt.gridMin
  else
    sgn b.sign * ((npow2 fmt.mantBits + b.mantissa : ℕ) : ℚ) *
      pow2 ((b.exponent : ℤ) - fmt.bias - fmt.mantBits)

/-! ## Rounding: round to nearest, ties to even -/

/-- Exponential search: starting from `hi`, double until `n < 2 ^ hi`.
The `fuel` argument only forces termination; `fuel = n` always suffices. -/
def expSearch (n : ℕ) : ℕ → ℕ → ℕ
  | 0, hi => hi
  | fuel + 1, hi => if n < npow2 hi then hi else expSearch n fuel (hi * 2)

/-- Binary search for the floor of `log₂ n`, maintaining
`2 ^ lo ≤ n < 2 ^ hi`. -/
def bisectLog2 (n : ℕ) : ℕ → ℕ → ℕ → ℕ
  | 0, lo, _ => lo
  | fuel + 1, lo, hi =>
    if hi ≤ lo + 1 then lo
    else if npow2 ((lo + hi) / 2) ≤ n then bisectLog2 n fuel ((lo + hi) / 2) hi
    else bisectLog2 n fuel lo ((lo + hi) / 2)

/-- `⌊log₂ n⌋` for `n ≥ 1`, computed with shallow recursion (so that concrete
instances reduce without deep recursion, unlike `Nat.log`). -/
def ilog2Nat (n : ℕ) : ℕ :=
  let hi := expSearch n n 1
  bisectLog2 n hi 0 hi

/-- `⌊log₂ x⌋` of a positive rational (`0` for nonpositive input). -/
def ratLog2 (x : ℚ) : ℤ :=
  if x ≤ 0 then 0
  else
    if (if ilog2Nat x.den ≤ ilog2Nat x.num.toNat
        then x.den * npow2 (ilog2Nat x.num.toNat - ilog2Nat x.den) ≤ x.num.toNat
        else x.den ≤ x.num.toNat * npow2 (ilog2Nat x.den - ilog2Nat x.num.toNat)) then
      (ilog2Nat x.num.toNat : ℤ) - ilog2Nat x.den
    else (ilog2Nat x.num.toNat : ℤ) - ilog2Nat x.den - 1

/-- Round a rational to the nearest integer, ties to even. -/
def rne (q : ℚ) : ℤ :=
  if q - ⌊q⌋ < 1/2 then ⌊q⌋
  else if 1/2 < q - ⌊q⌋ then ⌊q⌋ + 1
  else if 2 ∣ ⌊q⌋ then ⌊q⌋ else ⌊q⌋ + 1

/-- Positive infinity (with a sign bit) of the format. -/
def infBits (fmt : Fmt) (sign : Bool) : FPBits fmt :=
  ⟨sign, fmt.expTop, 0⟩

/-- The canonical quiet NaN of the format. -/
def nanBits (fmt : Fmt) : FPBits fmt :=
  ⟨false, fmt.expTop, 2 ^ (fmt.mantBits - 1)⟩

/-- A signed zero. -/
def zeroBits (fmt : Fmt) (sign : Bool) : FPBits fmt :=
  ⟨sign, 0, 0⟩

/-- Encode the finite value `k * 2 ^ g` (with `0 ≤ k ≤ 2 ^ prec`,
`fmt.gridMin ≤ g`, and `k < 2 ^ (prec - 1)` only when `g = fmt.gridMin`)
into bit-fields with the given sign. -/
def encodeKG (fmt : Fmt) (sign : Bool) (k : ℤ) (g : ℤ) : FPBits fmt :=
  if k = 0 then zeroBits fmt sign
  else
    let k' : ℤ := if k = ((npow2 fmt.prec : ℕ) : ℤ) then ((npow2 fmt.mantBits : ℕ) : ℤ) else k
    let g' : ℤ := if k = ((npow2 fmt.prec : ℕ) : ℤ) then g + 1 else g
    if k' < ((npow2 fmt.mantBits : ℕ) : ℤ) then ⟨sign, 0, k'.toNat⟩
    else ⟨sign, (g' + fmt.mantBits + fmt.bias).toNat, (k' - ((npow2 fmt.mantBits : ℕ) : ℤ)).toNat⟩

/-- Round the nonnegative rational `x` to the format, to nearest with ties to
even, overflowing to infinity; the sign bit of the result (used for zero and
infinity as well) is `sign`. -/
def roundRat (fmt : Fmt) (sign : Bool) (x : ℚ) : FPBits fmt :=
  if x ≤ 0 then zeroBits fmt sign
  else
    let g : ℤ := max fmt.gridMin (ratLog2 x - fmt.mantBits)
    let k : ℤ := rne (x / pow2 g)
    if fmt.maxFinite < (k : ℚ) * pow2 g then infBits fmt sign
    else encodeKG fmt sign k g

/-- Round a signed rational to the format (zero gets sign `+`; the sign of an
exactly-zero result of an operation is fixed by the operation itself). -/
def roundSigned (fmt : Fmt) (x : ℚ) : FPBits fmt :=
  if x < 0 then roundRat fmt true (-x) else roundRat fmt false x

/-! ## Native IEEE-754 operations

These model the hardware `+ - * /` used by the C code on `float`, `double`
and `__float128`: exact rational arithmetic followed by correct rounding,
with the IEEE special-case rules for NaNs, infinities and signed zeros. -/

/-- IEEE-754 addition at format `fmt`. -/
def fpAdd (fmt : Fmt) (a b : FPBits fmt) : FPBits fmt :=
  match classify a, classify b with
  | .nan, _ => nanBits fmt
  | _, .nan => nanBits fmt
  | .inf, .inf => if a.sign = b.sign then infBits fmt a.sign else nanBits fmt
  | .inf, _ => infBits fmt a.sign
  | _, .inf => infBits fmt b.sign
  | _, _ =>
    let s := toRat a + toRat b
    if s = 0 then zeroBits fmt (a.sign && b.sign) else roundSigned fmt s

/-- Flip the sign bit. -/
def negBits {fmt : Fmt} (b : FPBits fmt) : FPBits fmt :=
  ⟨!b.sign, b.exponent, b.mantissa⟩

/-- IEEE-754 subtraction at format `fmt`. -/
def fpSub (fmt : Fmt) (a b : FPBits fmt) : FPBits fmt :=
  fpAdd fmt a (negBits b)

/-- IEEE-754 multiplication at format `fmt`. -/
def fpMul (fmt : Fmt) (a b : FPBits fmt) : FPBits fmt :=
  match classify a, classify b with
  | .nan, _ => nanBits fmt
  | _, .nan => nanBits fmt
  | .inf, .zero => nanBits fmt
  | .zero, .inf => nanBits fmt
  | .inf, _ => infBits fmt (xor a.sign b.sign)
  | _, .inf => infBits fmt (xor a.sign b.sign)
  | _, _ =>
    let p := toRat a * toRat b
    if p = 0 then zeroBits fmt (xor a.sign b.sign) else roundSigned fmt p

/-- IEEE-754 division at format `fmt`. -/
def fpDiv (fmt : Fmt) (a b : FPBits fmt) : FPBits fmt :=
  match classify a, classify b with
  | .nan, _ => nanBits fmt
  | _, .nan => nanBits fmt
  | .inf, .inf => nanBits fmt
  | .inf, _ => infBits fmt (xor a.sign b.sign)
  | _, .inf => zeroBits fmt (xor a.sign b.sign)
  | .zero, .zero => nanBits fmt
  | _, .zero => infBits fmt (xor a.sign b.sign)
  | _, _ =>
    let q := toRat a / toRat b
    if q = 0 then zeroBits fmt (xor a.sign b.sign) else roundSigned fmt q

/-- Format conversion (widening `(double)a` is exact; narrowing
`(float)res` rounds), as performed by C casts between the floating types. -/
def convert (src dst : Fmt) (b : FPBits src) : FPBits dst :=
  match classify b with
  | .nan => nanBits dst
  | .inf => infBits dst b.sign
  | _ => roundRat dst b.sign |toRat b|

/-- `x` is a value of the format, ignoring the overflow bound: an integer
multiple of a grid step `2 ^ g` with at most `prec` significant bits and
`g` at least the subnormal grid exponent. -/
def Representable (fmt : Fmt) (x : ℚ) : Prop :=
  ∃ k g : ℤ, x = k * 2 ^ g ∧ |k| < 2 ^ fmt.prec ∧ fmt.gridMin ≤ g

/-- `x` is a finite value of the format (representable and within the
largest finite value). -/
def Fits (fmt : Fmt) (x : ℚ) : Prop :=
  Representable fmt x ∧ |x| ≤ fmt.maxFinite

/-! ## The backend's configuration and state

`t_context` mirrors the struct of the same name in `interflop_mca.c`;
`McaState` gathers the file-scope globals `MCALIB_MODE`,
`MCALIB_BINARY32_T` and `MCALIB_BINARY64_T`. -/

/-- The MCA modes of operation (`mcamode` in the source). -/
inductive mcamode where
  | mcamode_ieee | mcamode_mca | mcamode_pb | mcamode_rr
  deriving DecidableEq, Repr

/-- The backend context struct `t_context`.  `sparsity` is a C `float`; its
exact value is a rational. -/
structure t_context where
  relErr : Bool
  absErr : Bool
  absErr_exp : ℤ
  choose_seed : Bool
  seed : ℕ
  daz : Bool
  ftz : Bool
  sparsity : ℚ
  deriving DecidableEq, Repr

/-- The file-scope globals of `interflop_mca.c`. -/
structure McaState where
  MCALIB_MODE : mcamode
  MCALIB_BINARY32_T : ℤ
  MCALIB_BINARY64_T : ℤ
  deriving DecidableEq, Repr

/-- The four binary operations (`mca_operations` in the source). -/
inductive mca_operations where
  | mca_add | mca_sub | mca_mul | mca_div
  deriving DecidableEq, Repr

/-! ## RNG façade -/

/-- Modelled from the spec: the per-thread RNG state of `vfc_rng.h` (not under
`src/`).  `uniform01()` (`get_rand_double01`) "returns an independent draw
from `(0, 1)` (open interval) with at least 53 bits of resolution"; draws are
consumed in program order.  The state is the stream of binary64 draws the
seeded generator will produce, together with the index of the next draw.
`_init_rng_state_struct` performs lazy seeding and is a no-op here, where the
stream is a function of the seed from the start. -/
structure RngState where
  draws : ℕ → FPBits binary64
  idx : ℕ

/-- Modelled from the spec: one call to `get_rand_double01` consumes the next
draw of the per-thread stream. -/
def nextRand (r : RngState) : FPBits binary64 × RngState :=
  (r.draws r.idx, ⟨r.draws, r.idx + 1⟩)

/-- The RNG contract: every draw is a well-formed binary64 value in the open
interval `(0, 1)`. -/
def RngOk (d : ℕ → FPBits binary64) : Prop :=
  ∀ n, (d n).WF ∧ 0 < toRat (d n) ∧ toRat (d n) < 1

/-- Modelled from the spec: `_mca_skip_eval` of `options.h` (not under
`src/`): "returns `true` with probability `1 − sparsity` (skip this noise).
When `sparsity ≥ 1`, always returns `false`" (and consumes no draw). -/
def mca_skip_eval (sparsity : ℚ) (r : RngState) : Bool × RngState :=
  if 1 ≤ sparsity then (false, r)
  else
    let u := nextRand r
    (decide (sparsity < toRat u.1), u.2)

/-! ## Bit-layout helpers from `float_utils.h` (not under `src/`) -/

/-- Modelled from the spec: `GET_EXP_FLT(x)`, the unbiased exponent of a
nonzero finite `x`: for a normal value the biased exponent field minus the
bias, "for subnormals the minimum normal exponent minus the number of leading
zeros of the mantissa (so the unbiased exponent reflects the magnitude
`2^e ≤ |x| < 2^(e+1)`)". -/
def GET_EXP_FLT {fmt : Fmt} (b : FPBits fmt) : ℤ :=
  if b.exponent = 0 then (ilog2Nat b.mantissa : ℤ) + fmt.gridMin
  else (b.exponent : ℤ) - fmt.bias

/-- Modelled from the spec: `_IS_REPRESENTABLE(x, t)` of `float_utils.h`:
"true iff `x` can be expressed exactly with `t` significant mantissa bits at
its current magnitude.  Equivalent definition: the low `M_W − (t − 1)`
mantissa bits of `x` are all zero, where `M_W` is the mantissa width of
`x`'s type.  For subnormals, the definition is adjusted by the leading-zero
count.  Zero and any value that is not normal/subnormal is treated as
representable." -/
def IS_REPRESENTABLE {fmt : Fmt} (b : FPBits fmt) (t : ℤ) : Bool :=
  match classify b with
  | .normal =>
    decide ((b.mantissa : ℤ) % ((npow2 ((fmt.mantBits : ℤ) - (t - 1)).toNat : ℕ) : ℤ) = 0)
  | .subnormal =>
    decide ((b.mantissa : ℤ) % ((npow2 ((ilog2Nat b.mantissa : ℤ) + 1 - t).toNat : ℕ) : ℤ) = 0)
  | _ => true

/-- Modelled from the spec: `DAZ(x)`: "if `x` is subnormal, return signed
zero; else return `x`". -/
def DAZ {fmt : Fmt} (b : FPBits fmt) : FPBits fmt :=
  if classify b = .subnormal then zeroBits fmt b.sign else b

/-- Modelled from the spec: `FTZ(x)`: "same mapping applied to results before
narrowing". -/
def FTZ {fmt : Fmt} (b : FPBits fmt) : FPBits fmt :=
  if classify b = .subnormal then zeroBits fmt b.sign else b

/-! ## The noise generators (`_noise_binary64`, `_noise_binary128`) -/

/-- The C statement `b.ieee.exponent = b.ieee.exponent + exp;`: the biased
exponent bit-field is incremented by `exp`; the assignment to an unsigned
bit-field of width `w` wraps modulo `2 ^ w`. -/
def bitfieldAddExp {fmt : Fmt} (b : FPBits fmt) (exp : ℤ) : FPBits fmt :=
  ⟨b.sign, (((b.exponent : ℤ) + exp) % ((npow2 fmt.w : ℕ) : ℤ)).toNat, b.mantissa⟩

/-- The binary64 value `0.5`. -/
def half64 : FPBits binary64 := ⟨false, 1022, 0⟩

/-- The binary128 value `0.5Q`. -/
def half128 : FPBits binary128 := ⟨false, 16382, 0⟩

/-- `_noise_binary64(exp, rng)`: draw `u`, compute `u - 0.5` in binary64, and
add `exp` to the biased exponent field of the result. -/
def noise_binary64 (exp : ℤ) (r : RngState) : FPBits binary64 × RngState :=
  let u := nextRand r
  let d_rand := fpSub binary64 u.1 half64
  (bitfieldAddExp d_rand exp, u.2)

/-- `_noise_binary128(exp, rng)`: draw `u`, compute `(__float128)u - 0.5Q` in
binary128, and add `exp` to the biased exponent field of the result. -/
def noise_binary128 (exp : ℤ) (r : RngState) : FPBits binary128 × RngState :=
  let u := nextRand r
  let noise := fpSub binary128 (convert binary64 binary128 u.1) half128
  (bitfieldAddExp noise exp, u.2)

/-! ## The inexact operators (`_INEXACT`, `_FAST_INEXACT`) -/

/-- `_MUST_NOT_BE_NOISED(X, VIRTUAL_PRECISION)`: no noise in IEEE mode, on
special values, or in RR mode on values representable at the virtual
precision. -/
def MUST_NOT_BE_NOISED {fmt : Fmt} (st : McaState) (x : FPBits fmt) (t : ℤ) : Bool :=
  decide (st.MCALIB_MODE = .mcamode_ieee) ||
  (decide (classify x ≠ .normal) && decide (classify x ≠ .subnormal)) ||
  (decide (st.MCALIB_MODE = .mcamode_rr) && IS_REPRESENTABLE x t)

/-- The body of the `_INEXACT` macro, generic over the working format; the
`noiseF` argument is the `_NOISE` dispatch (`_noise_binary64` for `double`,
`_noise_binary128` for `__float128`). -/
def INEXACT {fmt : Fmt} (noiseF : ℤ → RngState → FPBits fmt × RngState)
    (st : McaState) (ctx : t_context) (x : FPBits fmt) (t : ℤ) (r : RngState) :
    FPBits fmt × RngState :=
  if MUST_NOT_BE_NOISED st x t then (x, r)
  else
    let skip := mca_skip_eval ctx.sparsity r
    if skip.1 then (x, skip.2)
    else
      let step1 : FPBits fmt × RngState :=
        if ctx.relErr then
          let e_a := GET_EXP_FLT x
          let e_n_rel := e_a - (t - 1)
          let noise_rel := noiseF e_n_rel skip.2
          (fpAdd fmt x noise_rel.1, noise_rel.2)
        else (x, skip.2)
      if ctx.absErr then
        let noise_abs := noiseF ctx.absErr_exp step1.2
        (fpAdd fmt step1.1 noise_abs.1, noise_abs.2)
      else step1

/-- The body of the `_FAST_INEXACT` macro: "adds noise in relative error.
Always adds noise even if X is exact or sparsity is enabled." -/
def FAST_INEXACT {fmt : Fmt} (noiseF : ℤ → RngState → FPBits fmt × RngState)
    (st : McaState) (x : FPBits fmt) (t : ℤ) (r : RngState) :
    FPBits fmt × RngState :=
  if st.MCALIB_MODE = .mcamode_ieee ∨
      (classify x ≠ .normal ∧ classify x ≠ .subnormal) then (x, r)
  else
    let e_a := GET_EXP_FLT x
    let e_n_rel := e_a - (t - 1)
    let noise_rel := noiseF e_n_rel r
    (fpAdd fmt x noise_rel.1, noise_rel.2)

/-- `_mca_inexact_binary64`: noise a binary64 (working format of binary32
operations) at the binary32 virtual precision. -/
def mca_inexact_binary64 (st : McaState) (ctx : t_context)
    (da : FPBits binary64) (r : RngState) : FPBits binary64 × RngState :=
  INEXACT noise_binary64 st ctx da st.MCALIB_BINARY32_T r

/-- `_mca_inexact_binary128`: noise a binary128 (working format of binary64
operations) at the binary64 virtual precision. -/
def mca_inexact_binary128 (st : McaState) (ctx : t_context)
    (qa : FPBits binary128) (r : RngState) : FPBits binary128 × RngState :=
  INEXACT noise_binary128 st ctx qa st.MCALIB_BINARY64_T r

/-! ## The binary-operation drivers (`_MCA_BINARY_OP`) -/

/-- `PERFORM_BIN_OP(OP, RES, A, B)`. -/
def PERFORM_BIN_OP (fmt : Fmt) (op : mca_operations) (a b : FPBits fmt) :
    FPBits fmt :=
  match op with
  | .mca_add => fpAdd fmt a b
  | .mca_sub => fpSub fmt a b
  | .mca_mul => fpMul fmt a b
  | .mca_div => fpDiv fmt a b

/-- `_mca_binary32_binary_op(a, b, dop, context)`: widen to binary64, DAZ on
the original binary32 inputs, input noise in PB/MCA modes, perform the
operation, result noise in RR/MCA modes, narrow to binary32, FTZ. -/
def mca_binary32_binary_op (a b : FPBits binary32) (op : mca_operations)
    (st : McaState) (ctx : t_context) (r : RngState) :
    FPBits binary32 × RngState :=
  let A0 := if ctx.daz then convert binary32 binary64 (DAZ a)
            else convert binary32 binary64 a
  let B0 := if ctx.daz then convert binary32 binary64 (DAZ b)
            else convert binary32 binary64 b
  let inA :=
    if st.MCALIB_MODE = .mcamode_pb ∨ st.MCALIB_MODE = .mcamode_mca then
      let pa := mca_inexact_binary64 st ctx A0 r
      let pb := mca_inexact_binary64 st ctx B0 pa.2
      (pa.1, pb.1, pb.2)
    else (A0, B0, r)
  let RES := PERFORM_BIN_OP binary64 op inA.1 inA.2.1
  let outR :=
    if st.MCALIB_MODE = .mcamode_rr ∨ st.MCALIB_MODE = .mcamode_mca then
      mca_inexact_binary64 st ctx RES inA.2.2
    else (RES, inA.2.2)
  let res := convert binary64 binary32 outR.1
  (if ctx.ftz then FTZ res else res, outR.2)

/-- `_mca_binary64_binary_op(a, b, qop, context)`: the binary64 driver, with
binary128 as the working format. -/
def mca_binary64_binary_op (a b : FPBits binary64) (op : mca_operations)
    (st : McaState) (ctx : t_context) (r : RngState) :
    FPBits binary64 × RngState :=
  let A0 := if ctx.daz then convert binary64 binary128 (DAZ a)
            else convert binary64 binary128 a
  let B0 := if ctx.daz then convert binary64 binary128 (DAZ b)
            else convert binary64 binary128 b
  let inA :=
    if st.MCALIB_MODE = .mcamode_pb ∨ st.MCALIB_MODE = .mcamode_mca then
      let pa := mca_inexact_binary128 st ctx A0 r
      let pb := mca_inexact_binary128 st ctx B0 pa.2
      (pa.1, pb.1, pb.2)
    else (A0, B0, r)
  let RES := PERFORM_BIN_OP binary128 op inA.1 inA.2.1
  let outR :=
    if st.MCALIB_MODE = .mcamode_rr ∨ st.MCALIB_MODE = .mcamode_mca then
      mca_inexact_binary128 st ctx RES inA.2.2
    else (RES, inA.2.2)
  let res := convert binary128 binary64 outR.1
  (if ctx.ftz then FTZ res else res, outR.2)

/-- The native (uninstrumented) IEEE-754 operation at binary32, for
comparison with what the driver returns. -/
def native_binary32_op (a b : FPBits binary32) (op : mca_operations) :
    FPBits binary32 :=
  PERFORM_BIN_OP binary32 op a b

/-- The native (uninstrumented) IEEE-754 operation at binary64. -/
def native_binary64_op (a b : FPBits binary64) (op : mca_operations) :
    FPBits binary64 :=
  PERFORM_BIN_OP binary64 op a b

/-! ## The user-call hook (`_interflop_usercall_inexact`) -/

/-- The `FFLOAT` branch: load the binary32 value into a `double`, compute the
effective precision (`MCALIB_BINARY32_T + precision` when `precision ≤ 0`,
else `precision`), apply `_FAST_INEXACT`, store back. -/
def usercall_inexact_float (st : McaState) (x : FPBits binary32)
    (precision : ℤ) (r : RngState) : FPBits binary32 × RngState :=
  let xd := convert binary32 binary64 x
  let t := if precision ≤ 0 then st.MCALIB_BINARY32_T + precision else precision
  let p := FAST_INEXACT noise_binary64 st xd t r
  (convert binary64 binary32 p.1, p.2)

/-- The `FDOUBLE` branch: load into a `__float128`, effective precision
`MCALIB_BINARY64_T + precision` when `precision ≤ 0`, else `precision`. -/
def usercall_inexact_double (st : McaState) (x : FPBits binary64)
    (precision : ℤ) (r : RngState) : FPBits binary64 × RngState :=
  let xq := convert binary64 binary128 x
  let t := if precision ≤ 0 then st.MCALIB_BINARY64_T + precision else precision
  let p := FAST_INEXACT noise_binary128 st xq t r
  (convert binary128 binary64 p.1, p.2)

/-- The `FQUAD` branch: `_FAST_INEXACT(&xq, precision, ...)` — the
`precision` argument is used directly, with no offset computation. -/
def usercall_inexact_quad (st : McaState) (x : FPBits binary128)
    (precision : ℤ) (r : RngState) : FPBits binary128 × RngState :=
  FAST_INEXACT noise_binary128 st x precision r

/-! ## Option parsing (`parse_opt`) -/

/-- The option keys (`key_args` in the source). -/
inductive key_args where
  | KEY_PREC_B32 | KEY_PREC_B64 | KEY_ERR_EXP | KEY_MODE | KEY_ERR_MODE
  | KEY_SEED | KEY_DAZ | KEY_FTZ | KEY_SPARSITY
  deriving DecidableEq, Repr

/-- Numeric value of a decimal digit character. -/
def digitVal (c : Char) : Option ℕ :=
  if '0' ≤ c ∧ c ≤ '9' then some (c.toNat - '0'.toNat) else none

/-- Parse a maximal run of decimal digits; returns the value and the number
of characters consumed. -/
def parseDigits : List Char → ℕ × ℕ
  | [] => (0, 0)
  | c :: cs =>
    match digitVal c with
    | some d =>
      let r := parseDigits cs
      (d * 10 ^ r.2 + r.1, r.2 + 1)
    | none => (0, 0)

/-- Modelled from the spec: the C library `strtol(arg, &endptr, 10)` on the
inputs the backend feeds it: parse an optional sign and a maximal run of
decimal digits; the result is the parsed value, the number of characters
consumed (`endptr - arg`), and whether `errno` was set (`ERANGE` when the
value exceeds the `long` range, clamping to `LONG_MAX`/`LONG_MIN`).  When no
digits are found, `strtol` returns `0`, consumes nothing, and leaves `errno`
unchanged. -/
def strtol (s : List Char) : ℤ × ℕ × Bool :=
  let sign : Bool × List Char × ℕ :=
    match s with
    | '-' :: cs => (true, cs, 1)
    | '+' :: cs => (false, cs, 1)
    | _ => (false, s, 0)
  let d := parseDigits sign.2.1
  if d.2 = 0 then (0, 0, false)
  else
    let raw : ℤ := if sign.1 then -(d.1 : ℤ) else (d.1 : ℤ)
    if ((npow2 63 : ℕ) : ℤ) - 1 < raw then (((npow2 63 : ℕ) : ℤ) - 1, sign.2.2 + d.2, true)
    else if raw < -((npow2 63 : ℕ) : ℤ) then (-((npow2 63 : ℕ) : ℤ), sign.2.2 + d.2, true)
    else (raw, sign.2.2 + d.2, false)

/-- Modelled from the spec: the C library `strtoull(arg, &endptr, 10)` on the
inputs the backend feeds it (an unsigned decimal seed). -/
def strtoull (s : List Char) : ℕ × ℕ × Bool :=
  let sign : List Char × ℕ :=
    match s with
    | '+' :: cs => (cs, 1)
    | _ => (s, 0)
  let d := parseDigits sign.1
  if d.2 = 0 then (0, 0, false)
  else if npow2 64 - 1 < d.1 then (npow2 64 - 1, sign.2 + d.2, true)
  else (d.1, sign.2 + d.2, false)

/-- Modelled from the spec: the C library `strtof(arg, &endptr)` on the
inputs the backend feeds it (a plain decimal such as `0.5` or `2.0`): parse
an optional sign, an integer part and an optional fractional part, and round
the decimal value to binary32 (`strtof` returns a correctly rounded
`float`). -/
def strtof (s : List Char) : ℚ × ℕ × Bool :=
  let sign : Bool × List Char × ℕ :=
    match s with
    | '-' :: cs => (true, cs, 1)
    | '+' :: cs => (false, cs, 1)
    | _ => (false, s, 0)
  let ip := parseDigits sign.2.1
  let rest := (sign.2.1).drop ip.2
  let frac : ℕ × ℕ :=
    match rest with
    | '.' :: cs =>
      let fp := parseDigits cs
      (fp.1, fp.2 + 1)
    | _ => (0, 0)
  if ip.2 = 0 ∧ frac.2 ≤ 1 then (0, 0, false)
  else
    let q : ℚ := (ip.1 : ℚ) + (frac.1 : ℚ) / ((10 : ℚ) ^ (frac.2 - 1))
    let v := toRat (roundRat binary32 sign.1 q)
    (v, sign.2.2 + ip.2 + frac.2, false)

/-- Modelled from the spec: `_set_precision(MCA, precision, ...)` of
`options.h` (not under `src/`): virtual precisions have ranges binary32
`[1, 53]` and binary64 `[1, 112]`; "values outside are rejected at config
time" and configuration errors are fatal.  `none` models the fatal
`logger_error` exit. -/
def set_mca_precision_binary32 (st : McaState) (p : ℤ) : Option McaState :=
  if 1 ≤ p ∧ p ≤ 53 then some { st with MCALIB_BINARY32_T := p } else none

/-- Modelled from the spec: the binary64 counterpart of
`set_mca_precision_binary32`, range `[1, 112]`. -/
def set_mca_precision_binary64 (st : McaState) (p : ℤ) : Option McaState :=
  if 1 ≤ p ∧ p ≤ 112 then some { st with MCALIB_BINARY64_T := p } else none

/-- ASCII lower-casing of one character (for `strcasecmp`). -/
def lowerChar (c : Char) : Char :=
  if 'A' ≤ c ∧ c ≤ 'Z' then Char.ofNat (c.toNat + 32) else c

/-- Modelled from the spec: `strcasecmp(s, arg) == 0`, ASCII
case-insensitive equality. -/
def strCaseEq (s arg : List Char) : Bool :=
  s.map lowerChar = arg.map lowerChar

/-- Result of one `parse_opt` call: the updated context and globals, a fatal
`logger_error` (which terminates the process before any arithmetic runs), or
`ARGP_ERR_UNKNOWN`. -/
inductive ParseResult where
  | ok (ctx : t_context) (st : McaState)
  | fatal
  deriving DecidableEq, Repr

/-- `parse_opt(key, arg, state)`, case by case from the source.  Note that
the `endptr` handed to `strtol`/`strtof` is never examined, and that the
only check on `sparsity` is `sparsity <= 0`. -/
def parse_opt (key : key_args) (arg : List Char) (ctx : t_context)
    (st : McaState) : ParseResult :=
  match key with
  | .KEY_PREC_B32 =>
    let r := strtol arg
    if r.2.2 ∨ r.1 ≤ 0 then .fatal
    else
      match set_mca_precision_binary32 st r.1 with
      | some st' => .ok ctx st'
      | none => .fatal
  | .KEY_PREC_B64 =>
    let r := strtol arg
    if r.2.2 ∨ r.1 ≤ 0 then .fatal
    else
      match set_mca_precision_binary64 st r.1 with
      | some st' => .ok ctx st'
      | none => .fatal
  | .KEY_MODE =>
    if strCaseEq "ieee".toList arg then
      .ok ctx { st with MCALIB_MODE := .mcamode_ieee }
    else if strCaseEq "mca".toList arg then
      .ok ctx { st with MCALIB_MODE := .mcamode_mca }
    else if strCaseEq "pb".toList arg then
      .ok ctx { st with MCALIB_MODE := .mcamode_pb }
    else if strCaseEq "rr".toList arg then
      .ok ctx { st with MCALIB_MODE := .mcamode_rr }
    else .fatal
  | .KEY_ERR_MODE =>
    if strCaseEq "rel".toList arg then
      .ok { ctx with relErr := true, absErr := false } st
    else if strCaseEq "abs".toList arg then
      .ok { ctx with relErr := false, absErr := true } st
    else if strCaseEq "all".toList arg then
      .ok { ctx with relErr := true, absErr := true } st
    else .fatal
  | .KEY_ERR_EXP =>
    let r := strtol arg
    if r.2.2 then .fatal else .ok { ctx with absErr_exp := r.1 } st
  | .KEY_SEED =>
    let r := strtoull arg
    if r.2.2 then .fatal
    else .ok { ctx with choose_seed := true, seed := r.1 } st
  | .KEY_DAZ => .ok { ctx with daz := true } st
  | .KEY_FTZ => .ok { ctx with ftz := true } st
  | .KEY_SPARSITY =>
    let r := strtof arg
    if r.1 ≤ 0 then .fatal else .ok { ctx with sparsity := r.1 } st

/-- `init_context(ctx)`, from the source. -/
def init_context : t_context :=
  { relErr := true
    absErr := false
    absErr_exp := 112
    choose_seed := false
    seed := 0
    daz := false
    ftz := false
    sparsity := 1 }

/-- The globals after `interflop_init` has set the default precisions and
mode (`MCA_PRECISION_BINARY32_DEFAULT = 24`,
`MCA_PRECISION_BINARY64_DEFAULT = 53`, `MCA_MODE_DEFAULT = mcamode_mca`). -/
def default_mca_state : McaState :=
  { MCALIB_MODE := .mcamode_mca
    MCALIB_BINARY32_T := 24
    MCALIB_BINARY64_T := 53 }

/-- `interflop_init(argc, argv, context)`: set the default precisions and
mode, build the default context, then run `argp_parse`, which feeds each
recognised option through `parse_opt`; a `logger_error` anywhere is fatal
before any arithmetic runs. -/
def interflop_init (args : List (key_args × List Char)) : ParseResult :=
  args.foldl
    (fun acc kv =>
      match acc with
      | .fatal => .fatal
      | .ok ctx st => parse_opt kv.1 kv.2 ctx st)
    (.ok init_context default_mca_state)

/-! ## Sequences of intercepted operations (for reproducibility) -/

/-- One intercepted floating-point operation. -/
inductive McaOp where
  | op32 (a b : FPBits binary32) (op : mca_operations)
  | op64 (a b : FPBits binary64) (op : mca_operations)

/-- The result of one intercepted operation. -/
def runOp (st : McaState) (ctx : t_context) (r : RngState) :
    McaOp → (FPBits binary32 ⊕ FPBits binary64) × RngState
  | .op32 a b op =>
    let p := mca_binary32_binary_op a b op st ctx r
    (.inl p.1, p.2)
  | .op64 a b op =>
    let p := mca_binary64_binary_op a b op st ctx r
    (.inr p.1, p.2)

/-- Run a single-thread sequence of operations in program order, returning
the list of results and the final RNG state. -/
def runOps (st : McaState) (ctx : t_context) (r : RngState) :
    List McaOp → List (FPBits binary32 ⊕ FPBits binary64) × RngState
  | [] => ([], r)
  | o :: os =>
    let p := runOp st ctx r o
    let rest := runOps st ctx p.2 os
    (p.1 :: rest.1, rest.2)


/-! ## Concrete values used in instantiations -/

/-- A constant stream of draws starting at index 0. -/
def constStream (b : FPBits binary64) : RngState := ⟨fun _ => b, 0⟩

/-- `1.0f`. -/
def one32 : FPBits binary32 := ⟨false, 127, 0⟩

/-- The smallest positive binary32 subnormal. -/
def sub32 : FPBits binary32 := ⟨false, 0, 1⟩

/-- `1.0`. -/
def one64 : FPBits binary64 := ⟨false, 1023, 0⟩

/-- `3.0`. -/
def three64 : FPBits binary64 := ⟨false, 1024, 2251799813685248⟩

/-- `5.0`. -/
def five64 : FPBits binary64 := ⟨false, 1025, 1125899906842624⟩

/-- The binary64 value `0.75` (a possible uniform draw). -/
def d075 : FPBits binary64 := ⟨false, 1022, 2251799813685248⟩

/-- The binary128 value `1.0Q`. -/
def one128 : FPBits binary128 := ⟨false, 16383, 0⟩

/-- The globals with the mode switched to RR. -/
def rrState : McaState := { default_mca_state with MCALIB_MODE := .mcamode_rr }

/-- The exact rational result of one of the four operations (the infinitely
precise value the IEEE operation rounds). -/
def exactOp (op : mca_operations) (x y : ℚ) : ℚ :=
  match op with
  | .mca_add => x + y
  | .mca_sub => x - y
  | .mca_mul => x * y
  | .mca_div => x / y

/-- `x` can be written with `t` significant bits (at some scale): the
spec's "representable in `t` bits" for an exact result. -/
def RepresentableAt (t : ℤ) (x : ℚ) : Prop :=
  ∃ k g : ℤ, x = (k : ℚ) * pow2 g ∧ (|k| : ℚ) < pow2 t

/-! ## State-passing combinators (for reproducibility proofs) -/

/-- Return a value without touching the RNG state. -/
def pureR {α : Type} (a : α) : RngState → α × RngState :=
  fun r => (a, r)

/-- Sequence two RNG-state-passing computations, threading the state in
program order (the order in which the C code consumes draws). -/
def bindR {α β : Type} (f : RngState → α × RngState)
    (g : α → RngState → β × RngState) : RngState → β × RngState :=
  fun r =>
    let p := f r
    g p.1 p.2

/-- Determinism of a state-passing computation: it never modifies the draw
stream, only advances the index (draws are consumed in program order), and
its output and final index depend only on the draws it actually consumed —
so two runs over streams that agree on the consumed prefix are bitwise
identical. -/
structure Deterministic {α : Type} (f : RngState → α × RngState) : Prop where
  mono : ∀ d i, (f ⟨d, i⟩).2.draws = d ∧ i ≤ (f ⟨d, i⟩).2.idx
  agree : ∀ d₁ d₂ i,
    (∀ n, i ≤ n → n < (f ⟨d₁, i⟩).2.idx → d₁ n = d₂ n) →
    (f ⟨d₁, i⟩).1 = (f ⟨d₂, i⟩).1 ∧ (f ⟨d₁, i⟩).2.idx = (f ⟨d₂, i⟩).2.idx

/-! ## Basic facts about the power helpers -/

theorem npow2Aux_eq (fuel e : ℕ) (he : e ≤ fuel) : npow2Aux fuel e = 2 ^ e := by
  induction fuel generalizing e with
  | zero =>
    interval_cases e
    rfl
  | succ fuel ih =>
    rcases Nat.eq_zero_or_pos e with rfl | hpos
    · rfl
    · have hdiv : e / 2 ≤ fuel := by omega
      have hrec := ih (e / 2) hdiv
      have hne : ¬ e = 0 := by omega
      have hstep : npow2Aux (fuel + 1) e =
          if e % 2 = 0 then npow2Aux fuel (e / 2) * npow2Aux fuel (e / 2)
          else 2 * (npow2Aux fuel (e / 2) * npow2Aux fuel (e / 2)) := by
        conv_lhs => rw [npow2Aux]
        simp only [hne, if_false]
      rw [hstep, hrec]
      rcases Nat.mod_two_eq_zero_or_one e with h2 | h2
      · rw [if_pos h2, ← pow_add]
        congr 1
        omega
      · rw [if_neg (by omega), ← pow_add,
          (by omega : e / 2 + e / 2 = e - 1), mul_comm, ← pow_succ]
        congr 1
        omega

theorem npow2_eq (e : ℕ) : npow2 e = 2 ^ e := npow2Aux_eq e e le_rfl

theorem pow2_eq (z : ℤ) : pow2 z = (2 : ℚ) ^ z := by
  unfold pow2
  rw [npow2_eq, npow2_eq]
  split
  · next h =>
    rw [Nat.cast_pow, ← zpow_natCast, Int.toNat_of_nonneg h]
    norm_num
  · next h =>
    rw [Nat.cast_pow, ← zpow_natCast, ← zpow_neg,
      Int.toNat_of_nonneg (by omega : (0:ℤ) ≤ -z), neg_neg]
    norm_num


/-! ## Round-to-nearest-even: basic facts -/

theorem rne_intCast (n : ℤ) : rne (n : ℚ) = n := by
  unfold rne
  rw [Int.floor_intCast]
  norm_num

theorem rne_eq_floor_or_ceil (q : ℚ) : rne q = ⌊q⌋ ∨ rne q = ⌊q⌋ + 1 := by
  unfold rne
  split_ifs <;> simp

theorem abs_rne_sub_le (q : ℚ) : |(rne q : ℚ) - q| ≤ 1/2 := by
  have h0 := Int.floor_le q
  have h1 := Int.lt_floor_add_one q
  unfold rne
  split_ifs <;> push_cast <;> rw [abs_le] <;> constructor <;> linarith

theorem rne_nearest (q : ℚ) (m : ℤ) : |(rne q : ℚ) - q| ≤ |(m : ℚ) - q| := by
  have h0 := Int.floor_le q
  have h1 := Int.lt_floor_add_one q
  have hm : (m : ℚ) ≤ ⌊q⌋ ∨ ((⌊q⌋ : ℚ) + 1) ≤ m := by
    rcases le_or_lt m ⌊q⌋ with h | h
    · exact Or.inl (by exact_mod_cast h)
    · exact Or.inr (by exact_mod_cast h)
  have habs : ∀ y : ℚ, |y - q| = if y ≤ q then q - y else y - q := by
    intro y
    split_ifs with h
    · rw [abs_sub_comm, abs_of_nonneg]
      linarith
    · rw [abs_of_nonneg]
      linarith
  unfold rne
  split_ifs <;> rcases hm with hm | hm <;>
    rw [habs, habs] <;> split_ifs <;> push_cast at * <;> linarith

theorem rne_nonneg (q : ℚ) (h : 0 ≤ q) : 0 ≤ rne q := by
  have h0 : (0:ℤ) ≤ ⌊q⌋ := Int.floor_nonneg.mpr h
  rcases rne_eq_floor_or_ceil q with he | he <;> omega

theorem rne_le_of_le (q : ℚ) (m : ℤ) (h : q ≤ m) : rne q ≤ m := by
  rcases eq_or_lt_of_le h with he | hlt
  · rw [he, rne_intCast]
  · have hf : ⌊q⌋ < m := by
      rcases lt_or_le ⌊q⌋ m with h' | h'
      · exact h'
      · exfalso
        have : (m:ℚ) ≤ ⌊q⌋ := by exact_mod_cast h'
        have := Int.floor_le q
        linarith
    rcases rne_eq_floor_or_ceil q with he | he <;> omega

theorem rne_ge_of_ge (q : ℚ) (m : ℤ) (h : (m : ℚ) ≤ q) : m ≤ rne q := by
  have hf : m ≤ ⌊q⌋ := Int.le_floor.mpr h
  rcases rne_eq_floor_or_ceil q with he | he <;> omega

theorem rne_ge_of_half_odd (q : ℚ) (m : ℤ) (hodd : ¬ 2 ∣ m)
    (h : (m : ℚ) + 1/2 ≤ q) : m + 1 ≤ rne q := by
  rcases le_or_lt ((m : ℚ) + 1) q with hq | hq
  · have : m + 1 ≤ ⌊q⌋ := Int.le_floor.mpr (by push_cast; linarith)
    rcases rne_eq_floor_or_ceil q with he | he <;> omega
  · have hfl : ⌊q⌋ = m := by
      rw [Int.floor_eq_iff]
      constructor <;> push_cast <;> linarith
    unfold rne
    rw [hfl]
    split_ifs with h1 h2
    · exfalso
      linarith
    · omega
    · omega

theorem rne_le_of_lt_half (q : ℚ) (m : ℤ) (h : q < (m : ℚ) + 1/2) : rne q ≤ m := by
  rcases le_or_lt q m with hq | hq
  · exact rne_le_of_le q m hq
  · have hfl : ⌊q⌋ = m := by
      rw [Int.floor_eq_iff]
      constructor <;> push_cast <;> linarith
    unfold rne
    rw [hfl]
    split_ifs with h1 h2 h3
    · omega
    · exfalso
      linarith
    · omega
    · exfalso
      push_neg at h1
      linarith

/-! ## Correctness of the shallow binary logarithm -/

theorem expSearch_spec (n : ℕ) :
    ∀ fuel hi, 1 ≤ hi → n < 2 ^ (hi * 2 ^ fuel) →
      n < 2 ^ expSearch n fuel hi ∧ 1 ≤ expSearch n fuel hi := by
  intro fuel
  induction fuel with
  | zero =>
    intro hi h1 h2
    unfold expSearch
    simpa using ⟨by simpa using h2, h1⟩
  | succ fuel ih =>
    intro hi h1 h2
    unfold expSearch
    rw [npow2_eq]
    split_ifs with h
    · exact ⟨h, h1⟩
    · refine ih (hi * 2) (by omega) ?_
      have : hi * 2 * 2 ^ fuel = hi * 2 ^ (fuel + 1) := by ring
      rw [this]
      exact h2

theorem bisectLog2_spec (n : ℕ) :
    ∀ fuel lo hi, 2 ^ lo ≤ n → n < 2 ^ hi → lo < hi → hi ≤ lo + 2 ^ fuel →
      2 ^ bisectLog2 n fuel lo hi ≤ n ∧ n < 2 ^ (bisectLog2 n fuel lo hi + 1) := by
  intro fuel
  induction fuel with
  | zero =>
    intro lo hi hlo hhi hlt hle
    unfold bisectLog2
    have : hi = lo + 1 := by omega
    subst this
    exact ⟨hlo, hhi⟩
  | succ fuel ih =>
    intro lo hi hlo hhi hlt hle
    have h2f : (2:ℕ) ^ (fuel + 1) = 2 * 2 ^ fuel := by ring
    unfold bisectLog2
    split_ifs with h1 h2
    · have : hi = lo + 1 := by omega
      subst this
      exact ⟨hlo, hhi⟩
    · rw [npow2_eq] at h2
      exact ih ((lo + hi) / 2) hi h2 hhi (by omega) (by omega)
    · rw [npow2_eq] at h2
      push_neg at h2
      exact ih lo ((lo + hi) / 2) hlo h2 (by omega) (by omega)

theorem ilog2Nat_spec (n : ℕ) (h : 1 ≤ n) :
    2 ^ ilog2Nat n ≤ n ∧ n < 2 ^ (ilog2Nat n + 1) := by
  unfold ilog2Nat
  have hes := expSearch_spec n n 1 le_rfl
    (by
      have h1 : n < 2 ^ n := Nat.lt_two_pow n
      have h2 : (2:ℕ) ^ n ≤ 2 ^ (1 * 2 ^ n) := by
        apply Nat.pow_le_pow_right (by norm_num)
        have := Nat.lt_two_pow n
        omega
      omega)
  refine bisectLog2_spec n (expSearch n n 1) 0 (expSearch n n 1) (by simpa using h)
    hes.1 (by omega) ?_
  have := Nat.lt_two_pow (expSearch n n 1)
  omega

theorem ratLog2_spec (x : ℚ) (hx : 0 < x) :
    (2:ℚ) ^ (ratLog2 x) ≤ x ∧ x < 2 ^ (ratLog2 x + 1) := by
  have hnum : 0 < x.num := Rat.num_pos.mpr hx
  have hden : 0 < x.den := x.pos
  obtain ⟨ha1, ha2⟩ := ilog2Nat_spec x.num.toNat (by omega)
  obtain ⟨hb1, hb2⟩ := ilog2Nat_spec x.den hden
  have hxe : x = (x.num.toNat : ℚ) / (x.den : ℚ) := by
    have hcast : ((x.num.toNat : ℕ) : ℚ) = ((x.num : ℤ) : ℚ) := by
      rw [← Int.cast_natCast, Int.toNat_of_nonneg (le_of_lt hnum)]
    rw [hcast]
    exact (Rat.num_div_den x).symm
  set a := ilog2Nat x.num.toNat
  set b := ilog2Nat x.den
  have hdpos : (0:ℚ) < (x.den:ℚ) := by exact_mod_cast hden
  have hz : (2:ℚ) ≠ 0 := two_ne_zero
  have hA1 : (2:ℚ) ^ ((a:ℤ)) ≤ (x.num.toNat:ℚ) := by
    rw [show ((a:ℤ)) = ((a : ℕ) : ℤ) from rfl, zpow_natCast]
    exact_mod_cast ha1
  have hA2 : (x.num.toNat:ℚ) < 2 ^ ((a:ℤ) + 1) := by
    rw [show ((a:ℤ) + 1) = ((a + 1 : ℕ) : ℤ) by omega, zpow_natCast]
    exact_mod_cast ha2
  have hB1 : (2:ℚ) ^ ((b:ℤ)) ≤ (x.den:ℚ) := by
    rw [show ((b:ℤ)) = ((b : ℕ) : ℤ) from rfl, zpow_natCast]
    exact_mod_cast hb1
  have hB2 : (x.den:ℚ) < 2 ^ ((b:ℤ) + 1) := by
    rw [show ((b:ℤ) + 1) = ((b + 1 : ℕ) : ℤ) by omega, zpow_natCast]
    exact_mod_cast hb2
  have hmul1 : (2:ℚ) ^ ((a:ℤ) - b + 1) * 2 ^ (b:ℤ) = 2 ^ ((a:ℤ) + 1) := by
    rw [← zpow_add₀ hz]
    ring_nf
  have hmul2 : (2:ℚ) ^ ((a:ℤ) - b - 1) * 2 ^ ((b:ℤ) + 1) = 2 ^ (a:ℤ) := by
    rw [← zpow_add₀ hz]
    ring_nf
  have hupper : x < 2 ^ ((a:ℤ) - b + 1) := by
    conv_lhs => rw [hxe]
    rw [div_lt_iff₀ hdpos]
    have h1 : (2:ℚ) ^ ((a:ℤ) - b + 1) * 2 ^ (b:ℤ) ≤ 2 ^ ((a:ℤ) - b + 1) * x.den := by
      apply mul_le_mul_of_nonneg_left hB1
      positivity
    linarith
  have hlower : (2:ℚ) ^ ((a:ℤ) - b - 1) < x := by
    conv_rhs => rw [hxe]
    rw [lt_div_iff₀ hdpos]
    have h1 : (2:ℚ) ^ ((a:ℤ) - b - 1) * x.den < 2 ^ ((a:ℤ) - b - 1) * 2 ^ ((b:ℤ) + 1) := by
      apply mul_lt_mul_of_pos_left hB2
      positivity
    linarith
  have htest :
      (if b ≤ a then x.den * npow2 (a - b) ≤ x.num.toNat
        else x.den ≤ x.num.toNat * npow2 (b - a)) ↔
      (2:ℚ) ^ ((a:ℤ) - b) ≤ x := by
    have hiff2 : (2:ℚ) ^ ((a:ℤ) - b) ≤ x ↔ (x.den:ℚ) * 2 ^ ((a:ℤ) - b) ≤ x.num.toNat := by
      conv_lhs => rw [hxe]
      rw [le_div_iff₀ hdpos, mul_comm]
    rw [hiff2]
    split_ifs with hab
    · have hpow : ((npow2 (a - b) : ℕ) : ℚ) = (2:ℚ) ^ ((a:ℤ) - b) := by
        rw [npow2_eq, Nat.cast_pow,
          show ((a:ℤ) - b) = ((a - b : ℕ) : ℤ) by omega, zpow_natCast]
        norm_num
      constructor
      · intro h
        have h' : ((x.den * npow2 (a - b) : ℕ) : ℚ) ≤ ((x.num.toNat : ℕ) : ℚ) :=
          Nat.cast_le.mpr h
        rw [Nat.cast_mul, hpow] at h'
        exact h'
      · intro h
        have h' : ((x.den * npow2 (a - b) : ℕ) : ℚ) ≤ ((x.num.toNat : ℕ) : ℚ) := by
          rw [Nat.cast_mul, hpow]
          exact h
        exact_mod_cast h'
    · push_neg at hab
      have hpow : ((npow2 (b - a) : ℕ) : ℚ) = (2:ℚ) ^ ((b:ℤ) - a) := by
        rw [npow2_eq, Nat.cast_pow,
          show ((b:ℤ) - a) = ((b - a : ℕ) : ℤ) by omega, zpow_natCast]
        norm_num
      have hposba : (0:ℚ) < 2 ^ ((b:ℤ) - a) := by positivity
      have hinv : (2:ℚ) ^ ((a:ℤ) - b) = ((2:ℚ) ^ ((b:ℤ) - a))⁻¹ := by
        rw [← zpow_neg]
        congr 1
        ring
      constructor
      · intro h
        have h' : (x.den:ℚ) ≤ (x.num.toNat:ℚ) * 2 ^ ((b:ℤ) - a) := by
          have h2 : ((x.den : ℕ) : ℚ) ≤ ((x.num.toNat * npow2 (b - a) : ℕ) : ℚ) :=
            Nat.cast_le.mpr h
          rw [Nat.cast_mul, hpow] at h2
          exact h2
        rw [hinv, ← div_eq_mul_inv, div_le_iff₀ hposba]
        exact h'
      · intro h
        rw [hinv, ← div_eq_mul_inv, div_le_iff₀ hposba] at h
        have h' : ((x.den : ℕ) : ℚ) ≤ ((x.num.toNat * npow2 (b - a) : ℕ) : ℚ) := by
          rw [Nat.cast_mul, hpow]
          exact h
        exact_mod_cast h'
  unfold ratLog2
  rw [if_neg (not_le.mpr hx)]
  by_cases hc : (if b ≤ a then x.den * npow2 (a - b) ≤ x.num.toNat
      else x.den ≤ x.num.toNat * npow2 (b - a))
  · rw [if_pos hc]
    exact ⟨htest.mp hc, hupper⟩
  · rw [if_neg hc]
    have hlt : x < 2 ^ ((a:ℤ) - b) := by
      by_contra hge
      push_neg at hge
      exact hc (htest.mpr hge)
    refine ⟨le_of_lt hlower, ?_⟩
    rw [show ((a:ℤ) - b - 1 + 1) = (a:ℤ) - b by ring]
    exact hlt

/-! ## Values of bit patterns -/

theorem pow2_pos (z : ℤ) : 0 < pow2 z := by
  rw [pow2_eq]
  positivity

theorem sgn_abs (s : Bool) : |sgn s| = 1 := by
  cases s <;> simp [sgn]

theorem toRat_zeroBits (fmt : Fmt) (s : Bool) : toRat (zeroBits fmt s) = 0 := by
  simp [toRat, zeroBits]

theorem abs_toRat {fmt : Fmt} (b : FPBits fmt) : |toRat b| =
    if b.exponent = 0 then (b.mantissa : ℚ) * pow2 fmt.gridMin
    else ((npow2 fmt.mantBits + b.mantissa : ℕ) : ℚ) *
      pow2 ((b.exponent : ℤ) - fmt.bias - fmt.mantBits) := by
  unfold toRat
  split_ifs with h <;>
    rw [abs_mul, abs_mul, sgn_abs, one_mul,
      abs_of_nonneg (le_of_lt (pow2_pos _)), abs_of_nonneg (Nat.cast_nonneg _)]

theorem toRat_eq_sgn_mul_abs {fmt : Fmt} (b : FPBits fmt) :
    toRat b = sgn b.sign * |toRat b| := by
  rw [abs_toRat]
  unfold toRat
  split_ifs with h <;> cases hs : b.sign <;> simp [sgn] <;> ring

theorem classify_cases {fmt : Fmt} (b : FPBits fmt) (hfin : b.exponent ≠ fmt.expTop) :
    (classify b = .zero ∧ b.exponent = 0 ∧ b.mantissa = 0) ∨
    (classify b = .subnormal ∧ b.exponent = 0 ∧ b.mantissa ≠ 0) ∨
    (classify b = .normal ∧ b.exponent ≠ 0) := by
  unfold classify
  rw [if_neg hfin]
  by_cases h0 : b.exponent = 0
  · by_cases hm : b.mantissa = 0
    · left
      simp [h0, hm]
    · right; left
      simp [h0, hm]
  · right; right
    simp [h0]

theorem classify_normal_exponent {fmt : Fmt} (b : FPBits fmt)
    (h : classify b = .normal) : b.exponent ≠ 0 ∧ b.exponent ≠ fmt.expTop := by
  unfold classify at h
  split_ifs at h with h1 h2 <;> simp_all

theorem classify_subnormal_fields {fmt : Fmt} (b : FPBits fmt)
    (h : classify b = .subnormal) : b.exponent = 0 ∧ b.mantissa ≠ 0 := by
  unfold classify at h
  split_ifs at h with h1 h2 h3 <;> simp_all

theorem classify_zero_fields {fmt : Fmt} (b : FPBits fmt)
    (h : classify b = .zero) : b.exponent = 0 ∧ b.mantissa = 0 := by
  unfold classify at h
  split_ifs at h with h1 h2 h3 <;> simp_all

theorem classify_inf_fields {fmt : Fmt} (b : FPBits fmt)
    (h : classify b = .inf) : b.exponent = fmt.expTop ∧ b.mantissa = 0 := by
  unfold classify at h
  split_ifs at h with h1 h2 h3 <;> simp_all

theorem classify_nan_fields {fmt : Fmt} (b : FPBits fmt)
    (h : classify b = .nan) : b.exponent = fmt.expTop ∧ b.mantissa ≠ 0 := by
  unfold classify at h
  split_ifs at h with h1 h2 h3 <;> simp_all

theorem toRat_of_zero_class {fmt : Fmt} (b : FPBits fmt)
    (h : classify b = .zero) : toRat b = 0 := by
  obtain ⟨h0, hm⟩ := classify_zero_fields b h
  unfold toRat
  rw [if_pos h0, hm]
  simp

/-- The magnitude of a nonzero finite bit pattern is bracketed by consecutive
powers of two at `GET_EXP_FLT`. -/
theorem getExp_char {fmt : Fmt} (hprec : 2 ≤ fmt.prec) (b : FPBits fmt) (hWF : b.WF)
    (hcls : classify b = .normal ∨ classify b = .subnormal) :
    (2:ℚ) ^ (GET_EXP_FLT b) ≤ |toRat b| ∧ |toRat b| < 2 ^ (GET_EXP_FLT b + 1) := by
  obtain ⟨hew, hmw⟩ := hWF
  have hm1 : (1 : ℕ) ≤ fmt.mantBits := by
    unfold Fmt.mantBits
    omega
  have hz : (2:ℚ) ≠ 0 := two_ne_zero
  rcases hcls with hn | hs
  · obtain ⟨h0, _⟩ := classify_normal_exponent b hn
    rw [abs_toRat, if_neg h0]
    unfold GET_EXP_FLT
    rw [if_neg h0, pow2_eq]
    have hsplit : (2:ℕ) ^ fmt.prec = 2 ^ fmt.mantBits * 2 := by
      rw [← pow_succ]
      congr 1
      unfold Fmt.mantBits
      omega
    have hMlo : ((2 ^ fmt.mantBits : ℕ) : ℚ) ≤ ((npow2 fmt.mantBits + b.mantissa : ℕ) : ℚ) := by
      apply Nat.cast_le.mpr
      rw [npow2_eq]
      omega
    have hMhi : ((npow2 fmt.mantBits + b.mantissa : ℕ) : ℚ) < ((2 ^ fmt.prec : ℕ) : ℚ) := by
      apply Nat.cast_lt.mpr
      rw [npow2_eq]
      omega
    have hp2 : ((2 ^ fmt.prec : ℕ) : ℚ) = (2:ℚ) ^ (fmt.prec : ℤ) := by
      rw [Nat.cast_pow, ← zpow_natCast]
      norm_num
    have hp2' : ((2 ^ fmt.mantBits : ℕ) : ℚ) = (2:ℚ) ^ ((fmt.prec : ℤ) - 1) := by
      rw [Nat.cast_pow, ← zpow_natCast,
        show ((fmt.mantBits : ℕ) : ℤ) = (fmt.prec : ℤ) - 1 by unfold Fmt.mantBits; omega]
      norm_num
    constructor
    · have heq : (2:ℚ) ^ ((b.exponent : ℤ) - fmt.bias) =
          (2:ℚ) ^ ((fmt.prec : ℤ) - 1) * 2 ^ ((b.exponent : ℤ) - fmt.bias - fmt.mantBits) := by
        rw [← zpow_add₀ hz]
        congr 1
        unfold Fmt.mantBits
        omega
      rw [heq]
      apply mul_le_mul_of_nonneg_right _ (le_of_lt (by positivity))
      rw [← hp2']
      exact hMlo
    · have heq : (2:ℚ) ^ (fmt.prec : ℤ) * 2 ^ ((b.exponent : ℤ) - fmt.bias - fmt.mantBits) =
          2 ^ ((b.exponent : ℤ) - fmt.bias + 1) := by
        rw [← zpow_add₀ hz]
        congr 1
        unfold Fmt.mantBits
        omega
      rw [← heq, ← hp2]
      apply mul_lt_mul_of_pos_right hMhi (by positivity)
  · obtain ⟨h0, hm⟩ := classify_subnormal_fields b hs
    rw [abs_toRat, if_pos h0]
    unfold GET_EXP_FLT
    rw [if_pos h0, pow2_eq]
    obtain ⟨hl1, hl2⟩ := ilog2Nat_spec b.mantissa (by omega)
    have hc1 : ((2:ℚ) ^ (ilog2Nat b.mantissa : ℤ)) ≤ (b.mantissa : ℚ) := by
      rw [show ((ilog2Nat b.mantissa : ℤ)) = ((ilog2Nat b.mantissa : ℕ) : ℤ) from rfl,
        zpow_natCast]
      exact_mod_cast hl1
    have hc2 : (b.mantissa : ℚ) < (2:ℚ) ^ ((ilog2Nat b.mantissa : ℤ) + 1) := by
      rw [show ((ilog2Nat b.mantissa : ℤ) + 1) = ((ilog2Nat b.mantissa + 1 : ℕ) : ℤ) by omega,
        zpow_natCast]
      exact_mod_cast hl2
    constructor
    · have heq : (2:ℚ) ^ ((ilog2Nat b.mantissa : ℤ) + fmt.gridMin) =
          (2:ℚ) ^ (ilog2Nat b.mantissa : ℤ) * 2 ^ fmt.gridMin := by
        rw [← zpow_add₀ hz]
      rw [heq]
      exact mul_le_mul_of_nonneg_right hc1 (le_of_lt (by positivity))
    · have heq : (2:ℚ) ^ ((ilog2Nat b.mantissa : ℤ) + 1) * 2 ^ fmt.gridMin =
          2 ^ ((ilog2Nat b.mantissa : ℤ) + fmt.gridMin + 1) := by
        rw [← zpow_add₀ hz]
        congr 1
        ring
      rw [← heq]
      exact mul_lt_mul_of_pos_right hc2 (by positivity)


/-- A nonzero finite bit pattern has a nonzero value. -/
theorem toRat_ne_zero {fmt : Fmt} (hprec : 2 ≤ fmt.prec) (b : FPBits fmt) (hWF : b.WF)
    (hcls : classify b = .normal ∨ classify b = .subnormal) : toRat b ≠ 0 := by
  have h := (getExp_char hprec b hWF hcls).1
  intro h0
  rw [h0] at h
  simp only [abs_zero] at h
  have : (0:ℚ) < 2 ^ (GET_EXP_FLT b) := by positivity
  linarith

/-- `maxFinite`, written with integer powers of two. -/
theorem maxFinite_eq (fmt : Fmt) :
    fmt.maxFinite = ((2:ℚ) ^ (fmt.prec : ℤ) - 1) * 2 ^ (fmt.emax - fmt.mantBits) := by
  unfold Fmt.maxFinite
  rw [npow2_eq, pow2_eq, Nat.cast_sub Nat.one_le_two_pow, Nat.cast_pow, ← zpow_natCast]
  norm_num

/-- Every finite well-formed bit pattern carries a finite value of the
format. -/
theorem fits_toRat {fmt : Fmt} (hprec : 2 ≤ fmt.prec) (hw : 2 ≤ fmt.w)
    (b : FPBits fmt) (hWF : b.WF) (hfin : b.exponent ≠ fmt.expTop) :
    Fits fmt (toRat b) := by
  obtain ⟨hew, hmw⟩ := hWF
  have hz : (2:ℚ) ≠ 0 := two_ne_zero
  have hsplitp : (2:ℕ) ^ fmt.prec = 2 ^ fmt.mantBits * 2 := by
    rw [← pow_succ]
    congr 1
    unfold Fmt.mantBits
    omega
  have hsplitw : ((2:ℤ)) ^ fmt.w = 2 ^ (fmt.w - 1) * 2 := by
    rw [← pow_succ]
    congr 1
    omega
  have hEle : (b.exponent : ℤ) ≤ 2 ^ fmt.w - 2 := by
    have h1 : (1:ℕ) ≤ 2 ^ fmt.w := Nat.one_le_two_pow
    have h2 : b.exponent ≠ 2 ^ fmt.w - 1 := by
      unfold Fmt.expTop at hfin
      exact hfin
    have h4 : (((2:ℕ) ^ fmt.w : ℕ) : ℤ) = (2:ℤ) ^ fmt.w := by push_cast; ring
    omega
  have hbiaspos : (1:ℤ) ≤ fmt.bias := by
    unfold Fmt.bias
    have h2 : (2:ℤ) ^ 1 ≤ 2 ^ (fmt.w - 1) := pow_le_pow_right₀ one_le_two (by omega)
    norm_num at h2
    omega
  have hgle : fmt.gridMin ≤ fmt.emax - fmt.mantBits := by
    unfold Fmt.gridMin Fmt.emin Fmt.emax
    omega
  have hMq : ((npow2 fmt.mantBits + b.mantissa : ℕ) : ℚ) ≤ (2:ℚ) ^ (fmt.prec : ℤ) - 1 := by
    have hn : npow2 fmt.mantBits + b.mantissa ≤ 2 ^ fmt.prec - 1 := by
      rw [npow2_eq]
      omega
    have hc : ((2 ^ fmt.prec - 1 : ℕ) : ℚ) = (2:ℚ) ^ (fmt.prec : ℤ) - 1 := by
      rw [Nat.cast_sub Nat.one_le_two_pow, Nat.cast_pow, ← zpow_natCast]
      norm_num
    have h5 : ((npow2 fmt.mantBits + b.mantissa : ℕ) : ℚ) ≤ ((2 ^ fmt.prec - 1 : ℕ) : ℚ) := by
      exact_mod_cast hn
    rw [← hc]
    exact h5
  have hmq : (b.mantissa : ℚ) ≤ (2:ℚ) ^ (fmt.prec : ℤ) - 1 := by
    have hn : b.mantissa ≤ 2 ^ fmt.prec - 1 := by omega
    have hc : ((2 ^ fmt.prec - 1 : ℕ) : ℚ) = (2:ℚ) ^ (fmt.prec : ℤ) - 1 := by
      rw [Nat.cast_sub Nat.one_le_two_pow, Nat.cast_pow, ← zpow_natCast]
      norm_num
    have h5 : (b.mantissa : ℚ) ≤ ((2 ^ fmt.prec - 1 : ℕ) : ℚ) := by exact_mod_cast hn
    rw [← hc]
    exact h5
  have habs : |toRat b| ≤ fmt.maxFinite := by
    rw [abs_toRat, maxFinite_eq]
    have hones : (1:ℚ) ≤ (2:ℚ) ^ (fmt.prec : ℤ) := one_le_zpow₀ one_le_two (by positivity)
    split_ifs with h0
    · rw [pow2_eq]
      apply mul_le_mul hmq (zpow_le_zpow_right₀ one_le_two hgle)
        (le_of_lt (by positivity)) (by linarith)
    · rw [pow2_eq]
      have hexp : (b.exponent : ℤ) - fmt.bias - fmt.mantBits ≤ fmt.emax - fmt.mantBits := by
        unfold Fmt.emax Fmt.bias at *
        omega
      apply mul_le_mul hMq (zpow_le_zpow_right₀ one_le_two hexp)
        (le_of_lt (by positivity)) (by linarith)
  refine ⟨?_, habs⟩
  unfold toRat
  split_ifs with h0
  · refine ⟨(if b.sign then -(b.mantissa:ℤ) else b.mantissa), fmt.gridMin, ?_, ?_, le_rfl⟩
    · cases hs : b.sign <;> simp [sgn, pow2_eq] <;> push_cast <;> ring
    · have hlt : (b.mantissa : ℤ) < 2 ^ fmt.prec := by
        have h2 : (2:ℤ) ^ fmt.mantBits ≤ 2 ^ fmt.prec := by
          apply pow_le_pow_right₀ one_le_two
          unfold Fmt.mantBits
          omega
        have h3 : (b.mantissa : ℤ) < 2 ^ fmt.mantBits := by exact_mod_cast hmw
        omega
      cases hs : b.sign
      · rw [show (if (false : Bool) = true then -(b.mantissa:ℤ) else (b.mantissa:ℤ)) = (b.mantissa:ℤ) from rfl, Int.abs_natCast]
        exact_mod_cast hlt
      · rw [show (if (true : Bool) = true then -(b.mantissa:ℤ) else (b.mantissa:ℤ)) = -(b.mantissa:ℤ) from rfl, abs_neg, Int.abs_natCast]
        exact_mod_cast hlt
  · refine ⟨(if b.sign then -((npow2 fmt.mantBits + b.mantissa : ℕ):ℤ)
        else (npow2 fmt.mantBits + b.mantissa : ℕ)),
      (b.exponent : ℤ) - fmt.bias - fmt.mantBits, ?_, ?_, ?_⟩
    · cases hs : b.sign <;> simp [sgn, pow2_eq] <;> push_cast <;> ring
    · have hval : ((npow2 fmt.mantBits + b.mantissa : ℕ) : ℤ) < 2 ^ fmt.prec := by
        have hn : npow2 fmt.mantBits + b.mantissa < 2 ^ fmt.prec := by
          rw [npow2_eq]
          omega
        have h4 : (((2:ℕ) ^ fmt.prec : ℕ) : ℤ) = (2:ℤ) ^ fmt.prec := by push_cast; ring
        omega
      cases hs : b.sign
      · rw [show (if (false : Bool) = true then -((npow2 fmt.mantBits + b.mantissa : ℕ):ℤ) else ((npow2 fmt.mantBits + b.mantissa : ℕ):ℤ)) = ((npow2 fmt.mantBits + b.mantissa : ℕ):ℤ) from rfl, Int.abs_natCast]
        exact_mod_cast hval
      · rw [show (if (true : Bool) = true then -((npow2 fmt.mantBits + b.mantissa : ℕ):ℤ) else ((npow2 fmt.mantBits + b.mantissa : ℕ):ℤ)) = -((npow2 fmt.mantBits + b.mantissa : ℕ):ℤ) from rfl, abs_neg, Int.abs_natCast]
        exact_mod_cast hval
    · unfold Fmt.gridMin Fmt.emin
      have : (1:ℤ) ≤ (b.exponent : ℤ) := by
        have h1 : b.exponent ≠ 0 := h0
        omega
      omega

/-! ## Value and well-formedness of the encoder and the rounder -/

theorem pow2_add (a b : ℤ) : pow2 (a + b) = pow2 a * pow2 b := by
  rw [pow2_eq, pow2_eq, pow2_eq]
  exact zpow_add₀ two_ne_zero a b

theorem pow2_le_pow2 (a b : ℤ) (h : a ≤ b) : pow2 a ≤ pow2 b := by
  rw [pow2_eq, pow2_eq]
  exact zpow_le_zpow_right₀ one_le_two h

theorem pow2_lt_pow2_rev (a b : ℤ) (h : pow2 a < pow2 b) : a < b := by
  by_contra hc
  push_neg at hc
  exact absurd (pow2_le_pow2 b a hc) (not_le.mpr h)

theorem maxFinite_lt (fmt : Fmt) (hprec : 2 ≤ fmt.prec) :
    fmt.maxFinite < pow2 (fmt.emax + 1) := by
  rw [maxFinite_eq, pow2_eq]
  have h1 : (2:ℚ) ^ (fmt.emax + 1) =
      (2:ℚ) ^ (fmt.prec : ℤ) * 2 ^ (fmt.emax - fmt.mantBits) := by
    rw [← zpow_add₀ two_ne_zero]
    have he : (fmt.prec : ℤ) + (fmt.emax - fmt.mantBits) = fmt.emax + 1 := by
      unfold Fmt.mantBits
      omega
    rw [he]
  have h2 : (0:ℚ) < (2:ℚ) ^ (fmt.emax - (fmt.mantBits : ℤ)) := by positivity
  have h3 : ((2:ℚ) ^ (fmt.prec : ℤ) - 1) < (2:ℚ) ^ (fmt.prec : ℤ) := by linarith
  rw [h1]
  exact mul_lt_mul_of_pos_right h3 h2

theorem toRat_mk_zeroexp {fmt : Fmt} (s : Bool) (m : ℕ) :
    toRat (⟨s, 0, m⟩ : FPBits fmt) = sgn s * m * pow2 fmt.gridMin := by
  unfold toRat
  rw [if_pos rfl]

theorem toRat_mk_normalexp {fmt : Fmt} (s : Bool) (e m : ℕ) (he : e ≠ 0) :
    toRat (⟨s, e, m⟩ : FPBits fmt) =
      sgn s * ((npow2 fmt.mantBits + m : ℕ) : ℚ) *
        pow2 ((e : ℤ) - fmt.bias - fmt.mantBits) := by
  unfold toRat
  rw [if_neg he]

theorem encodeKG_spec {fmt : Fmt} (hprec : 2 ≤ fmt.prec) (hw : 2 ≤ fmt.w)
    (sign : Bool) (k g : ℤ)
    (hk0 : 0 ≤ k) (hkp : k ≤ 2 ^ fmt.prec) (hg : fmt.gridMin ≤ g)
    (hnorm : k < 2 ^ fmt.mantBits → g = fmt.gridMin)
    (hmax : (k : ℚ) * pow2 g ≤ fmt.maxFinite) :
    toRat (encodeKG fmt sign k g) = sgn sign * ((k : ℚ) * pow2 g) ∧
    (encodeKG fmt sign k g).WF ∧
    (encodeKG fmt sign k g).exponent ≠ fmt.expTop ∧
    (encodeKG fmt sign k g).sign = sign := by
  have hM1 : 1 ≤ fmt.mantBits := by
    unfold Fmt.mantBits
    omega
  have hMp : fmt.mantBits + 1 = fmt.prec := by
    unfold Fmt.mantBits
    omega
  have hbias : 1 ≤ fmt.bias := by
    unfold Fmt.bias
    have : (2:ℤ) ^ 1 ≤ 2 ^ (fmt.w - 1) := pow_le_pow_right₀ one_le_two (by omega)
    omega
  have hgrid : fmt.gridMin = 1 - fmt.bias - fmt.mantBits := by
    unfold Fmt.gridMin Fmt.emin
    ring
  have htop4 : 4 ≤ 2 ^ fmt.w := by
    have : (2:ℕ) ^ 2 ≤ 2 ^ fmt.w := Nat.pow_le_pow_right (by omega) hw
    omega
  have htopv : fmt.expTop = 2 ^ fmt.w - 1 := rfl
  have hemaxv : fmt.emax = fmt.bias := rfl
  have hbias2 : fmt.bias + fmt.bias = ((2 ^ fmt.w : ℕ) : ℤ) - 2 := by
    unfold Fmt.bias
    have h1 : ((2:ℤ)) ^ fmt.w = 2 ^ (fmt.w - 1) * 2 := by
      rw [← pow_succ]
      congr 1
      omega
    have h2 : ((2 ^ fmt.w : ℕ) : ℤ) = (2:ℤ) ^ fmt.w := by
      push_cast
      ring
    omega
  have hPZ : ((npow2 fmt.prec : ℕ) : ℤ) = 2 ^ fmt.prec := by
    rw [npow2_eq]
    push_cast
    ring
  have hMZ : ((npow2 fmt.mantBits : ℕ) : ℤ) = 2 ^ fmt.mantBits := by
    rw [npow2_eq]
    push_cast
    ring
  have hsplit : (2:ℤ) ^ fmt.prec = 2 ^ fmt.mantBits * 2 := by
    rw [← pow_succ, hMp]
  have hMposZ : (0:ℤ) < 2 ^ fmt.mantBits := by positivity
  -- magnitude bound ⇒ exponent-field upper bound
  have hgbound : (2:ℤ) ^ fmt.mantBits ≤ k → g + fmt.mantBits ≤ fmt.emax := by
    intro hklo
    have h1 : (2:ℚ) ^ ((fmt.mantBits : ℤ) + g) ≤ (k : ℚ) * pow2 g := by
      rw [zpow_add₀ two_ne_zero, ← pow2_eq g]
      apply mul_le_mul_of_nonneg_right _ (le_of_lt (pow2_pos g))
      have hc : (((2:ℤ) ^ fmt.mantBits : ℤ) : ℚ) ≤ (k : ℚ) := by exact_mod_cast hklo
      calc (2:ℚ) ^ ((fmt.mantBits : ℤ)) = (((2:ℤ) ^ fmt.mantBits : ℤ) : ℚ) := by
            push_cast
            norm_num
        _ ≤ (k : ℚ) := hc
    have h2 : pow2 ((fmt.mantBits : ℤ) + g) < pow2 (fmt.emax + 1) := by
      rw [pow2_eq]
      calc (2:ℚ) ^ ((fmt.mantBits : ℤ) + g) ≤ (k : ℚ) * pow2 g := h1
        _ ≤ fmt.maxFinite := hmax
        _ < pow2 (fmt.emax + 1) := maxFinite_lt fmt hprec
    have h3 := pow2_lt_pow2_rev _ _ h2
    omega
  unfold encodeKG
  by_cases hk0' : k = 0
  · rw [if_pos hk0']
    subst hk0'
    refine ⟨?_, ⟨by show (0:ℕ) < 2 ^ fmt.w; positivity,
        by show (0:ℕ) < 2 ^ fmt.mantBits; positivity⟩, ?_, rfl⟩
    · rw [toRat_zeroBits]
      push_cast
      ring
    · show (0 : ℕ) ≠ fmt.expTop
      rw [htopv]
      omega
  · rw [if_neg hk0']
    by_cases hkA : k = ((npow2 fmt.prec : ℕ) : ℤ)
    · have hkv : k = (2:ℤ) ^ fmt.prec := by rw [hkA, hPZ]
      simp only [if_pos hkA]
      rw [if_neg (lt_irrefl _)]
      have hge : g + (fmt.mantBits : ℤ) + 1 ≤ fmt.emax := by
        have h1 : (2:ℚ) ^ ((fmt.prec : ℤ) + g) ≤ (k : ℚ) * pow2 g := by
          rw [zpow_add₀ two_ne_zero, ← pow2_eq g]
          apply mul_le_mul_of_nonneg_right _ (le_of_lt (pow2_pos g))
          rw [hkv]
          push_cast
          norm_num
        have h2 : pow2 ((fmt.prec : ℤ) + g) < pow2 (fmt.emax + 1) := by
          rw [pow2_eq]
          calc (2:ℚ) ^ ((fmt.prec : ℤ) + g) ≤ (k : ℚ) * pow2 g := h1
            _ ≤ fmt.maxFinite := hmax
            _ < pow2 (fmt.emax + 1) := maxFinite_lt fmt hprec
        have h3 := pow2_lt_pow2_rev _ _ h2
        omega
      have hfield1 : 1 ≤ g + 1 + (fmt.mantBits : ℤ) + fmt.bias := by
        rw [hgrid] at hg
        omega
      have hfield2 : g + 1 + (fmt.mantBits : ℤ) + fmt.bias ≤ ((2 ^ fmt.w : ℕ) : ℤ) - 2 := by
        omega
    
      refine ⟨?_, ⟨?_, by simp only [sub_self, Int.toNat_zero]; positivity⟩, ?_, rfl⟩
      · rw [sub_self]
        rw [toRat_mk_normalexp sign _ _ (by omega)]
        rw [Int.toNat_zero, Nat.add_zero, npow2_eq]
        rw [show (((g + 1 + (fmt.mantBits : ℤ) + fmt.bias).toNat : ℤ)) =
          g + 1 + fmt.mantBits + fmt.bias from Int.toNat_of_nonneg (by omega)]
        rw [show (g + 1 + (fmt.mantBits : ℤ) + fmt.bias) - fmt.bias - fmt.mantBits =
          g + 1 from by ring]
        rw [pow2_add, hkv]
        have hcast2 : ((2 ^ fmt.mantBits : ℕ) : ℚ) * pow2 1 = (((2:ℤ) ^ fmt.prec : ℤ) : ℚ) := by
          rw [show pow2 1 = (2:ℚ) from by rw [pow2_eq]; norm_num]
          push_cast
          rw [← hMp, pow_succ]
        calc sgn sign * ((2 ^ fmt.mantBits : ℕ) : ℚ) * (pow2 g * pow2 1)
            = sgn sign * (((2 ^ fmt.mantBits : ℕ) : ℚ) * pow2 1) * pow2 g := by ring
          _ = sgn sign * ((((2:ℤ) ^ fmt.prec : ℤ) : ℚ)) * pow2 g := by rw [hcast2]
          _ = sgn sign * ((((2:ℤ) ^ fmt.prec : ℤ) : ℚ) * pow2 g) := by ring
      · show (g + 1 + (fmt.mantBits : ℤ) + fmt.bias).toNat < 2 ^ fmt.w
        omega
      · show (g + 1 + (fmt.mantBits : ℤ) + fmt.bias).toNat ≠ fmt.expTop
        rw [htopv]
        omega
    · simp only [if_neg hkA]
      have hkne : k ≠ (2:ℤ) ^ fmt.prec := by
        rw [← hPZ]
        exact hkA
      by_cases hkB : k < ((npow2 fmt.mantBits : ℕ) : ℤ)
      · rw [if_pos hkB]
        have hkBv : k < (2:ℤ) ^ fmt.mantBits := by rw [← hMZ]; exact hkB
        have hgm := hnorm hkBv
        refine ⟨?_, ⟨by show (0:ℕ) < 2 ^ fmt.w; positivity, ?_⟩, ?_, rfl⟩
        · rw [toRat_mk_zeroexp]
          rw [show ((k.toNat : ℕ) : ℚ) = (k : ℚ) from by
            rw [show ((k.toNat : ℕ) : ℚ) = ((k.toNat : ℤ) : ℚ) from by push_cast; ring,
              Int.toNat_of_nonneg hk0]]
          rw [hgm]
          ring
        · show k.toNat < 2 ^ fmt.mantBits
          have : ((2 ^ fmt.mantBits : ℕ) : ℤ) = (2:ℤ) ^ fmt.mantBits := by
            push_cast
            ring
          omega
        · show (0 : ℕ) ≠ fmt.expTop
          rw [htopv]
          omega
      · rw [if_neg hkB]
        have hkBv : (2:ℤ) ^ fmt.mantBits ≤ k := by
          rw [← hMZ]
          omega
        have hge := hgbound hkBv
        have hfield1 : 1 ≤ g + (fmt.mantBits : ℤ) + fmt.bias := by
          rw [hgrid] at hg
          omega
        have hfield2 : g + (fmt.mantBits : ℤ) + fmt.bias ≤ ((2 ^ fmt.w : ℕ) : ℤ) - 2 := by
          omega
        refine ⟨?_, ⟨?_, ?_⟩, ?_, rfl⟩
        · rw [toRat_mk_normalexp sign _ _ (by omega)]
          rw [show (((g + (fmt.mantBits : ℤ) + fmt.bias).toNat : ℤ)) =
            g + fmt.mantBits + fmt.bias from Int.toNat_of_nonneg (by omega)]
          rw [show (g + (fmt.mantBits : ℤ) + fmt.bias) - fmt.bias - fmt.mantBits =
            g from by ring]
          have hcast3 : ((npow2 fmt.mantBits + (k - ((npow2 fmt.mantBits : ℕ) : ℤ)).toNat : ℕ) : ℚ) =
              (k : ℚ) := by
            have h1 : ((npow2 fmt.mantBits + (k - ((npow2 fmt.mantBits : ℕ) : ℤ)).toNat : ℕ) : ℤ) =
                k := by
              push_cast
              rw [Int.toNat_of_nonneg (by omega)]
              omega
            calc ((npow2 fmt.mantBits + (k - ((npow2 fmt.mantBits : ℕ) : ℤ)).toNat : ℕ) : ℚ)
                = (((npow2 fmt.mantBits + (k - ((npow2 fmt.mantBits : ℕ) : ℤ)).toNat : ℕ) : ℤ) : ℚ) := by
                  push_cast
                  ring
              _ = (k : ℚ) := by rw [h1]
          rw [hcast3]
          ring
        · show (g + (fmt.mantBits : ℤ) + fmt.bias).toNat < 2 ^ fmt.w
          omega
        · show (k - ((npow2 fmt.mantBits : ℕ) : ℤ)).toNat < 2 ^ fmt.mantBits
          have hc : ((2 ^ fmt.mantBits : ℕ) : ℤ) = (2:ℤ) ^ fmt.mantBits := by
            push_cast
            ring
          omega
        · show (g + (fmt.mantBits : ℤ) + fmt.bias).toNat ≠ fmt.expTop
          rw [htopv]
          omega

theorem pow2_natCast (n : ℕ) : pow2 (n : ℤ) = (((2:ℤ) ^ n : ℤ) : ℚ) := by
  rw [pow2_eq]
  push_cast
  norm_num

theorem pow2_one : pow2 (1 : ℤ) = 2 := by
  rw [pow2_eq]
  norm_num

theorem pow2_neg_one : pow2 (-1 : ℤ) = 1/2 := by
  rw [pow2_eq]
  norm_num

theorem roundRat_val {fmt : Fmt} (hprec : 2 ≤ fmt.prec) (hw : 2 ≤ fmt.w)
    (sign : Bool) (x : ℚ) (hx : 0 < x) (hbound : x < pow2 fmt.emax) :
    toRat (roundRat fmt sign x) =
      sgn sign * ((rne (x / pow2 (max fmt.gridMin (ratLog2 x - fmt.mantBits))) : ℚ) *
        pow2 (max fmt.gridMin (ratLog2 x - fmt.mantBits))) ∧
    (roundRat fmt sign x).WF ∧
    (roundRat fmt sign x).exponent ≠ fmt.expTop ∧
    (roundRat fmt sign x).sign = sign ∧
    roundRat fmt sign x =
      encodeKG fmt sign (rne (x / pow2 (max fmt.gridMin (ratLog2 x - fmt.mantBits))))
        (max fmt.gridMin (ratLog2 x - fmt.mantBits)) := by
  set G := max fmt.gridMin (ratLog2 x - fmt.mantBits) with hG
  have hM1 : 1 ≤ fmt.mantBits := by
    unfold Fmt.mantBits
    omega
  have hMp : fmt.mantBits + 1 = fmt.prec := by
    unfold Fmt.mantBits
    omega
  have hbias : 1 ≤ fmt.bias := by
    unfold Fmt.bias
    have : (2:ℤ) ≤ 2 ^ (fmt.w - 1) := by
      calc (2:ℤ) = 2 ^ 1 := by ring
        _ ≤ 2 ^ (fmt.w - 1) := pow_le_pow_right₀ one_le_two (by omega)
    omega
  have hemaxv : fmt.emax = fmt.bias := rfl
  have hgrid : fmt.gridMin = 1 - fmt.bias - fmt.mantBits := by
    unfold Fmt.gridMin Fmt.emin
    ring
  obtain ⟨hL1, hL2⟩ := ratLog2_spec x hx
  have hL2' : x < pow2 (ratLog2 x + 1) := by
    rw [pow2_eq]
    exact hL2
  have hL1' : pow2 (ratLog2 x) ≤ x := by
    rw [pow2_eq]
    exact hL1
  have hLlt : ratLog2 x < fmt.emax := pow2_lt_pow2_rev _ _ (lt_of_le_of_lt hL1' hbound)
  have hq : 0 < x / pow2 G := div_pos hx (pow2_pos _)
  have hgmax : G ≤ fmt.emax - 1 - fmt.mantBits := by
    rw [hG]
    apply max_le
    · omega
    · omega
  have hqhi : x / pow2 G ≤ (((2:ℤ) ^ fmt.prec : ℤ) : ℚ) := by
    rw [div_le_iff₀ (pow2_pos _)]
    have h1 : (((2:ℤ) ^ fmt.prec : ℤ) : ℚ) * pow2 G = pow2 ((fmt.prec : ℤ) + G) := by
      rw [← pow2_natCast, ← pow2_add]
    rw [h1]
    apply le_of_lt
    calc x < pow2 (ratLog2 x + 1) := hL2'
      _ ≤ pow2 ((fmt.prec : ℤ) + G) := by
        apply pow2_le_pow2
        have := le_max_right fmt.gridMin (ratLog2 x - fmt.mantBits)
        rw [hG]
        omega
  have hk0 : 0 ≤ rne (x / pow2 G) := rne_nonneg _ (le_of_lt hq)
  have hkp : rne (x / pow2 G) ≤ 2 ^ fmt.prec := rne_le_of_le _ _ hqhi
  have hgg : fmt.gridMin ≤ G := le_max_left _ _
  have hnorm : rne (x / pow2 G) < 2 ^ fmt.mantBits → G = fmt.gridMin := by
    intro hkM
    rcases le_or_lt (ratLog2 x - fmt.mantBits) fmt.gridMin with hc | hc
    · rw [hG]
      exact max_eq_left hc
    · exfalso
      have hmx : G = ratLog2 x - fmt.mantBits := by
        rw [hG]
        exact max_eq_right (le_of_lt hc)
      have hqlo : (((2:ℤ) ^ fmt.mantBits : ℤ) : ℚ) ≤ x / pow2 G := by
        rw [le_div_iff₀ (pow2_pos _), hmx]
        have h1 : (((2:ℤ) ^ fmt.mantBits : ℤ) : ℚ) * pow2 (ratLog2 x - fmt.mantBits) =
            pow2 (ratLog2 x) := by
          rw [← pow2_natCast, ← pow2_add]
          rw [show ((fmt.mantBits : ℤ) + (ratLog2 x - fmt.mantBits)) = ratLog2 x from by ring]
        rw [h1]
        exact hL1'
      have := rne_ge_of_ge _ _ hqlo
      omega
  have hkhalf : ((rne (x / pow2 G) : ℤ) : ℚ) ≤ x / pow2 G + 1/2 := by
    have h := abs_rne_sub_le (x / pow2 G)
    rw [abs_le] at h
    linarith [h.2]
  have hover : ¬ (fmt.maxFinite < (rne (x / pow2 G) : ℚ) * pow2 G) := by
    apply not_lt.mpr
    have h1 : (rne (x / pow2 G) : ℚ) * pow2 G ≤ (x / pow2 G + 1/2) * pow2 G :=
      mul_le_mul_of_nonneg_right hkhalf (le_of_lt (pow2_pos G))
    have h2 : (x / pow2 G + 1/2) * pow2 G = x + pow2 (G - 1) := by
      rw [add_mul, div_mul_cancel₀ x (ne_of_gt (pow2_pos G))]
      rw [show pow2 (G - 1) = pow2 (-1 : ℤ) * pow2 G from by
        rw [← pow2_add]
        rw [show ((-1 : ℤ) + G) = G - 1 from by ring]]
      rw [pow2_neg_one]
    have hMF : fmt.maxFinite = pow2 (fmt.emax + 1) - pow2 (fmt.emax - fmt.mantBits) := by
      rw [maxFinite_eq, pow2_eq, pow2_eq, sub_mul, one_mul, ← zpow_add₀ two_ne_zero]
      rw [show ((fmt.prec : ℤ) + (fmt.emax - fmt.mantBits)) = fmt.emax + 1 from by
        unfold Fmt.mantBits
        push_cast
        omega]
    have p1 : pow2 (G - 1) ≤ pow2 (fmt.emax - 1) := pow2_le_pow2 _ _ (by omega)
    have e2 : pow2 (fmt.emax - fmt.mantBits) ≤ pow2 (fmt.emax - 1) :=
      pow2_le_pow2 _ _ (by omega)
    have e4 : pow2 (fmt.emax - 1) * 2 = pow2 fmt.emax := by
      rw [show (2:ℚ) = pow2 (1:ℤ) from pow2_one.symm, ← pow2_add]
      rw [show (fmt.emax - 1 + 1) = fmt.emax from by ring]
    have e5 : pow2 (fmt.emax + 1) = pow2 fmt.emax * 2 := by
      rw [show (2:ℚ) = pow2 (1:ℤ) from pow2_one.symm, ← pow2_add]
    calc (rne (x / pow2 G) : ℚ) * pow2 G ≤ x + pow2 (G - 1) := by
          rw [← h2]
          exact h1
      _ ≤ fmt.maxFinite := by
          rw [hMF]
          linarith [hbound]
  have hspec := encodeKG_spec hprec hw sign (rne (x / pow2 G)) G hk0 hkp hgg hnorm
    (not_lt.mp hover)
  simp only [roundRat]
  rw [if_neg (not_le.mpr hx), ← hG, if_neg hover]
  exact ⟨hspec.1, hspec.2.1, hspec.2.2.1, hspec.2.2.2, rfl⟩

theorem roundRat_err {fmt : Fmt} (hprec : 2 ≤ fmt.prec) (hw : 2 ≤ fmt.w)
    (sign : Bool) (x : ℚ) (hx : 0 < x) (hbound : x < pow2 fmt.emax) :
    |toRat (roundRat fmt sign x) - sgn sign * x| ≤
      pow2 (max fmt.gridMin (ratLog2 x - fmt.mantBits) - 1) := by
  set G := max fmt.gridMin (ratLog2 x - fmt.mantBits) with hG
  have hval := (roundRat_val hprec hw sign x hx hbound).1
  rw [← hG] at hval
  rw [hval]
  have habs : sgn sign * ((rne (x / pow2 G) : ℚ) * pow2 G) - sgn sign * x =
      sgn sign * ((rne (x / pow2 G) : ℚ) * pow2 G - x) := by ring
  rw [habs, abs_mul, sgn_abs, one_mul]
  have h2 : (rne (x / pow2 G) : ℚ) * pow2 G - x =
      ((rne (x / pow2 G) : ℚ) - x / pow2 G) * pow2 G := by
    rw [sub_mul, div_mul_cancel₀ x (ne_of_gt (pow2_pos G))]
  rw [h2, abs_mul, abs_of_pos (pow2_pos G)]
  have h4 : pow2 (G - 1) = (1/2) * pow2 G := by
    rw [show (G - 1) = (-1 : ℤ) + G from by ring, pow2_add, pow2_neg_one]
  rw [h4]
  exact mul_le_mul_of_nonneg_right (abs_rne_sub_le _) (le_of_lt (pow2_pos G))

theorem roundRat_exact {fmt : Fmt} (hprec : 2 ≤ fmt.prec) (hw : 2 ≤ fmt.w)
    (sign : Bool) (x : ℚ) (hx : 0 < x) (hbound : x < pow2 fmt.emax)
    (hrep : Representable fmt x) :
    toRat (roundRat fmt sign x) = sgn sign * x := by
  set G := max fmt.gridMin (ratLog2 x - fmt.mantBits) with hG
  obtain ⟨k0, g0, hxe, hk0abs, hg0⟩ := hrep
  have hval := (roundRat_val hprec hw sign x hx hbound).1
  rw [← hG] at hval
  rw [hval]
  have hMp : fmt.mantBits + 1 = fmt.prec := by
    unfold Fmt.mantBits
    omega
  have hL1 : (2:ℚ) ^ (ratLog2 x) ≤ x := (ratLog2_spec x hx).1
  have hx2 : x < (2:ℚ) ^ ((fmt.prec : ℤ) + g0) := by
    rw [hxe, zpow_add₀ two_ne_zero]
    have h1 : (k0 : ℚ) ≤ |(k0 : ℚ)| := le_abs_self _
    have h2 : |(k0 : ℚ)| < (2:ℚ) ^ (fmt.prec : ℤ) := by
      have h0 : ((|k0| : ℤ) : ℚ) < (((2:ℤ) ^ fmt.prec : ℤ) : ℚ) := by exact_mod_cast hk0abs
      calc |(k0 : ℚ)| = ((|k0| : ℤ) : ℚ) := by rw [Int.cast_abs]
        _ < (((2:ℤ) ^ fmt.prec : ℤ) : ℚ) := h0
        _ = (2:ℚ) ^ (fmt.prec : ℤ) := by push_cast; norm_num
    have h3 : (0:ℚ) < (2:ℚ) ^ (g0 : ℤ) := by positivity
    calc (k0 : ℚ) * (2:ℚ) ^ (g0 : ℤ) ≤ |(k0 : ℚ)| * (2:ℚ) ^ (g0 : ℤ) :=
          mul_le_mul_of_nonneg_right h1 (le_of_lt h3)
      _ < (2:ℚ) ^ (fmt.prec : ℤ) * (2:ℚ) ^ (g0 : ℤ) :=
          mul_lt_mul_of_pos_right h2 h3
  have hLle : ratLog2 x < (fmt.prec : ℤ) + g0 := by
    apply pow2_lt_pow2_rev
    rw [pow2_eq, pow2_eq]
    exact lt_of_le_of_lt hL1 hx2
  have hGle : G ≤ g0 := by
    rw [hG]
    apply max_le
    · exact hg0
    · omega
  have hint : x / pow2 G = ((k0 * 2 ^ (g0 - G).toNat : ℤ) : ℚ) := by
    rw [div_eq_iff (ne_of_gt (pow2_pos G)), hxe]
    push_cast
    rw [pow2_eq]
    rw [show ((2:ℚ) ^ ((g0 - G).toNat : ℕ)) = (2:ℚ) ^ (((g0 - G).toNat : ℕ) : ℤ) from by
      rw [zpow_natCast]]
    rw [Int.toNat_of_nonneg (by omega : (0:ℤ) ≤ g0 - G)]
    rw [mul_assoc, ← zpow_add₀ two_ne_zero]
    rw [show (g0 - G + G) = g0 from by ring]
  have hfin : ((k0 * 2 ^ (g0 - G).toNat : ℤ) : ℚ) * pow2 G = x := by
    rw [← hint]
    exact div_mul_cancel₀ x (ne_of_gt (pow2_pos G))
  rw [hint, rne_intCast, hfin]

theorem Representable_neg {fmt : Fmt} (x : ℚ) (h : Representable fmt x) :
    Representable fmt (-x) := by
  obtain ⟨k, g, he, hk, hg⟩ := h
  refine ⟨-k, g, ?_, ?_, hg⟩
  · rw [he]
    push_cast
    ring
  · rwa [abs_neg]

theorem roundSigned_err {fmt : Fmt} (hprec : 2 ≤ fmt.prec) (hw : 2 ≤ fmt.w)
    (x : ℚ) (hx : x ≠ 0) (hbound : |x| < pow2 fmt.emax) :
    |toRat (roundSigned fmt x) - x| ≤
      pow2 (max fmt.gridMin (ratLog2 |x| - fmt.mantBits) - 1) := by
  unfold roundSigned
  rcases lt_or_gt_of_ne hx with hneg | hpos
  · rw [if_pos hneg]
    have h1 : |x| = -x := abs_of_neg hneg
    have := roundRat_err hprec hw true (-x) (by linarith) (by rwa [h1] at hbound)
    rw [show sgn true * -x = x from by unfold sgn; simp] at this
    rw [h1]
    exact this
  · rw [if_neg (not_lt.mpr (le_of_lt hpos))]
    have h1 : |x| = x := abs_of_pos hpos
    have := roundRat_err hprec hw false x hpos (by rwa [h1] at hbound)
    rw [show sgn false * x = x from by unfold sgn; simp] at this
    rw [h1]
    exact this

theorem roundSigned_exact {fmt : Fmt} (hprec : 2 ≤ fmt.prec) (hw : 2 ≤ fmt.w)
    (x : ℚ) (hbound : |x| < pow2 fmt.emax) (hrep : Representable fmt x) :
    toRat (roundSigned fmt x) = x := by
  unfold roundSigned
  rcases lt_trichotomy x 0 with hneg | hzero | hpos
  · rw [if_pos hneg]
    have h1 : |x| = -x := abs_of_neg hneg
    have := roundRat_exact hprec hw true (-x) (by linarith) (by rwa [h1] at hbound)
      (Representable_neg x hrep)
    rw [show sgn true * -x = x from by unfold sgn; simp] at this
    exact this
  · rw [hzero]
    rw [if_neg (lt_irrefl 0)]
    unfold roundRat
    rw [if_pos (le_refl 0)]
    exact toRat_zeroBits fmt false
  · rw [if_neg (not_lt.mpr (le_of_lt hpos))]
    have h1 : |x| = x := abs_of_pos hpos
    have := roundRat_exact hprec hw false x hpos (by rwa [h1] at hbound) hrep
    rw [show sgn false * x = x from by unfold sgn; simp] at this
    exact this

/-! ## Sign, class and grid lemmas for the operations -/

theorem toRat_negBits {fmt : Fmt} (b : FPBits fmt) :
    toRat (negBits b) = - toRat b := by
  show (if b.exponent = 0 then sgn (!b.sign) * b.mantissa * pow2 fmt.gridMin
    else sgn (!b.sign) * ((npow2 fmt.mantBits + b.mantissa : ℕ) : ℚ) *
      pow2 ((b.exponent : ℤ) - fmt.bias - fmt.mantBits)) = - toRat b
  unfold toRat
  have hsgn : sgn (!b.sign) = - sgn b.sign := by cases b.sign <;> rfl
  split_ifs <;> rw [hsgn] <;> ring

theorem classify_negBits {fmt : Fmt} (b : FPBits fmt) :
    classify (negBits b) = classify b := by
  unfold classify negBits
  rfl

theorem sign_negBits {fmt : Fmt} (b : FPBits fmt) : (negBits b).sign = !b.sign := rfl

/-- The finite-operand arm of IEEE addition. -/
theorem fpAdd_finite {fmt : Fmt} (a b : FPBits fmt)
    (ha : classify a = .normal ∨ classify a = .subnormal ∨ classify a = .zero)
    (hb : classify b = .normal ∨ classify b = .subnormal ∨ classify b = .zero) :
    fpAdd fmt a b = if toRat a + toRat b = 0 then zeroBits fmt (a.sign && b.sign)
      else roundSigned fmt (toRat a + toRat b) := by
  unfold fpAdd
  rcases ha with h1 | h1 | h1 <;> rcases hb with h2 | h2 | h2 <;> rw [h1, h2]

/-- The finite-operand arm of IEEE multiplication. -/
theorem fpMul_finite {fmt : Fmt} (a b : FPBits fmt)
    (ha : classify a = .normal ∨ classify a = .subnormal ∨ classify a = .zero)
    (hb : classify b = .normal ∨ classify b = .subnormal ∨ classify b = .zero) :
    fpMul fmt a b = if toRat a * toRat b = 0 then zeroBits fmt (xor a.sign b.sign)
      else roundSigned fmt (toRat a * toRat b) := by
  unfold fpMul
  rcases ha with h1 | h1 | h1 <;> rcases hb with h2 | h2 | h2 <;> rw [h1, h2]

/-- The finite-operand arm of IEEE division (nonzero divisor). -/
theorem fpDiv_finite {fmt : Fmt} (a b : FPBits fmt)
    (ha : classify a = .normal ∨ classify a = .subnormal ∨ classify a = .zero)
    (hb : classify b = .normal ∨ classify b = .subnormal) :
    fpDiv fmt a b = if toRat a / toRat b = 0 then zeroBits fmt (xor a.sign b.sign)
      else roundSigned fmt (toRat a / toRat b) := by
  unfold fpDiv
  rcases ha with h1 | h1 | h1 <;> rcases hb with h2 | h2 <;> rw [h1, h2]

/-- Every finite value of the format sits on the grid `2 ^ gridMin`. -/
theorem toRat_grid {fmt : Fmt} (b : FPBits fmt) :
    ∃ m : ℤ, toRat b = (m : ℚ) * pow2 fmt.gridMin := by
  unfold toRat
  by_cases h0 : b.exponent = 0
  · rw [if_pos h0]
    refine ⟨(if b.sign then -(b.mantissa : ℤ) else (b.mantissa : ℤ)), ?_⟩
    cases hs : b.sign <;> unfold sgn <;> simp <;> push_cast <;> ring
  · rw [if_neg h0]
    have hexp : fmt.gridMin ≤ (b.exponent : ℤ) - fmt.bias - fmt.mantBits := by
      unfold Fmt.gridMin Fmt.emin
      omega
    refine ⟨(if b.sign then (-1 : ℤ) else 1) * (npow2 fmt.mantBits + b.mantissa : ℕ) *
      2 ^ ((b.exponent : ℤ) - fmt.bias - fmt.mantBits - fmt.gridMin).toNat, ?_⟩
    have hp : ((2 : ℚ) ^ (((b.exponent : ℤ) - fmt.bias - fmt.mantBits -
        fmt.gridMin).toNat : ℕ)) * pow2 fmt.gridMin =
        pow2 ((b.exponent : ℤ) - fmt.bias - fmt.mantBits) := by
      rw [show ((2:ℚ) ^ (((b.exponent : ℤ) - fmt.bias - fmt.mantBits -
          fmt.gridMin).toNat : ℕ)) = pow2 ((((b.exponent : ℤ) - fmt.bias - fmt.mantBits -
          fmt.gridMin).toNat : ℕ) : ℤ) from by rw [pow2_eq, zpow_natCast]]
      rw [← pow2_add, Int.toNat_of_nonneg (by omega)]
      rw [show ((b.exponent : ℤ) - fmt.bias - fmt.mantBits - fmt.gridMin + fmt.gridMin) =
        (b.exponent : ℤ) - fmt.bias - fmt.mantBits from by ring]
    cases hs : b.sign
    · rw [show sgn false = 1 from rfl, show (if false then (-1 : ℤ) else 1) = 1 from rfl]
      push_cast
      rw [← hp]
      ring
    · rw [show sgn true = -1 from rfl, show (if true then (-1 : ℤ) else 1) = -1 from rfl]
      push_cast
      rw [← hp]
      ring

/-- The unbiased exponent of a finite nonzero value is at least `gridMin`. -/
theorem getExp_ge_gridMin {fmt : Fmt} (b : FPBits fmt)
    (hcls : classify b = .normal ∨ classify b = .subnormal) :
    fmt.gridMin ≤ GET_EXP_FLT b := by
  unfold GET_EXP_FLT
  rcases hcls with h | h
  · obtain ⟨h0, _⟩ := classify_normal_exponent b h
    rw [if_neg h0]
    unfold Fmt.gridMin Fmt.emin
    omega
  · obtain ⟨h0, _⟩ := classify_subnormal_fields b h
    rw [if_pos h0]
    omega

theorem encodeKG_sign {fmt : Fmt} (sign : Bool) (k g : ℤ) :
    (encodeKG fmt sign k g).sign = sign := by
  simp only [encodeKG]
  split_ifs <;> rfl

theorem roundRat_sign {fmt : Fmt} (sign : Bool) (x : ℚ) :
    (roundRat fmt sign x).sign = sign := by
  simp only [roundRat]
  split_ifs <;> first | rfl | exact encodeKG_sign sign _ _

/-- The encoder lands in the normal range when the significand is full. -/
theorem encodeKG_exponent_pos {fmt : Fmt} (hprec : 2 ≤ fmt.prec) (hw : 2 ≤ fmt.w)
    (sign : Bool) (k g : ℤ) (hg : fmt.gridMin ≤ g)
    (hklo : (2:ℤ) ^ fmt.mantBits ≤ k) :
    (encodeKG fmt sign k g).exponent ≠ 0 := by
  have hM1 : 1 ≤ fmt.mantBits := by
    unfold Fmt.mantBits
    omega
  have hbias : 1 ≤ fmt.bias := by
    unfold Fmt.bias
    have : (2:ℤ) ≤ 2 ^ (fmt.w - 1) := by
      calc (2:ℤ) = 2 ^ 1 := by ring
        _ ≤ 2 ^ (fmt.w - 1) := pow_le_pow_right₀ one_le_two (by omega)
    omega
  have hgrid : fmt.gridMin = 1 - fmt.bias - fmt.mantBits := by
    unfold Fmt.gridMin Fmt.emin
    ring
  have hMpos : (0:ℤ) < 2 ^ fmt.mantBits := by positivity
  have hMZ : ((npow2 fmt.mantBits : ℕ) : ℤ) = 2 ^ fmt.mantBits := by
    rw [npow2_eq]
    push_cast
    ring
  unfold encodeKG
  rw [if_neg (by omega : ¬ k = 0)]
  by_cases hkA : k = ((npow2 fmt.prec : ℕ) : ℤ)
  · simp only [if_pos hkA]
    rw [if_neg (lt_irrefl _)]
    show (g + 1 + (fmt.mantBits : ℤ) + fmt.bias).toNat ≠ 0
    omega
  · simp only [if_neg hkA]
    rw [if_neg (by omega : ¬ k < ((npow2 fmt.mantBits : ℕ) : ℤ))]
    show (g + (fmt.mantBits : ℤ) + fmt.bias).toNat ≠ 0
    omega

theorem classify_of_fields {fmt : Fmt} (b : FPBits fmt)
    (h1 : b.exponent ≠ fmt.expTop) (h0 : b.exponent ≠ 0) :
    classify b = .normal := by
  unfold classify
  rw [if_neg h1, if_neg h0]

/-- Rounding a value at least `2 ^ emin` produces a NORMAL pattern. -/
theorem roundRat_normal {fmt : Fmt} (hprec : 2 ≤ fmt.prec) (hw : 2 ≤ fmt.w)
    (sign : Bool) (x : ℚ) (hx : 0 < x) (hbound : x < pow2 fmt.emax)
    (hlo : pow2 fmt.emin ≤ x) :
    classify (roundRat fmt sign x) = .normal := by
  obtain ⟨hval, hWF, hTop, hSign, hEnc⟩ := roundRat_val hprec hw sign x hx hbound
  have hgm : fmt.gridMin = fmt.emin - fmt.mantBits := rfl
  have hqlo : (((2:ℤ) ^ fmt.mantBits : ℤ) : ℚ) ≤
      x / pow2 (max fmt.gridMin (ratLog2 x - fmt.mantBits)) := by
    rw [le_div_iff₀ (pow2_pos _)]
    have h1 : (((2:ℤ) ^ fmt.mantBits : ℤ) : ℚ) *
        pow2 (max fmt.gridMin (ratLog2 x - fmt.mantBits)) =
        pow2 ((fmt.mantBits : ℤ) + max fmt.gridMin (ratLog2 x - fmt.mantBits)) := by
      rw [← pow2_natCast, ← pow2_add]
    rw [h1]
    rcases max_cases fmt.gridMin (ratLog2 x - fmt.mantBits) with ⟨hmx, hc⟩ | ⟨hmx, hc⟩
    · rw [hmx]
      calc pow2 ((fmt.mantBits : ℤ) + fmt.gridMin) = pow2 fmt.emin := by
            rw [hgm]
            rw [show ((fmt.mantBits : ℤ) + (fmt.emin - fmt.mantBits)) = fmt.emin from by ring]
        _ ≤ x := hlo
    · rw [hmx]
      calc pow2 ((fmt.mantBits : ℤ) + (ratLog2 x - fmt.mantBits)) = pow2 (ratLog2 x) := by
            rw [show ((fmt.mantBits : ℤ) + (ratLog2 x - fmt.mantBits)) = ratLog2 x from by ring]
        _ ≤ x := by
            rw [pow2_eq]
            exact (ratLog2_spec x hx).1
  have hklo : (2:ℤ) ^ fmt.mantBits ≤
      rne (x / pow2 (max fmt.gridMin (ratLog2 x - fmt.mantBits))) :=
    rne_ge_of_ge _ _ hqlo
  have h0 := encodeKG_exponent_pos hprec hw sign
    (rne (x / pow2 (max fmt.gridMin (ratLog2 x - fmt.mantBits))))
    (max fmt.gridMin (ratLog2 x - fmt.mantBits)) (le_max_left _ _) hklo
  rw [hEnc]
  rw [hEnc] at hTop
  exact classify_of_fields _ hTop h0

theorem roundSigned_sign {fmt : Fmt} (x : ℚ) (hx : x ≠ 0) :
    (roundSigned fmt x).sign = decide (x < 0) := by
  unfold roundSigned
  rcases lt_or_gt_of_ne hx with h | h
  · rw [if_pos h, roundRat_sign, decide_eq_true h]
  · rw [if_neg (not_lt.mpr (le_of_lt h)), roundRat_sign,
      decide_eq_false (not_lt.mpr (le_of_lt h))]

theorem roundSigned_normal {fmt : Fmt} (hprec : 2 ≤ fmt.prec) (hw : 2 ≤ fmt.w)
    (x : ℚ) (hx : x ≠ 0) (hbound : |x| < pow2 fmt.emax) (hlo : pow2 fmt.emin ≤ |x|) :
    classify (roundSigned fmt x) = .normal := by
  unfold roundSigned
  rcases lt_or_gt_of_ne hx with h | h
  · rw [if_pos h]
    rw [abs_of_neg h] at hbound hlo
    exact roundRat_normal hprec hw true (-x) (by linarith) hbound hlo
  · rw [if_neg (not_lt.mpr (le_of_lt h))]
    rw [abs_of_pos h] at hbound hlo
    exact roundRat_normal hprec hw false x h hbound hlo

theorem Representable_mono {f1 f2 : Fmt} (hp : f1.prec ≤ f2.prec)
    (hg : f2.gridMin ≤ f1.gridMin) (x : ℚ) (h : Representable f1 x) :
    Representable f2 x := by
  obtain ⟨k, g, he, hk, hgx⟩ := h
  exact ⟨k, g, he, lt_of_lt_of_le hk (pow_le_pow_right₀ one_le_two hp), by omega⟩

theorem Representable_abs {fmt : Fmt} (x : ℚ) (h : Representable fmt x) :
    Representable fmt |x| := by
  rcases abs_cases x with ⟨he, _⟩ | ⟨he, _⟩
  · rw [he]
    exact h
  · rw [he]
    exact Representable_neg x h

theorem toRat_abs_lo {fmt : Fmt} (hprec : 2 ≤ fmt.prec) (b : FPBits fmt) (hWF : b.WF)
    (hcls : classify b = .normal ∨ classify b = .subnormal) :
    pow2 fmt.gridMin ≤ |toRat b| := by
  calc pow2 fmt.gridMin ≤ pow2 (GET_EXP_FLT b) :=
        pow2_le_pow2 _ _ (getExp_ge_gridMin b hcls)
    _ ≤ |toRat b| := by
        rw [pow2_eq]
        exact (getExp_char hprec b hWF hcls).1

theorem toRat_abs_hi {fmt : Fmt} (hprec : 2 ≤ fmt.prec) (hw : 2 ≤ fmt.w)
    (b : FPBits fmt) (hWF : b.WF) (hfin : b.exponent ≠ fmt.expTop) :
    |toRat b| < pow2 (fmt.emax + 1) :=
  lt_of_le_of_lt (fits_toRat hprec hw b hWF hfin).2 (maxFinite_lt fmt hprec)

theorem expTop_ne_zero {fmt : Fmt} (hw : 2 ≤ fmt.w) : fmt.expTop ≠ 0 := by
  have : (2:ℕ) ^ 2 ≤ 2 ^ fmt.w := Nat.pow_le_pow_right (by omega) hw
  unfold Fmt.expTop
  omega

theorem finite_exponent_ne_top {fmt : Fmt} (hw : 2 ≤ fmt.w) (b : FPBits fmt)
    (hcls : classify b = .normal ∨ classify b = .subnormal ∨ classify b = .zero) :
    b.exponent ≠ fmt.expTop := by
  rcases hcls with h | h | h
  · exact (classify_normal_exponent b h).2
  · rw [(classify_subnormal_fields b h).1]
    exact Ne.symm (expTop_ne_zero hw)
  · rw [(classify_zero_fields b h).1]
    exact Ne.symm (expTop_ne_zero hw)

/-- Widening a finite value to a strictly larger format is exact, and the
result is NORMAL (nonzero input) or a signed zero (zero input). -/
theorem convert_widen {src dst : Fmt}
    (hsp : 2 ≤ src.prec) (hsw : 2 ≤ src.w)
    (hdp : 2 ≤ dst.prec) (hdw : 2 ≤ dst.w)
    (hpp : src.prec ≤ dst.prec) (hgg : dst.gridMin ≤ src.gridMin)
    (hme : src.maxFinite < pow2 dst.emax) (hem : dst.emin ≤ src.gridMin)
    (x : FPBits src) (hWF : x.WF)
    (hcls : classify x = .normal ∨ classify x = .subnormal ∨ classify x = .zero) :
    toRat (convert src dst x) = toRat x ∧
    ((toRat x ≠ 0 → classify (convert src dst x) = .normal) ∧
     (toRat x = 0 → classify (convert src dst x) = .zero)) ∧
    (convert src dst x).sign = x.sign := by
  have hconv : convert src dst x = roundRat dst x.sign |toRat x| := by
    unfold convert
    rcases hcls with h | h | h <;> rw [h]
  rw [hconv]
  by_cases hz : toRat x = 0
  · have habs : |toRat x| = 0 := abs_eq_zero.mpr hz
    have hzero : roundRat dst x.sign |toRat x| = zeroBits dst x.sign := by
      unfold roundRat
      rw [if_pos (le_of_eq habs)]
    rw [hzero]
    refine ⟨?_, ⟨fun hne => absurd hz hne, fun _ => ?_⟩, rfl⟩
    · rw [toRat_zeroBits, hz]
    · simp only [classify, zeroBits]
      rw [if_neg (Ne.symm (expTop_ne_zero hdw))]
      simp
  · have hclsNS : classify x = .normal ∨ classify x = .subnormal := by
      rcases hcls with h | h | h
      · exact Or.inl h
      · exact Or.inr h
      · exact absurd (toRat_of_zero_class x h) hz
    have habs : 0 < |toRat x| := abs_pos.mpr hz
    have hfin : x.exponent ≠ src.expTop := finite_exponent_ne_top hsw x hcls
    have hbound : |toRat x| < pow2 dst.emax :=
      lt_of_le_of_lt (fits_toRat hsp hsw x hWF hfin).2 hme
    have hlo : pow2 dst.emin ≤ |toRat x| :=
      le_trans (pow2_le_pow2 _ _ hem) (toRat_abs_lo hsp x hWF hclsNS)
    have hrep : Representable dst |toRat x| :=
      Representable_abs _ (Representable_mono hpp hgg _ (fits_toRat hsp hsw x hWF hfin).1)
    refine ⟨?_, ⟨fun _ => roundRat_normal hdp hdw x.sign _ habs hbound hlo,
      fun h0 => absurd h0 hz⟩, roundRat_sign x.sign _⟩
    rw [roundRat_exact hdp hdw x.sign _ habs hbound hrep]
    exact (toRat_eq_sgn_mul_abs x).symm

theorem roundSigned_eq_roundRat_abs {fmt : Fmt} (x : ℚ) (hx : x ≠ 0) :
    roundSigned fmt x = roundRat fmt (decide (x < 0)) |x| := by
  unfold roundSigned
  rcases lt_or_gt_of_ne hx with h | h
  · rw [if_pos h, decide_eq_true h, abs_of_neg h]
  · rw [if_neg (not_lt.mpr (le_of_lt h)), decide_eq_false (not_lt.mpr (le_of_lt h)),
      abs_of_pos h]

theorem roundSigned_pack {fmt : Fmt} (hprec : 2 ≤ fmt.prec) (hw : 2 ≤ fmt.w)
    (x : ℚ) (hx : x ≠ 0) (hbound : |x| < pow2 fmt.emax) :
    (roundSigned fmt x).WF ∧ (roundSigned fmt x).exponent ≠ fmt.expTop := by
  unfold roundSigned
  rcases lt_or_gt_of_ne hx with h | h
  · rw [if_pos h]
    rw [abs_of_neg h] at hbound
    obtain ⟨_, hWF, hTop, _⟩ := roundRat_val hprec hw true (-x) (by linarith) hbound
    exact ⟨hWF, hTop⟩
  · rw [if_neg (not_lt.mpr (le_of_lt h))]
    rw [abs_of_pos h] at hbound
    obtain ⟨_, hWF, hTop, _⟩ := roundRat_val hprec hw false x h hbound
    exact ⟨hWF, hTop⟩

theorem RepresentableAt_to_Representable {fmt : Fmt} (t : ℤ) (ht1 : 1 ≤ t)
    (ht2 : t ≤ fmt.prec) (x : ℚ) (hx : x ≠ 0) (hrep : RepresentableAt t x)
    (lowE : ℤ) (hlo : pow2 lowE ≤ |x|) (hgrid : fmt.gridMin ≤ lowE - t + 1) :
    Representable fmt x := by
  obtain ⟨k, g, he, hk⟩ := hrep
  have hkne : k ≠ 0 := by
    rintro rfl
    rw [he] at hx
    simp at hx
  have habs : |x| = ((|k| : ℤ) : ℚ) * pow2 g := by
    rw [he, abs_mul, abs_of_pos (pow2_pos g), Int.cast_abs]
  have hk1 : (1:ℚ) ≤ ((|k| : ℤ) : ℚ) := by
    have h1 : (1:ℤ) ≤ |k| := Int.one_le_abs hkne
    exact_mod_cast h1
  have hglo : lowE - t + 1 ≤ g := by
    have h1 : pow2 lowE < pow2 (t + g) := by
      calc pow2 lowE ≤ |x| := hlo
        _ = ((|k| : ℤ) : ℚ) * pow2 g := habs
        _ < pow2 t * pow2 g := by
            apply mul_lt_mul_of_pos_right _ (pow2_pos g)
            rw [Int.cast_abs]
            exact hk
        _ = pow2 (t + g) := (pow2_add t g).symm
    have := pow2_lt_pow2_rev _ _ h1
    omega
  refine ⟨k, g, ?_, ?_, by omega⟩
  · rw [he, pow2_eq]
  · have h1 : (|k| : ℚ) < pow2 (fmt.prec : ℤ) :=
      lt_of_lt_of_le hk (pow2_le_pow2 _ _ (by omega))
    rw [pow2_natCast] at h1
    exact_mod_cast h1

/-- A normal pattern whose value has `t` significant bits passes the
`_IS_REPRESENTABLE` bit test. -/
theorem IS_REPRESENTABLE_of {fmt : Fmt} (hprec : 2 ≤ fmt.prec) (b : FPBits fmt)
    (hWF : b.WF) (t : ℤ) (ht1 : 1 ≤ t) (ht2 : t ≤ fmt.mantBits)
    (hcls : classify b = .normal)
    (hrep : RepresentableAt t (toRat b)) :
    IS_REPRESENTABLE b t = true := by
  obtain ⟨k, gv, he, hk⟩ := hrep
  have h0 := (classify_normal_exponent b hcls).1
  have hne : toRat b ≠ 0 := toRat_ne_zero hprec b hWF (Or.inl hcls)
  have hkne : k ≠ 0 := by
    rintro rfl
    rw [he] at hne
    simp at hne
  have habsR : |toRat b| = ((npow2 fmt.mantBits + b.mantissa : ℕ) : ℚ) *
      pow2 ((b.exponent : ℤ) - fmt.bias - fmt.mantBits) := by
    rw [abs_toRat, if_neg h0]
  have habsK : |toRat b| = ((|k| : ℤ) : ℚ) * pow2 gv := by
    rw [he, abs_mul, abs_of_pos (pow2_pos gv), Int.cast_abs]
  set E := (b.exponent : ℤ) - fmt.bias - fmt.mantBits with hE
  have hMlow : pow2 ((fmt.mantBits : ℤ) + E) ≤ |toRat b| := by
    rw [habsR, pow2_add]
    apply mul_le_mul_of_nonneg_right _ (le_of_lt (pow2_pos E))
    calc pow2 ((fmt.mantBits : ℤ)) = (((2:ℤ) ^ fmt.mantBits : ℤ) : ℚ) := pow2_natCast _
      _ ≤ ((npow2 fmt.mantBits + b.mantissa : ℕ) : ℚ) := by
          rw [npow2_eq]
          push_cast
          have hm : (0:ℚ) ≤ (b.mantissa : ℚ) := by positivity
          linarith
  have hKup : |toRat b| < pow2 (t + gv) := by
    rw [habsK, pow2_add]
    apply mul_lt_mul_of_pos_right _ (pow2_pos gv)
    rw [Int.cast_abs]
    exact hk
  have hD : (fmt.mantBits : ℤ) - t + 1 ≤ gv - E := by
    have := pow2_lt_pow2_rev _ _ (lt_of_le_of_lt hMlow hKup)
    omega
  have hQeq : ((npow2 fmt.mantBits + b.mantissa : ℕ) : ℚ) =
      ((|k| * 2 ^ (gv - E).toNat : ℤ) : ℚ) := by
    have h1 : ((npow2 fmt.mantBits + b.mantissa : ℕ) : ℚ) * pow2 E =
        ((|k| : ℤ) : ℚ) * pow2 gv := by
      rw [← habsR, habsK]
    have h2 : pow2 gv = pow2 (gv - E) * pow2 E := by
      rw [← pow2_add, show (gv - E + E) = gv from by ring]
    have h3 : ((|k| : ℤ) : ℚ) * pow2 gv = (((|k| : ℤ) : ℚ) * pow2 (gv - E)) * pow2 E := by
      rw [h2]
      ring
    have h4 := mul_right_cancel₀ (ne_of_gt (pow2_pos E)) (h1.trans h3)
    rw [h4]
    push_cast
    rw [show ((2:ℚ) ^ ((gv - E).toNat : ℕ)) = pow2 (((gv - E).toNat : ℕ) : ℤ) from by
      rw [pow2_eq, zpow_natCast]]
    rw [Int.toNat_of_nonneg (by omega)]
  have hZeq : ((npow2 fmt.mantBits + b.mantissa : ℕ) : ℤ) = |k| * 2 ^ (gv - E).toNat := by
    exact_mod_cast hQeq
  have hdvd1 : ((2:ℤ) ^ ((fmt.mantBits : ℤ) - (t - 1)).toNat) ∣ 2 ^ (gv - E).toNat :=
    pow_dvd_pow 2 (by omega)
  have hdvd2 : ((2:ℤ) ^ ((fmt.mantBits : ℤ) - (t - 1)).toNat) ∣
      ((npow2 fmt.mantBits + b.mantissa : ℕ) : ℤ) := by
    rw [hZeq]
    exact Dvd.dvd.mul_left hdvd1 _
  have hcastM : ((npow2 fmt.mantBits : ℕ) : ℤ) = (2:ℤ) ^ fmt.mantBits := by
    rw [npow2_eq]
    push_cast
    ring
  have hdvd3 : ((2:ℤ) ^ ((fmt.mantBits : ℤ) - (t - 1)).toNat) ∣
      ((npow2 fmt.mantBits : ℕ) : ℤ) := by
    rw [hcastM]
    exact pow_dvd_pow 2 (by omega)
  have hdvdm : ((2:ℤ) ^ ((fmt.mantBits : ℤ) - (t - 1)).toNat) ∣ (b.mantissa : ℤ) := by
    push_cast at hdvd2
    exact (dvd_add_right hdvd3).mp hdvd2
  unfold IS_REPRESENTABLE
  rw [hcls]
  show decide ((b.mantissa : ℤ) %
    ((npow2 ((fmt.mantBits : ℤ) - (t - 1)).toNat : ℕ) : ℤ) = 0) = true
  rw [decide_eq_true_eq]
  have hcastN : ((npow2 ((fmt.mantBits : ℤ) - (t - 1)).toNat : ℕ) : ℤ) =
      (2:ℤ) ^ ((fmt.mantBits : ℤ) - (t - 1)).toNat := by
    rw [npow2_eq]
    push_cast
    ring
  rw [hcastN]
  exact Int.emod_eq_zero_of_dvd hdvdm

/-- In RR mode, a representable value passes `_INEXACT` untouched, with no
draw consumed. -/
theorem INEXACT_rr_representable {fmt : Fmt}
    (noiseF : ℤ → RngState → FPBits fmt × RngState)
    (st : McaState) (ctx : t_context) (x : FPBits fmt) (t : ℤ) (r : RngState)
    (hmode : st.MCALIB_MODE = .mcamode_rr) (hr : IS_REPRESENTABLE x t = true) :
    INEXACT noiseF st ctx x t r = (x, r) := by
  unfold INEXACT
  rw [if_pos]
  unfold MUST_NOT_BE_NOISED
  rw [hmode, hr]
  simp

theorem pow2_sub (a b : ℤ) : pow2 (a - b) = pow2 a / pow2 b := by
  rw [eq_div_iff (ne_of_gt (pow2_pos b)), ← pow2_add,
    show (a - b + b) = a from by ring]

/-- The RR-mode exact-result path, generically over a narrow format and its
working (wide) format: the wide operation computes the exact result, the
representability guard fires, and narrowing returns exactly the native
narrow-format result. -/
theorem rr_exact_core {narrow wide : Fmt}
    (hnp : 2 ≤ narrow.prec) (hnw : 2 ≤ narrow.w)
    (hwp : 2 ≤ wide.prec) (hww : 2 ≤ wide.w)
    (hpp : narrow.prec ≤ wide.prec) (hgg : wide.gridMin ≤ narrow.gridMin)
    (hme : narrow.maxFinite < pow2 wide.emax) (hem : wide.emin ≤ narrow.gridMin)
    (hgm0 : narrow.gridMin ≤ -1)
    (hdivlow : narrow.gridMin ≤ -(narrow.emax) - 1)
    (hhw : narrow.emax + 1 - narrow.gridMin ≤ wide.emax)
    (hemw : wide.emin ≤ 2 * narrow.gridMin)
    (t : ℤ) (ht1 : 1 ≤ t) (ht2 : t ≤ wide.mantBits)
    (hgw : wide.gridMin ≤ 2 * narrow.gridMin - t + 1)
    (a b : FPBits narrow) (op : mca_operations)
    (hWFa : a.WF) (hWFb : b.WF)
    (hfa : classify a = .normal ∨ classify a = .subnormal ∨ classify a = .zero)
    (hfb : classify b = .normal ∨ classify b = .subnormal ∨ classify b = .zero)
    (hv : exactOp op (toRat a) (toRat b) ≠ 0)
    (hrep : RepresentableAt t (exactOp op (toRat a) (toRat b))) :
    PERFORM_BIN_OP wide op (convert narrow wide a) (convert narrow wide b) =
      roundSigned wide (exactOp op (toRat a) (toRat b)) ∧
    IS_REPRESENTABLE (roundSigned wide (exactOp op (toRat a) (toRat b))) t = true ∧
    convert wide narrow (roundSigned wide (exactOp op (toRat a) (toRat b))) =
      PERFORM_BIN_OP narrow op a b := by
  obtain ⟨hAval, ⟨hAn, hAz⟩, hAsign⟩ :=
    convert_widen hnp hnw hwp hww hpp hgg hme hem a hWFa hfa
  obtain ⟨hBval, ⟨hBn, hBz⟩, hBsign⟩ :=
    convert_widen hnp hnw hwp hww hpp hgg hme hem b hWFb hfb
  have hfA : classify (convert narrow wide a) = .normal ∨
      classify (convert narrow wide a) = .subnormal ∨
      classify (convert narrow wide a) = .zero := by
    by_cases hza : toRat a = 0
    · exact Or.inr (Or.inr (hAz hza))
    · exact Or.inl (hAn hza)
  have hfB : classify (convert narrow wide b) = .normal ∨
      classify (convert narrow wide b) = .subnormal ∨
      classify (convert narrow wide b) = .zero := by
    by_cases hzb : toRat b = 0
    · exact Or.inr (Or.inr (hBz hzb))
    · exact Or.inl (hBn hzb)
  obtain ⟨ma, hma⟩ := toRat_grid a
  obtain ⟨mb, hmb⟩ := toRat_grid b
  have habs_hi_a : |toRat a| < pow2 (narrow.emax + 1) :=
    toRat_abs_hi hnp hnw a hWFa (finite_exponent_ne_top hnw a hfa)
  have habs_hi_b : |toRat b| < pow2 (narrow.emax + 1) :=
    toRat_abs_hi hnp hnw b hWFb (finite_exponent_ne_top hnw b hfb)
  -- the common tail
  have key : ∀ v : ℚ, v ≠ 0 → RepresentableAt t v →
      pow2 (2 * narrow.gridMin) ≤ |v| →
      |v| < pow2 (narrow.emax + 1 - narrow.gridMin) →
      IS_REPRESENTABLE (roundSigned wide v) t = true ∧
      convert wide narrow (roundSigned wide v) = roundSigned narrow v := by
    intro v hv0 hrepv hlo hhi
    have hviwide : |v| < pow2 wide.emax := lt_of_lt_of_le hhi (pow2_le_pow2 _ _ hhw)
    have htp : t ≤ (wide.prec : ℤ) := by
      have hmle : wide.mantBits ≤ wide.prec := by
        unfold Fmt.mantBits
        omega
      omega
    have hRepW : Representable wide v :=
      RepresentableAt_to_Representable t ht1 htp v hv0 hrepv
        (2 * narrow.gridMin) hlo hgw
    have hval : toRat (roundSigned wide v) = v :=
      roundSigned_exact hwp hww v hviwide hRepW
    have hlo' : pow2 wide.emin ≤ |v| := le_trans (pow2_le_pow2 _ _ hemw) hlo
    have hcls : classify (roundSigned wide v) = .normal :=
      roundSigned_normal hwp hww v hv0 hviwide hlo'
    obtain ⟨hWFR, hTopR⟩ := roundSigned_pack hwp hww v hv0 hviwide
    constructor
    · exact IS_REPRESENTABLE_of hwp _ hWFR t ht1 ht2 hcls (by rw [hval]; exact hrepv)
    · have hconv : convert wide narrow (roundSigned wide v) =
          roundRat narrow (roundSigned wide v).sign |toRat (roundSigned wide v)| := by
        unfold convert
        rw [hcls]
      rw [hconv, hval, roundSigned_sign v hv0]
      exact (roundSigned_eq_roundRat_abs v hv0).symm
  have hgm2 : 2 * narrow.gridMin ≤ narrow.gridMin := by omega
  cases op
  case mca_add =>
    simp only [exactOp] at hv hrep ⊢
    have hsum : toRat a + toRat b = ((ma + mb : ℤ) : ℚ) * pow2 narrow.gridMin := by
      rw [hma, hmb]
      push_cast
      ring
    have hmne : (ma + mb : ℤ) ≠ 0 := by
      intro h
      rw [hsum, h] at hv
      simp at hv
    have hlo : pow2 (2 * narrow.gridMin) ≤ |toRat a + toRat b| := by
      rw [hsum, abs_mul, abs_of_pos (pow2_pos _)]
      have h1 : (1:ℚ) ≤ |((ma + mb : ℤ) : ℚ)| := by
        rw [← Int.cast_abs]
        exact_mod_cast Int.one_le_abs hmne
      calc pow2 (2 * narrow.gridMin) ≤ pow2 narrow.gridMin := pow2_le_pow2 _ _ hgm2
        _ = 1 * pow2 narrow.gridMin := (one_mul _).symm
        _ ≤ |((ma + mb : ℤ) : ℚ)| * pow2 narrow.gridMin :=
            mul_le_mul_of_nonneg_right h1 (le_of_lt (pow2_pos _))
    have hhi : |toRat a + toRat b| < pow2 (narrow.emax + 1 - narrow.gridMin) := by
      have h1 : |toRat a + toRat b| ≤ |toRat a| + |toRat b| := abs_add _ _
      have h2 : pow2 (narrow.emax + 2) ≤ pow2 (narrow.emax + 1 - narrow.gridMin) :=
        pow2_le_pow2 _ _ (by omega)
      have h3 : pow2 (narrow.emax + 2) = pow2 (narrow.emax + 1) * 2 := by
        rw [show (narrow.emax + 2) = (narrow.emax + 1) + 1 from by ring, pow2_add, pow2_one]
      linarith
    have hP : PERFORM_BIN_OP wide .mca_add (convert narrow wide a) (convert narrow wide b) =
        roundSigned wide (toRat a + toRat b) := by
      show fpAdd wide (convert narrow wide a) (convert narrow wide b) = _
      rw [fpAdd_finite _ _ hfA hfB, hAval, hBval, if_neg hv]
    have hN : PERFORM_BIN_OP narrow .mca_add a b = roundSigned narrow (toRat a + toRat b) := by
      show fpAdd narrow a b = _
      rw [fpAdd_finite a b hfa hfb, if_neg hv]
    obtain ⟨hIR, hC⟩ := key _ hv hrep hlo hhi
    exact ⟨hP, hIR, hC.trans hN.symm⟩
  case mca_sub =>
    simp only [exactOp] at hv hrep ⊢
    have hsum : toRat a - toRat b = ((ma - mb : ℤ) : ℚ) * pow2 narrow.gridMin := by
      rw [hma, hmb]
      push_cast
      ring
    have hmne : (ma - mb : ℤ) ≠ 0 := by
      intro h
      rw [hsum, h] at hv
      simp at hv
    have hlo : pow2 (2 * narrow.gridMin) ≤ |toRat a - toRat b| := by
      rw [hsum, abs_mul, abs_of_pos (pow2_pos _)]
      have h1 : (1:ℚ) ≤ |((ma - mb : ℤ) : ℚ)| := by
        rw [← Int.cast_abs]
        exact_mod_cast Int.one_le_abs hmne
      calc pow2 (2 * narrow.gridMin) ≤ pow2 narrow.gridMin := pow2_le_pow2 _ _ hgm2
        _ = 1 * pow2 narrow.gridMin := (one_mul _).symm
        _ ≤ |((ma - mb : ℤ) : ℚ)| * pow2 narrow.gridMin :=
            mul_le_mul_of_nonneg_right h1 (le_of_lt (pow2_pos _))
    have hhi : |toRat a - toRat b| < pow2 (narrow.emax + 1 - narrow.gridMin) := by
      have h1 : |toRat a - toRat b| ≤ |toRat a| + |toRat b| := abs_sub _ _
      have h2 : pow2 (narrow.emax + 2) ≤ pow2 (narrow.emax + 1 - narrow.gridMin) :=
        pow2_le_pow2 _ _ (by omega)
      have h3 : pow2 (narrow.emax + 2) = pow2 (narrow.emax + 1) * 2 := by
        rw [show (narrow.emax + 2) = (narrow.emax + 1) + 1 from by ring, pow2_add, pow2_one]
      linarith
    have hfBneg : classify (negBits (convert narrow wide b)) = .normal ∨
        classify (negBits (convert narrow wide b)) = .subnormal ∨
        classify (negBits (convert narrow wide b)) = .zero := by
      rw [classify_negBits]
      exact hfB
    have hfbneg : classify (negBits b) = .normal ∨ classify (negBits b) = .subnormal ∨
        classify (negBits b) = .zero := by
      rw [classify_negBits]
      exact hfb
    have hP : PERFORM_BIN_OP wide .mca_sub (convert narrow wide a) (convert narrow wide b) =
        roundSigned wide (toRat a - toRat b) := by
      show fpAdd wide (convert narrow wide a) (negBits (convert narrow wide b)) = _
      rw [fpAdd_finite _ _ hfA hfBneg, toRat_negBits, hAval, hBval]
      rw [show toRat a + -toRat b = toRat a - toRat b from by ring]
      rw [if_neg hv]
    have hN : PERFORM_BIN_OP narrow .mca_sub a b = roundSigned narrow (toRat a - toRat b) := by
      show fpAdd narrow a (negBits b) = _
      rw [fpAdd_finite a _ hfa hfbneg, toRat_negBits]
      rw [show toRat a + -toRat b = toRat a - toRat b from by ring]
      rw [if_neg hv]
    obtain ⟨hIR, hC⟩ := key _ hv hrep hlo hhi
    exact ⟨hP, hIR, hC.trans hN.symm⟩
  case mca_mul =>
    simp only [exactOp] at hv hrep ⊢
    have hsum : toRat a * toRat b =
        ((ma * mb : ℤ) : ℚ) * pow2 (2 * narrow.gridMin) := by
      rw [hma, hmb, show (2 * narrow.gridMin) = narrow.gridMin + narrow.gridMin from by ring,
        pow2_add]
      push_cast
      ring
    have hmne : (ma * mb : ℤ) ≠ 0 := by
      intro h
      rw [hsum, h] at hv
      simp at hv
    have hlo : pow2 (2 * narrow.gridMin) ≤ |toRat a * toRat b| := by
      rw [hsum, abs_mul, abs_of_pos (pow2_pos _)]
      have h1 : (1:ℚ) ≤ |((ma * mb : ℤ) : ℚ)| := by
        rw [← Int.cast_abs]
        exact_mod_cast Int.one_le_abs hmne
      calc pow2 (2 * narrow.gridMin) = 1 * pow2 (2 * narrow.gridMin) := (one_mul _).symm
        _ ≤ |((ma * mb : ℤ) : ℚ)| * pow2 (2 * narrow.gridMin) :=
            mul_le_mul_of_nonneg_right h1 (le_of_lt (pow2_pos _))
    have hhi : |toRat a * toRat b| < pow2 (narrow.emax + 1 - narrow.gridMin) := by
      have h1 : |toRat a * toRat b| = |toRat a| * |toRat b| := abs_mul _ _
      have h2 : |toRat a| * |toRat b| < pow2 (narrow.emax + 1) * pow2 (narrow.emax + 1) :=
        mul_lt_mul'' habs_hi_a habs_hi_b (abs_nonneg _) (abs_nonneg _)
      have h3 : pow2 (narrow.emax + 1) * pow2 (narrow.emax + 1) =
          pow2 (2 * narrow.emax + 2) := by
        rw [← pow2_add]
        rw [show (narrow.emax + 1 + (narrow.emax + 1)) = 2 * narrow.emax + 2 from by ring]
      have h4 : pow2 (2 * narrow.emax + 2) ≤ pow2 (narrow.emax + 1 - narrow.gridMin) :=
        pow2_le_pow2 _ _ (by omega)
      calc |toRat a * toRat b| = |toRat a| * |toRat b| := h1
        _ < pow2 (2 * narrow.emax + 2) := by rw [← h3]; exact h2
        _ ≤ pow2 (narrow.emax + 1 - narrow.gridMin) := h4
    have hP : PERFORM_BIN_OP wide .mca_mul (convert narrow wide a) (convert narrow wide b) =
        roundSigned wide (toRat a * toRat b) := by
      show fpMul wide (convert narrow wide a) (convert narrow wide b) = _
      rw [fpMul_finite _ _ hfA hfB, hAval, hBval, if_neg hv]
    have hN : PERFORM_BIN_OP narrow .mca_mul a b = roundSigned narrow (toRat a * toRat b) := by
      show fpMul narrow a b = _
      rw [fpMul_finite a b hfa hfb, if_neg hv]
    obtain ⟨hIR, hC⟩ := key _ hv hrep hlo hhi
    exact ⟨hP, hIR, hC.trans hN.symm⟩
  case mca_div =>
    simp only [exactOp] at hv hrep ⊢
    have hyne : toRat b ≠ 0 := by
      intro h
      rw [h, div_zero] at hv
      exact hv rfl
    have hxne : toRat a ≠ 0 := by
      intro h
      rw [h, zero_div] at hv
      exact hv rfl
    have hclsa : classify a = .normal ∨ classify a = .subnormal := by
      rcases hfa with h | h | h
      · exact Or.inl h
      · exact Or.inr h
      · exact absurd (toRat_of_zero_class a h) hxne
    have hclsb : classify b = .normal ∨ classify b = .subnormal := by
      rcases hfb with h | h | h
      · exact Or.inl h
      · exact Or.inr h
      · exact absurd (toRat_of_zero_class b h) hyne
    have hlo_a : pow2 narrow.gridMin ≤ |toRat a| := toRat_abs_lo hnp a hWFa hclsa
    have hlo_b : pow2 narrow.gridMin ≤ |toRat b| := toRat_abs_lo hnp b hWFb hclsb
    have habspos_b : 0 < |toRat b| := abs_pos.mpr hyne
    have hlo : pow2 (2 * narrow.gridMin) ≤ |toRat a / toRat b| := by
      rw [abs_div]
      have h1 : pow2 narrow.gridMin / pow2 (narrow.emax + 1) ≤ |toRat a| / |toRat b| := by
        have hA : pow2 narrow.gridMin / pow2 (narrow.emax + 1) ≤
            |toRat a| / pow2 (narrow.emax + 1) :=
          (div_le_div_right (pow2_pos _)).mpr hlo_a
        have hB : |toRat a| / pow2 (narrow.emax + 1) ≤ |toRat a| / |toRat b| :=
          div_le_div_of_nonneg_left (abs_nonneg _) habspos_b (le_of_lt habs_hi_b)
        exact le_trans hA hB
      have h2 : pow2 (2 * narrow.gridMin) ≤ pow2 (narrow.gridMin - narrow.emax - 1) :=
        pow2_le_pow2 _ _ (by omega)
      have h3 : pow2 (narrow.gridMin - narrow.emax - 1) =
          pow2 narrow.gridMin / pow2 (narrow.emax + 1) := by
        rw [← pow2_sub]
        rw [show (narrow.gridMin - (narrow.emax + 1)) = narrow.gridMin - narrow.emax - 1
          from by ring]
      linarith
    have hhi : |toRat a / toRat b| < pow2 (narrow.emax + 1 - narrow.gridMin) := by
      rw [abs_div]
      have h1 : |toRat a| / |toRat b| ≤ |toRat a| / pow2 narrow.gridMin := by
        apply div_le_div_of_nonneg_left (abs_nonneg _) (pow2_pos _) hlo_b
      have h2 : |toRat a| / pow2 narrow.gridMin <
          pow2 (narrow.emax + 1) / pow2 narrow.gridMin :=
        (div_lt_div_right (pow2_pos _)).mpr habs_hi_a
      have h3 : pow2 (narrow.emax + 1) / pow2 narrow.gridMin =
          pow2 (narrow.emax + 1 - narrow.gridMin) := (pow2_sub _ _).symm
      linarith
    have hP : PERFORM_BIN_OP wide .mca_div (convert narrow wide a) (convert narrow wide b) =
        roundSigned wide (toRat a / toRat b) := by
      show fpDiv wide (convert narrow wide a) (convert narrow wide b) = _
      rw [fpDiv_finite _ _ hfA (Or.inl (hBn hyne)), hAval, hBval, if_neg hv]
    have hN : PERFORM_BIN_OP narrow .mca_div a b = roundSigned narrow (toRat a / toRat b) := by
      show fpDiv narrow a b = _
      rw [fpDiv_finite a b hfa hclsb, if_neg hv]
    obtain ⟨hIR, hC⟩ := key _ hv hrep hlo hhi
    exact ⟨hP, hIR, hC.trans hN.symm⟩

/-! ## Innocuous double rounding (for the IEEE-mode identity) -/

theorem rne_ge_of_gt_half (q : ℚ) (m : ℤ) (h : (m : ℚ) - 1/2 < q) : m ≤ rne q := by
  rcases le_or_lt (m : ℚ) q with hq | hq
  · exact rne_ge_of_ge q m hq
  · have hfl : ⌊q⌋ = m - 1 := by
      rw [Int.floor_eq_iff]
      constructor <;> push_cast <;> linarith
    unfold rne
    rw [hfl]
    split_ifs with h1 h2 h3
    · exfalso
      push_cast at h1
      linarith
    · omega
    · exfalso
      push_cast at h1 h2
      linarith
    · omega

/-- Double rounding to nearest is innocuous when the value is either exactly
a half-integer or separated from every half-integer by more than the inner
half-ulp. -/
theorem rne_double (q : ℚ) (s : ℕ) (hs : 1 ≤ s)
    (hexcl : ∀ m : ℤ, q = m + 1/2 ∨ (1:ℚ)/2^(s+1) < |q - ((m : ℚ) + 1/2)|) :
    rne ((rne (q * 2^s) : ℚ) / 2^s) = rne q := by
  by_cases hA : ∃ m : ℤ, q = (m : ℚ) + 1/2
  · obtain ⟨m, rfl⟩ := hA
    have hsplit : (2:ℚ) ^ s = 2 ^ (s - 1) * 2 := by
      rw [← pow_succ]
      congr 1
      omega
    have hint : ((m : ℚ) + 1/2) * 2 ^ s = ((m * 2 ^ s + 2 ^ (s - 1) : ℤ) : ℚ) := by
      push_cast
      rw [hsplit]
      ring
    rw [hint, rne_intCast]
    have hq' : ((m * 2 ^ s + 2 ^ (s - 1) : ℤ) : ℚ) / 2 ^ s = (m : ℚ) + 1/2 := by
      push_cast
      rw [hsplit]
      field_simp
      ring
    rw [hq']
  · have hB : ∀ m : ℤ, (1:ℚ)/2^(s+1) < |q - ((m : ℚ) + 1/2)| := by
      intro m
      rcases hexcl m with h | h
      · exact absurd ⟨m, h⟩ hA
      · exact h
    have hpow : (0:ℚ) < (2:ℚ) ^ s := by positivity
    have herr : |(rne (q * 2^s) : ℚ) / 2^s - q| ≤ 1/2^(s+1) := by
      have h1 := abs_rne_sub_le (q * 2^s)
      have h2 : (rne (q * 2^s) : ℚ) / 2^s - q = ((rne (q * 2^s) : ℚ) - q * 2^s) / 2^s := by
        field_simp
        ring
      rw [h2, abs_div, abs_of_pos hpow]
      rw [div_le_div_iff hpow (by positivity)]
      calc |(rne (q * 2^s) : ℚ) - q * 2^s| * 2 ^ (s + 1) ≤ (1/2) * 2 ^ (s + 1) := by
            apply mul_le_mul_of_nonneg_right h1 (by positivity)
        _ = 2 ^ s := by
            rw [pow_succ]
            ring
        _ = 1 * 2 ^ s := (one_mul _).symm
    have hn := abs_rne_sub_le q
    have hlt : |(rne q : ℚ) - q| < 1/2 := by
      rcases lt_or_eq_of_le hn with h | h
      · exact h
      · exfalso
        rcases (abs_eq (by norm_num : (0:ℚ) ≤ 1/2)).mp h with h1 | h1
        · exact hA ⟨rne q - 1, by push_cast; linarith⟩
        · exact hA ⟨rne q, by push_cast; linarith⟩
    have habs := abs_lt.mp hlt
    have hup : q < (rne q : ℚ) + 1/2 := by linarith [habs.1]
    have hdown : (rne q : ℚ) - 1/2 < q := by linarith [habs.2]
    have hsepU := hB (rne q)
    have hsepD := hB (rne q - 1)
    have hupS : q < (rne q : ℚ) + 1/2 - 1/2^(s+1) := by
      have h1 : |q - ((rne q : ℚ) + 1/2)| = (rne q : ℚ) + 1/2 - q := by
        rw [abs_of_neg (by linarith)]
        ring
      rw [h1] at hsepU
      linarith
    have hdownS : (rne q : ℚ) - 1/2 + 1/2^(s+1) < q := by
      have h0 : ((rne q - 1 : ℤ) : ℚ) + 1/2 = (rne q : ℚ) - 1/2 := by
        push_cast
        ring
      rw [h0] at hsepD
      have h1 : |q - ((rne q : ℚ) - 1/2)| = q - ((rne q : ℚ) - 1/2) := by
        rw [abs_of_pos (by linarith)]
      rw [h1] at hsepD
      linarith
    have herr' := abs_le.mp herr
    have hq'up : (rne (q * 2^s) : ℚ)/2^s < (rne q : ℚ) + 1/2 := by
      have := herr'.2
      linarith
    have hq'down : (rne q : ℚ) - 1/2 < (rne (q * 2^s) : ℚ)/2^s := by
      have := herr'.1
      linarith
    have h1 := rne_le_of_lt_half _ (rne q) hq'up
    have h2 := rne_ge_of_gt_half _ (rne q) hq'down
    omega

theorem pow2_le_pow2_rev (a b : ℤ) (h : pow2 a ≤ pow2 b) : a ≤ b := by
  by_contra hc
  push_neg at hc
  have h2 : pow2 b < pow2 a := by
    have := pow2_le_pow2 (b + 1) a (by omega)
    have hlt : pow2 b < pow2 (b + 1) := by
      rw [show (b + 1) = b + 1 from rfl, pow2_add, pow2_one]
      have := pow2_pos b
      linarith
    linarith
  exact absurd h (not_le.mpr h2)

theorem ratLog2_unique (x : ℚ) (e : ℤ) (hx : 0 < x)
    (h1 : pow2 e ≤ x) (h2 : x < pow2 (e + 1)) : ratLog2 x = e := by
  obtain ⟨ha, hb⟩ := ratLog2_spec x hx
  have ha' : pow2 (ratLog2 x) ≤ x := by
    rw [pow2_eq]
    exact ha
  have hb' : x < pow2 (ratLog2 x + 1) := by
    rw [pow2_eq]
    exact hb
  by_contra hne
  rcases lt_or_gt_of_ne hne with h | h
  · have := pow2_le_pow2 (ratLog2 x + 1) e (by omega)
    linarith
  · have := pow2_le_pow2 (e + 1) (ratLog2 x) (by omega)
    linarith

theorem maxFinite_nonneg (fmt : Fmt) : 0 ≤ fmt.maxFinite := by
  unfold Fmt.maxFinite
  exact mul_nonneg (Nat.cast_nonneg _) (le_of_lt (pow2_pos _))

theorem encodeKG_bump {fmt : Fmt} (hprec : 2 ≤ fmt.prec) (sign : Bool) (g : ℤ) :
    encodeKG fmt sign ((2:ℤ) ^ fmt.prec) g =
      encodeKG fmt sign ((2:ℤ) ^ fmt.mantBits) (g + 1) := by
  have hMp : fmt.mantBits + 1 = fmt.prec := by
    unfold Fmt.mantBits
    omega
  have hPpos : (0:ℤ) < 2 ^ fmt.prec := by positivity
  have hMpos : (0:ℤ) < 2 ^ fmt.mantBits := by positivity
  have hPZ : ((npow2 fmt.prec : ℕ) : ℤ) = 2 ^ fmt.prec := by
    rw [npow2_eq]
    push_cast
    ring
  have hMZ : ((npow2 fmt.mantBits : ℕ) : ℤ) = 2 ^ fmt.mantBits := by
    rw [npow2_eq]
    push_cast
    ring
  have hMP : (2:ℤ) ^ fmt.mantBits < 2 ^ fmt.prec := by
    rw [← hMp, pow_succ]
    linarith
  have hL : encodeKG fmt sign ((2:ℤ) ^ fmt.prec) g =
      ⟨sign, (g + 1 + fmt.mantBits + fmt.bias).toNat, 0⟩ := by
    simp only [encodeKG]
    rw [if_neg (by omega : ¬ (2:ℤ) ^ fmt.prec = 0)]
    simp only [if_pos hPZ.symm]
    rw [if_neg (lt_irrefl _), sub_self]
    rfl
  have hR : encodeKG fmt sign ((2:ℤ) ^ fmt.mantBits) (g + 1) =
      ⟨sign, (g + 1 + fmt.mantBits + fmt.bias).toNat, 0⟩ := by
    simp only [encodeKG]
    rw [if_neg (by omega : ¬ (2:ℤ) ^ fmt.mantBits = 0)]
    simp only [if_neg (show ¬ (2:ℤ) ^ fmt.mantBits = ((npow2 fmt.prec : ℕ) : ℤ) from by
      rw [hPZ]
      omega)]
    rw [if_neg (by rw [hMZ]; omega), hMZ, sub_self]
    rfl
  rw [hL, hR]

theorem rne_le_half (q : ℚ) (h0 : 0 ≤ q) (h : q ≤ 1/2) : rne q = 0 := by
  rcases lt_or_eq_of_le h with hlt | heq
  · have h1 := rne_le_of_lt_half q 0 (by push_cast; linarith)
    have h2 := rne_nonneg q h0
    omega
  · have hfl : ⌊q⌋ = 0 := by
      rw [Int.floor_eq_iff]
      constructor <;> push_cast <;> linarith
    unfold rne
    rw [hfl, heq]
    norm_num

theorem roundRat_underflow {fmt : Fmt} (sign : Bool) (x : ℚ)
    (hx : 0 < x) (hhi : x ≤ pow2 (fmt.gridMin - 1)) :
    roundRat fmt sign x = zeroBits fmt sign := by
  have hL : ratLog2 x ≤ fmt.gridMin - 1 := by
    have h1 := (ratLog2_spec x hx).1
    have h1' : pow2 (ratLog2 x) ≤ x := by
      rw [pow2_eq]
      exact h1
    exact pow2_le_pow2_rev _ _ (le_trans h1' hhi)
  have hg : max fmt.gridMin (ratLog2 x - fmt.mantBits) = fmt.gridMin := by
    apply max_eq_left
    have hM0 : (0:ℤ) ≤ (fmt.mantBits : ℤ) := by positivity
    omega
  have hq : x / pow2 fmt.gridMin ≤ 1/2 := by
    rw [div_le_iff₀ (pow2_pos _)]
    calc x ≤ pow2 (fmt.gridMin - 1) := hhi
      _ = 1/2 * pow2 fmt.gridMin := by
          rw [show (fmt.gridMin - 1) = (-1) + fmt.gridMin from by ring, pow2_add,
            pow2_neg_one]
  have hk : rne (x / pow2 (max fmt.gridMin (ratLog2 x - fmt.mantBits))) = 0 := by
    rw [hg]
    exact rne_le_half _ (le_of_lt (div_pos hx (pow2_pos _))) hq
  simp only [roundRat]
  rw [if_neg (not_le.mpr hx), hk]
  rw [if_neg (show ¬ fmt.maxFinite < ((0:ℤ) : ℚ) *
      pow2 (max fmt.gridMin (ratLog2 x - fmt.mantBits)) from by
    rw [Int.cast_zero, zero_mul]
    exact not_lt.mpr (maxFinite_nonneg fmt))]
  simp [encodeKG]

theorem pow2_lt_pow2 (a b : ℤ) (h : a < b) : pow2 a < pow2 b := by
  have h1 : pow2 (a + 1) ≤ pow2 b := pow2_le_pow2 _ _ (by omega)
  have h2 : pow2 a < pow2 (a + 1) := by
    rw [pow2_add, pow2_one]
    have := pow2_pos a
    linarith
  linarith

theorem pow2_toNat (a : ℤ) (ha : 0 ≤ a) : (((2:ℤ) ^ a.toNat : ℤ) : ℚ) = pow2 a := by
  conv_rhs => rw [show a = ((a.toNat : ℕ) : ℤ) from (Int.toNat_of_nonneg ha).symm]
  rw [pow2_natCast]

theorem roundRat_congr {fmt : Fmt} (sign : Bool) (x y : ℚ) (hx : 0 < x) (hy : 0 < y)
    (hk : rne (x / pow2 (max fmt.gridMin (ratLog2 x - fmt.mantBits))) =
        rne (y / pow2 (max fmt.gridMin (ratLog2 y - fmt.mantBits))))
    (hg : max fmt.gridMin (ratLog2 x - fmt.mantBits) =
        max fmt.gridMin (ratLog2 y - fmt.mantBits)) :
    roundRat fmt sign x = roundRat fmt sign y := by
  simp only [roundRat]
  rw [if_neg (not_le.mpr hx), if_neg (not_le.mpr hy), hk, hg]

theorem roundRat_eq_encode {fmt : Fmt} (sign : Bool) (x : ℚ) (hx : 0 < x) :
    roundRat fmt sign x =
      if fmt.maxFinite <
          ((rne (x / pow2 (max fmt.gridMin (ratLog2 x - fmt.mantBits))) : ℤ) : ℚ) *
            pow2 (max fmt.gridMin (ratLog2 x - fmt.mantBits)) then infBits fmt sign
      else
        encodeKG fmt sign (rne (x / pow2 (max fmt.gridMin (ratLog2 x - fmt.mantBits))))
          (max fmt.gridMin (ratLog2 x - fmt.mantBits)) := by
  simp only [roundRat]
  rw [if_neg (not_le.mpr hx)]

/-- Innocuous double rounding: rounding `x` first to the wide format and then
rounding the (exact value of the) result to the narrow format yields the same
narrow bit pattern as rounding `x` directly, provided `x` is either exactly a
narrow-grid midpoint or farther than a wide half-ulp from every narrow-grid
midpoint. -/
theorem roundRat_double {nf wf : Fmt} (hnp : 2 ≤ nf.prec) (hnw : 2 ≤ nf.w)
    (hwp : 2 ≤ wf.prec) (hww : 2 ≤ wf.w)
    (hMM : (nf.mantBits : ℤ) + 1 ≤ wf.mantBits)
    (hgapg : wf.gridMin + 1 ≤ nf.gridMin)
    (sign : Bool) (x : ℚ) (hx : 0 < x)
    (hxlo : pow2 (nf.gridMin - 1) ≤ x)
    (hbound : x < pow2 wf.emax)
    (hexcl : ∀ j : ℤ,
        x = ((2 * j + 1 : ℤ) : ℚ) *
            pow2 (max nf.gridMin (ratLog2 x - nf.mantBits) - 1) ∨
          pow2 (max wf.gridMin (ratLog2 x - wf.mantBits) - 1) <
            |x - ((2 * j + 1 : ℤ) : ℚ) *
              pow2 (max nf.gridMin (ratLog2 x - nf.mantBits) - 1)|) :
    roundRat nf sign (toRat (roundRat wf false x)) = roundRat nf sign x := by
  set L := ratLog2 x with hLdef
  set g := max nf.gridMin (L - nf.mantBits) with hgdef
  set h := max wf.gridMin (L - wf.mantBits) with hhdef
  have hgm_le : nf.gridMin ≤ g := by
    rw [hgdef]
    exact le_max_left _ _
  have hLM_le : L - nf.mantBits ≤ g := by
    rw [hgdef]
    exact le_max_right _ _
  have hL1 : pow2 L ≤ x := by
    rw [hLdef, pow2_eq]
    exact (ratLog2_spec x hx).1
  have hL2 : x < pow2 (L + 1) := by
    rw [hLdef, pow2_eq]
    exact (ratLog2_spec x hx).2
  have hLlo : nf.gridMin - 1 ≤ L := by
    have := pow2_lt_pow2_rev (nf.gridMin - 1) (L + 1) (lt_of_le_of_lt hxlo hL2)
    omega
  have hhg : h + 1 ≤ g := by
    have hh1 : h ≤ g - 1 := by
      rw [hhdef]
      exact max_le (by omega) (by omega)
    omega
  have hgL1 : g ≤ L + 1 := by
    rw [hgdef]
    exact max_le (by omega) (by omega)
  have hhL : h ≤ L := by omega
  have hwv := roundRat_val hwp hww false x hx hbound
  have hxval : toRat (roundRat wf false x) = ((rne (x / pow2 h) : ℤ) : ℚ) * pow2 h := by
    rw [hhdef, hLdef]
    rw [hwv.1, show sgn false = (1:ℚ) from rfl, one_mul]
  set kw := rne (x / pow2 h) with hkwdef
  set xr := ((kw : ℤ) : ℚ) * pow2 h with hxrdef
  have hkw_lo : (2:ℤ) ^ (L - h).toNat ≤ kw := by
    rw [hkwdef]
    apply rne_ge_of_ge
    rw [pow2_toNat _ (by omega)]
    rw [le_div_iff₀ (pow2_pos h), ← pow2_add, show L - h + h = L from by ring]
    exact hL1
  have hkw_hi : kw ≤ (2:ℤ) ^ (L + 1 - h).toNat := by
    rw [hkwdef]
    apply rne_le_of_le
    rw [pow2_toNat _ (by omega)]
    rw [div_le_iff₀ (pow2_pos h), ← pow2_add, show L + 1 - h + h = L + 1 from by ring]
    exact le_of_lt hL2
  have hxrlo : pow2 L ≤ xr := by
    rw [hxrdef]
    calc pow2 L = pow2 (L - h) * pow2 h := by
          rw [← pow2_add, show L - h + h = L from by ring]
      _ ≤ (kw : ℚ) * pow2 h := by
          apply mul_le_mul_of_nonneg_right _ (le_of_lt (pow2_pos h))
          rw [← pow2_toNat _ (by omega)]
          exact_mod_cast hkw_lo
  have hxrhi : xr ≤ pow2 (L + 1) := by
    rw [hxrdef]
    calc (kw : ℚ) * pow2 h ≤ pow2 (L + 1 - h) * pow2 h := by
          apply mul_le_mul_of_nonneg_right _ (le_of_lt (pow2_pos h))
          rw [← pow2_toNat _ (by omega)]
          exact_mod_cast hkw_hi
      _ = pow2 (L + 1) := by
          rw [← pow2_add, show L + 1 - h + h = L + 1 from by ring]
  have hxrpos : 0 < xr := lt_of_lt_of_le (pow2_pos L) hxrlo
  rw [hxval]
  rcases lt_or_eq_of_le hxrhi with hlt | heqtop
  · -- `xr` stays in the binade of `x`: the two roundings share grid and value
    have hLr : ratLog2 xr = L := ratLog2_unique xr L hxrpos hxrlo hlt
    have hgeq : max nf.gridMin (ratLog2 xr - nf.mantBits) =
        max nf.gridMin (ratLog2 x - nf.mantBits) := by
      rw [hLr, ← hLdef]
    have hkeq : rne (xr / pow2 (max nf.gridMin (ratLog2 xr - nf.mantBits))) =
        rne (x / pow2 (max nf.gridMin (ratLog2 x - nf.mantBits))) := by
      rw [hgeq, ← hLdef, ← hgdef]
      set s : ℕ := (g - h).toNat with hsdef
      have hs1 : 1 ≤ s := by omega
      have hsg : (s : ℤ) = g - h := Int.toNat_of_nonneg (by omega)
      have hpow : (2:ℚ) ^ s = pow2 (g - h) := by
        rw [← hsg, pow2_eq, zpow_natCast]
      have hg0 : pow2 g ≠ 0 := ne_of_gt (pow2_pos g)
      have hh0 : pow2 h ≠ 0 := ne_of_gt (pow2_pos h)
      have hqs : x / pow2 g * 2 ^ s = x / pow2 h := by
        rw [hpow, pow2_sub]
        field_simp
      have hxrq : xr / pow2 g = ((kw : ℤ) : ℚ) / 2 ^ s := by
        rw [hxrdef, hpow, pow2_sub]
        field_simp
      rw [hxrq, hkwdef, ← hqs]
      refine rne_double (x / pow2 g) s hs1 ?_
      intro m
      rcases hexcl m with he | he
      · left
        rw [he, show pow2 (g - 1) = pow2 g / 2 from by rw [pow2_sub, pow2_one]]
        push_cast
        field_simp
        ring
      · right
        have hdiff : x / pow2 g - ((m : ℚ) + 1/2) =
            (x - ((2 * m + 1 : ℤ) : ℚ) * pow2 (g - 1)) / pow2 g := by
          rw [show pow2 (g - 1) = pow2 g / 2 from by rw [pow2_sub, pow2_one]]
          push_cast
          field_simp
          ring
        rw [hdiff, abs_div, abs_of_pos (pow2_pos g)]
        have hratio : (1:ℚ) / 2 ^ (s + 1) = pow2 (h - 1) / pow2 g := by
          rw [← pow2_sub, show h - 1 - g = -((s : ℤ) + 1) from by omega]
          rw [pow2_eq, zpow_neg, show ((s : ℤ) + 1) = ((s + 1 : ℕ) : ℤ) from by
            push_cast
            ring]
          rw [zpow_natCast, one_div]
        rw [hratio, div_lt_div_iff (pow2_pos g) (pow2_pos g)]
        exact mul_lt_mul_of_pos_right he (pow2_pos g)
    exact roundRat_congr sign xr x hxrpos hx hkeq hgeq
  · -- `xr` landed exactly on the top of the binade of `x`
    have hKcast : (((2:ℤ) ^ (L + 1 - g).toNat : ℤ) : ℚ) * pow2 g = pow2 (L + 1) := by
      rw [pow2_toNat _ (by omega), ← pow2_add, show L + 1 - g + g = L + 1 from by ring]
    have herr : |xr - x| ≤ pow2 (h - 1) := by
      have he := roundRat_err hwp hww false x hx hbound
      rw [show sgn false = (1:ℚ) from rfl, one_mul] at he
      rw [← hLdef, ← hhdef, hxval] at he
      exact he
    have hgap2 : pow2 (h - 1) < pow2 (g - 1) := pow2_lt_pow2 _ _ (by omega)
    have hxgt : pow2 (L + 1) - pow2 (g - 1) < x := by
      have h1 : xr - x ≤ pow2 (h - 1) := (abs_le.mp herr).2
      rw [heqtop] at h1
      linarith
    have hh2 : pow2 (g - 1) = pow2 g / 2 := by
      rw [pow2_sub, pow2_one]
    have hKx : rne (x / pow2 g) = (2:ℤ) ^ (L + 1 - g).toNat := by
      have hub : rne (x / pow2 g) ≤ (2:ℤ) ^ (L + 1 - g).toNat := by
        apply rne_le_of_le
        rw [div_le_iff₀ (pow2_pos g), hKcast]
        exact le_of_lt hL2
      have hlb : (2:ℤ) ^ (L + 1 - g).toNat ≤ rne (x / pow2 g) := by
        apply rne_ge_of_gt_half
        rw [lt_div_iff₀ (pow2_pos g)]
        calc ((((2:ℤ) ^ (L + 1 - g).toNat : ℤ) : ℚ) - 1/2) * pow2 g
            = (((2:ℤ) ^ (L + 1 - g).toNat : ℤ) : ℚ) * pow2 g - pow2 g / 2 := by ring
          _ = pow2 (L + 1) - pow2 (g - 1) := by rw [hKcast, ← hh2]
          _ < x := hxgt
      omega
    have hL2r : ratLog2 xr = L + 1 := by
      apply ratLog2_unique xr (L + 1) hxrpos
      · rw [heqtop]
      · rw [heqtop]
        exact pow2_lt_pow2 _ _ (by omega)
    set g2 := max nf.gridMin (L + 1 - nf.mantBits) with hg2def
    have hg2le : g2 ≤ L + 1 := by
      rw [hg2def]
      exact max_le (by omega) (by omega)
    have hk2cast : (((2:ℤ) ^ (L + 1 - g2).toNat : ℤ) : ℚ) * pow2 g2 = pow2 (L + 1) := by
      rw [pow2_toNat _ (by omega), ← pow2_add, show L + 1 - g2 + g2 = L + 1 from by ring]
    have hKxr : rne (xr / pow2 g2) = (2:ℤ) ^ (L + 1 - g2).toNat := by
      have hq : xr / pow2 g2 = (((2:ℤ) ^ (L + 1 - g2).toNat : ℤ) : ℚ) := by
        rw [heqtop, div_eq_iff (ne_of_gt (pow2_pos g2))]
        exact hk2cast.symm
      rw [hq, rne_intCast]
    rw [roundRat_eq_encode sign xr hxrpos, roundRat_eq_encode sign x hx]
    rw [hL2r, ← hg2def, ← hLdef, ← hgdef]
    rw [hKxr, hKx]
    rw [show (((2:ℤ) ^ (L + 1 - g2).toNat : ℤ) : ℚ) * pow2 g2 =
        (((2:ℤ) ^ (L + 1 - g).toNat : ℤ) : ℚ) * pow2 g from by rw [hk2cast, hKcast]]
    have henc : encodeKG nf sign ((2:ℤ) ^ (L + 1 - g2).toNat) g2 =
        encodeKG nf sign ((2:ℤ) ^ (L + 1 - g).toNat) g := by
      by_cases hc : L + 1 - (nf.mantBits : ℤ) ≤ nf.gridMin
      · have hgg2 : g2 = nf.gridMin := by
          rw [hg2def]
          exact max_eq_left hc
        have hgg : g = nf.gridMin := by
          rw [hgdef]
          exact max_eq_left (by omega)
        rw [hgg2, hgg]
      · push_neg at hc
        have hgg2 : g2 = L + 1 - nf.mantBits := by
          rw [hg2def]
          exact max_eq_right (le_of_lt hc)
        have hgg : g = L - nf.mantBits := by
          rw [hgdef]
          exact max_eq_right (by omega)
        have he2 : (L + 1 - g2).toNat = nf.mantBits := by omega
        have he1 : (L + 1 - g).toNat = nf.mantBits + 1 := by omega
        have hMp : nf.mantBits + 1 = nf.prec := by
          unfold Fmt.mantBits
          omega
        rw [he2, he1, hMp, hgg2, hgg,
          show L + 1 - (nf.mantBits : ℤ) = (L - nf.mantBits) + 1 from by ring]
        exact (encodeKG_bump hnp sign (L - nf.mantBits)).symm
    rw [henc]

theorem pow2_mul_shift (k : ℤ) (gOld w : ℤ) (hw : w ≤ gOld) :
    (k : ℚ) * pow2 gOld = ((k * 2 ^ (gOld - w).toNat : ℤ) : ℚ) * pow2 w := by
  have h1 : (2:ℚ) ^ (gOld - w).toNat = pow2 (gOld - w) := by
    rw [pow2_eq, ← zpow_natCast]
    congr 1
    omega
  push_cast
  rw [h1, mul_assoc, ← pow2_add, show gOld - w + w = gOld from by ring]

theorem pow2_int_abs_ge (n : ℤ) (w : ℤ) (hn : n ≠ 0) :
    pow2 w ≤ |(n:ℚ) * pow2 w| := by
  rw [abs_mul, abs_of_pos (pow2_pos w)]
  have h1 : (1:ℚ) ≤ |(n:ℚ)| := by
    rw [← Int.cast_abs]
    exact_mod_cast Int.one_le_abs hn
  nlinarith [pow2_pos w]

theorem roundRat_nonpos {fmt : Fmt} (sign : Bool) (x : ℚ) (hx : x ≤ 0) :
    roundRat fmt sign x = zeroBits fmt sign := by
  simp only [roundRat]
  rw [if_pos hx]

theorem classify_zeroBits (fmt : Fmt) (hw : 2 ≤ fmt.w) (s : Bool) :
    classify (zeroBits fmt s) = .zero := by
  simp only [classify, zeroBits]
  rw [if_neg (fun h => expTop_ne_zero hw h.symm)]
  simp

theorem classify_infBits (fmt : Fmt) (s : Bool) :
    classify (infBits fmt s) = .inf := by
  simp only [classify, infBits]
  simp

theorem classify_nanBits (fmt : Fmt) :
    classify (nanBits fmt) = .nan := by
  simp only [classify, nanBits]
  simp [(Nat.two_pow_pos (fmt.mantBits - 1)).ne']

theorem convert_zeroBits (src dst : Fmt) (hsw : 2 ≤ src.w) (s : Bool) :
    convert src dst (zeroBits src s) = zeroBits dst s := by
  unfold convert
  rw [classify_zeroBits src hsw s, toRat_zeroBits, abs_zero]
  exact roundRat_nonpos _ 0 le_rfl

theorem convert_infBits (src dst : Fmt) (s : Bool) :
    convert src dst (infBits src s) = infBits dst s := by
  unfold convert
  rw [classify_infBits src s]
  rfl

theorem convert_nanBits (src dst : Fmt) :
    convert src dst (nanBits src) = nanBits dst := by
  unfold convert
  rw [classify_nanBits src]

theorem WF_negBits {fmt : Fmt} (b : FPBits fmt) (h : b.WF) : (negBits b).WF := h

theorem negBits_encodeKG {fmt : Fmt} (s : Bool) (k g : ℤ) :
    negBits (encodeKG fmt s k g) = encodeKG fmt (!s) k g := by
  simp only [encodeKG]
  split_ifs <;> rfl

theorem negBits_roundRat {fmt : Fmt} (s : Bool) (x : ℚ) :
    negBits (roundRat fmt s x) = roundRat fmt (!s) x := by
  simp only [roundRat]
  split_ifs
  · rfl
  · rfl
  · exact negBits_encodeKG s _ _

theorem convert_negBits {src dst : Fmt} (b : FPBits src)
    (hcls : classify b = .normal ∨ classify b = .subnormal ∨ classify b = .zero) :
    convert src dst (negBits b) = negBits (convert src dst b) := by
  unfold convert
  rw [classify_negBits]
  rcases hcls with h | h | h <;> rw [h] <;>
    rw [show (negBits b).sign = !b.sign from rfl,
      show toRat (negBits b) = -toRat b from toRat_negBits b, abs_neg,
      negBits_roundRat]

/-- Rounding first to the wide format and then to the narrow format equals
rounding directly, for every positive `x` (with the exclusion hypothesis only
required above the narrow underflow midpoint). -/
theorem roundRat_double_all {nf wf : Fmt} (hnp : 2 ≤ nf.prec) (hnw : 2 ≤ nf.w)
    (hwp : 2 ≤ wf.prec) (hww : 2 ≤ wf.w)
    (hMM : (nf.mantBits : ℤ) + 1 ≤ wf.mantBits)
    (hgapg : wf.gridMin + 1 ≤ nf.gridMin)
    (sign : Bool) (x : ℚ) (hx : 0 < x)
    (hbound : x < pow2 wf.emax)
    (hexcl : pow2 (nf.gridMin - 1) < x → ∀ j : ℤ,
        x = ((2 * j + 1 : ℤ) : ℚ) *
            pow2 (max nf.gridMin (ratLog2 x - nf.mantBits) - 1) ∨
          pow2 (max wf.gridMin (ratLog2 x - wf.mantBits) - 1) <
            |x - ((2 * j + 1 : ℤ) : ℚ) *
              pow2 (max nf.gridMin (ratLog2 x - nf.mantBits) - 1)|) :
    roundRat nf sign (toRat (roundRat wf false x)) = roundRat nf sign x := by
  rcases le_or_lt x (pow2 (nf.gridMin - 1)) with hle | hgt
  · rw [roundRat_underflow sign x hx hle]
    have hL : ratLog2 x ≤ nf.gridMin - 1 := by
      have h1 : pow2 (ratLog2 x) ≤ x := by
        rw [pow2_eq]
        exact (ratLog2_spec x hx).1
      exact pow2_le_pow2_rev _ _ (le_trans h1 hle)
    have hh : max wf.gridMin (ratLog2 x - wf.mantBits) ≤ nf.gridMin - 1 := by
      have hM0 : (0:ℤ) ≤ (wf.mantBits : ℤ) := by positivity
      exact max_le (by omega) (by omega)
    have hval := (roundRat_val hwp hww false x hx hbound).1
    rw [show sgn false = (1:ℚ) from rfl, one_mul] at hval
    set h := max wf.gridMin (ratLog2 x - wf.mantBits) with hhdef
    have hkw : rne (x / pow2 h) ≤ (2:ℤ) ^ (nf.gridMin - 1 - h).toNat := by
      apply rne_le_of_le
      rw [pow2_toNat _ (by omega), div_le_iff₀ (pow2_pos h), ← pow2_add,
        show nf.gridMin - 1 - h + h = nf.gridMin - 1 from by ring]
      exact hle
    have hxle : toRat (roundRat wf false x) ≤ pow2 (nf.gridMin - 1) := by
      rw [hval]
      calc ((rne (x / pow2 h) : ℤ) : ℚ) * pow2 h ≤
          pow2 (nf.gridMin - 1 - h) * pow2 h := by
            apply mul_le_mul_of_nonneg_right _ (le_of_lt (pow2_pos h))
            rw [← pow2_toNat (nf.gridMin - 1 - h) (by omega)]
            exact_mod_cast hkw
        _ = pow2 (nf.gridMin - 1) := by
            rw [← pow2_add, show nf.gridMin - 1 - h + h = nf.gridMin - 1 from by ring]
    rcases le_or_lt (toRat (roundRat wf false x)) 0 with h0 | h0
    · exact roundRat_nonpos sign _ h0
    · exact roundRat_underflow sign _ h0 hxle
  · exact roundRat_double hnp hnw hwp hww hMM hgapg sign x hx (le_of_lt hgt) hbound
      (hexcl hgt)

/-- Narrowing the wide rounding of `v` equals rounding `v` directly to the
narrow format. -/
theorem convert_roundSigned {nf wf : Fmt} (hnp : 2 ≤ nf.prec) (hnw : 2 ≤ nf.w)
    (hwp : 2 ≤ wf.prec) (hww : 2 ≤ wf.w)
    (hMM : (nf.mantBits : ℤ) + 1 ≤ wf.mantBits)
    (hgapg : wf.gridMin + 1 ≤ nf.gridMin)
    (v : ℚ) (hv : v ≠ 0) (hbound : |v| < pow2 wf.emax)
    (hexcl : pow2 (nf.gridMin - 1) < |v| → ∀ j : ℤ,
        |v| = ((2 * j + 1 : ℤ) : ℚ) *
            pow2 (max nf.gridMin (ratLog2 |v| - nf.mantBits) - 1) ∨
          pow2 (max wf.gridMin (ratLog2 |v| - wf.mantBits) - 1) <
            abs (|v| - ((2 * j + 1 : ℤ) : ℚ) *
              pow2 (max nf.gridMin (ratLog2 |v| - nf.mantBits) - 1))) :
    convert wf nf (roundSigned wf v) = roundSigned nf v := by
  have habs : 0 < |v| := abs_pos.mpr hv
  have h1 : roundSigned wf v = roundRat wf (decide (v < 0)) |v| :=
    roundSigned_eq_roundRat_abs v hv
  obtain ⟨hval, hWFw, hTopw, hsgnw, _⟩ :=
    roundRat_val hwp hww (decide (v < 0)) |v| habs hbound
  have hconv : convert wf nf (roundRat wf (decide (v < 0)) |v|) =
      roundRat nf (decide (v < 0)) |toRat (roundRat wf (decide (v < 0)) |v|)| := by
    rcases classify_cases (roundRat wf (decide (v < 0)) |v|) hTopw with
      ⟨hc, _, _⟩ | ⟨hc, _, _⟩ | ⟨hc, _⟩ <;>
    · unfold convert
      rw [hc, roundRat_sign]
  have habs2 : |toRat (roundRat wf (decide (v < 0)) |v|)| =
      toRat (roundRat wf false |v|) := by
    have h2 := (roundRat_val hwp hww false |v| habs hbound).1
    rw [hval, h2, show sgn false = (1:ℚ) from rfl, one_mul, abs_mul, sgn_abs, one_mul]
    apply abs_of_nonneg
    apply mul_nonneg _ (le_of_lt (pow2_pos _))
    have := rne_nonneg (|v| / pow2 (max wf.gridMin (ratLog2 |v| - wf.mantBits)))
      (le_of_lt (div_pos habs (pow2_pos _)))
    exact_mod_cast this
  rw [h1, hconv, habs2,
    roundRat_double_all hnp hnw hwp hww hMM hgapg (decide (v < 0)) |v| habs hbound hexcl,
    roundSigned_eq_roundRat_abs v hv]

/-- Exclusion zone, common-grid form: a positive value on the wide grid
`2 ^ w` is either exactly a narrow-grid midpoint or farther than a wide
half-ulp from it. -/
theorem excl_of_mul2 {nf wf : Fmt} (hnp : 2 ≤ nf.prec)
    (hMM2 : 2 * (nf.mantBits : ℤ) + 2 ≤ wf.mantBits)
    (hgap2 : wf.gridMin + (nf.mantBits : ℤ) + 2 ≤ nf.gridMin)
    (x : ℚ) (hx : 0 < x) (w n : ℤ) (hxw : x = (n : ℚ) * pow2 w)
    (hw1 : wf.gridMin ≤ w) (hw2 : ratLog2 x - wf.mantBits ≤ w) :
    ∀ j : ℤ, x = ((2 * j + 1 : ℤ) : ℚ) * pow2 (max nf.gridMin (ratLog2 x - nf.mantBits) - 1) ∨
      pow2 (max wf.gridMin (ratLog2 x - wf.mantBits) - 1) <
        |x - ((2 * j + 1 : ℤ) : ℚ) * pow2 (max nf.gridMin (ratLog2 x - nf.mantBits) - 1)| := by
  intro j
  set L := ratLog2 x with hLdef
  set g := max nf.gridMin (L - nf.mantBits) with hgdef
  set h := max wf.gridMin (L - wf.mantBits) with hhdef
  have hMn1 : 1 ≤ nf.mantBits := by
    unfold Fmt.mantBits
    omega
  have hhw : h ≤ w := by
    rw [hhdef]
    exact max_le (by omega) (by omega)
  have hhg : h + 1 ≤ g := by
    have h1 : nf.gridMin ≤ g := by
      rw [hgdef]
      exact le_max_left _ _
    have h2 : L - nf.mantBits ≤ g := by
      rw [hgdef]
      exact le_max_right _ _
    have h3 : h ≤ g - nf.mantBits - 2 := by
      rw [hhdef]
      exact max_le (by omega) (by omega)
    omega
  by_cases hd : x = ((2 * j + 1 : ℤ) : ℚ) * pow2 (g - 1)
  · exact Or.inl hd
  right
  obtain ⟨n1, hn1⟩ : ∃ m : ℤ, x = (m : ℚ) * pow2 h :=
    ⟨n * 2 ^ ((w - h).toNat), by rw [hxw]; exact pow2_mul_shift n w h hhw⟩
  obtain ⟨n2, hn2⟩ : ∃ m : ℤ, ((2 * j + 1 : ℤ) : ℚ) * pow2 (g - 1) = (m : ℚ) * pow2 h :=
    ⟨(2 * j + 1) * 2 ^ ((g - 1 - h).toNat), pow2_mul_shift _ _ _ (by omega)⟩
  have hdm : x - ((2 * j + 1 : ℤ) : ℚ) * pow2 (g - 1) = ((n1 - n2 : ℤ) : ℚ) * pow2 h := by
    rw [hn1, hn2]
    push_cast
    ring
  have hne : n1 - n2 ≠ 0 := by
    intro h0
    apply hd
    have he : n1 = n2 := by omega
    rw [hn1, hn2, he]
  calc pow2 (h - 1) < pow2 h := pow2_lt_pow2 _ _ (by omega)
    _ ≤ |x - ((2 * j + 1 : ℤ) : ℚ) * pow2 (g - 1)| := by
        rw [hdm]
        exact pow2_int_abs_ge _ _ hne

theorem abs_sub_le_sum (a b : ℚ) : |a - b| ≤ |a| + |b| := by
  calc |a - b| = |a + -b| := by rw [sub_eq_add_neg]
    _ ≤ |a| + |-b| := abs_add _ _
    _ = |a| + |b| := by rw [abs_neg]

/-- Core of the addition exclusion zone: a sum of two narrow-format terms
that lies within a wide half-ulp of a narrow-grid midpoint is exactly that
midpoint (case `gb ≤ ga`). -/
theorem excl_add_core {nf wf : Fmt} (hnp : 2 ≤ nf.prec)
    (hMM2 : 2 * (nf.mantBits : ℤ) + 2 ≤ wf.mantBits)
    (hgap2 : wf.gridMin + (nf.mantBits : ℤ) + 2 ≤ nf.gridMin)
    (ka ga kb gb : ℤ)
    (hka : |ka| < 2 ^ nf.prec) (hga : nf.gridMin ≤ ga)
    (hkb : |kb| < 2 ^ nf.prec) (hgb : nf.gridMin ≤ gb)
    (hba : gb ≤ ga)
    (x : ℚ) (hx : 0 < x)
    (hxv : x = (ka : ℚ) * pow2 ga + (kb : ℚ) * pow2 gb)
    (j : ℤ)
    (hnear : |x - ((2 * j + 1 : ℤ) : ℚ) *
        pow2 (max nf.gridMin (ratLog2 x - nf.mantBits) - 1)| ≤
      pow2 (max wf.gridMin (ratLog2 x - wf.mantBits) - 1)) :
    x = ((2 * j + 1 : ℤ) : ℚ) * pow2 (max nf.gridMin (ratLog2 x - nf.mantBits) - 1) := by
  set L := ratLog2 x with hLdef
  set g := max nf.gridMin (L - nf.mantBits) with hgdef
  set h := max wf.gridMin (L - wf.mantBits) with hhdef
  have hMn1 : 1 ≤ nf.mantBits := by
    unfold Fmt.mantBits
    omega
  have hprecM : (nf.prec : ℤ) = (nf.mantBits : ℤ) + 1 := by
    unfold Fmt.mantBits
    omega
  have hkaQ : |(ka : ℚ)| < pow2 ((nf.mantBits : ℤ) + 1) := by
    rw [← hprecM, pow2_natCast, ← Int.cast_abs]
    exact_mod_cast hka
  have hkbQ : |(kb : ℚ)| < pow2 ((nf.mantBits : ℤ) + 1) := by
    rw [← hprecM, pow2_natCast, ← Int.cast_abs]
    exact_mod_cast hkb
  have hL1 : pow2 L ≤ x := by
    rw [hLdef, pow2_eq]
    exact (ratLog2_spec x hx).1
  have hL2 : x < pow2 (L + 1) := by
    rw [hLdef, pow2_eq]
    exact (ratLog2_spec x hx).2
  obtain ⟨n0, hn0⟩ : ∃ m : ℤ, x = (m : ℚ) * pow2 nf.gridMin := by
    refine ⟨ka * 2 ^ ((ga - nf.gridMin).toNat) + kb * 2 ^ ((gb - nf.gridMin).toNat), ?_⟩
    rw [hxv, pow2_mul_shift ka ga nf.gridMin hga, pow2_mul_shift kb gb nf.gridMin hgb]
    push_cast
    ring
  have hn0ne : n0 ≠ 0 := by
    intro h0
    rw [h0] at hn0
    simp at hn0
    exact absurd hn0 (ne_of_gt hx)
  have hxgm : pow2 nf.gridMin ≤ x := by
    have h1 := pow2_int_abs_ge n0 nf.gridMin hn0ne
    rw [← hn0, abs_of_pos hx] at h1
    exact h1
  have hLg : nf.gridMin ≤ L := by
    have := pow2_lt_pow2_rev nf.gridMin (L + 1) (lt_of_le_of_lt hxgm hL2)
    omega
  have hgL1 : g ≤ L + 1 := by
    rw [hgdef]
    exact max_le (by omega) (by omega)
  have hgmg : nf.gridMin ≤ g := by
    rw [hgdef]
    exact le_max_left _ _
  have hLMg : L - nf.mantBits ≤ g := by
    rw [hgdef]
    exact le_max_right _ _
  have hGH : h + (nf.mantBits : ℤ) + 2 ≤ g := by
    have h3 : h ≤ g - nf.mantBits - 2 := by
      rw [hhdef]
      exact max_le (by omega) (by omega)
    omega
  have hcastK : (((2:ℤ) ^ (L + 1 - g).toNat : ℤ) : ℚ) = pow2 (L + 1 - g) :=
    pow2_toNat _ (by omega)
  have hmul : x - pow2 (h - 1) ≤ ((2 * j + 1 : ℤ) : ℚ) * pow2 (g - 1) := by
    have h1 := (abs_le.mp hnear).2
    linarith
  have hgap1 : pow2 (h - 1) < pow2 (g - 1) := pow2_lt_pow2 _ _ (by omega)
  have hstep : (pow2 (L + 1 - g) - 1) * pow2 (g - 1) <
      ((2 * j + 1 : ℤ) : ℚ) * pow2 (g - 1) := by
    have hdd : (pow2 (L + 1 - g) - 1) * pow2 (g - 1) = pow2 L - pow2 (g - 1) := by
      rw [sub_mul, one_mul, ← pow2_add, show L + 1 - g + (g - 1) = L from by ring]
    rw [hdd]
    linarith
  have hcoeff : (2:ℤ) ^ (L + 1 - g).toNat ≤ 2 * j + 1 := by
    have h1 : pow2 (L + 1 - g) - 1 < ((2 * j + 1 : ℤ) : ℚ) :=
      (mul_lt_mul_right (pow2_pos (g - 1))).mp hstep
    rw [← hcastK] at h1
    have h2 : (2:ℤ) ^ (L + 1 - g).toNat - 1 < 2 * j + 1 := by exact_mod_cast h1
    omega
  have hmu : pow2 L ≤ ((2 * j + 1 : ℤ) : ℚ) * pow2 (g - 1) := by
    calc pow2 L = pow2 (L + 1 - g) * pow2 (g - 1) := by
          rw [← pow2_add, show L + 1 - g + (g - 1) = L from by ring]
      _ ≤ _ := by
          apply mul_le_mul_of_nonneg_right _ (le_of_lt (pow2_pos _))
          rw [← hcastK]
          exact_mod_cast hcoeff
  by_contra hne
  by_cases hcase : h ≤ gb
  · obtain ⟨m1, hm1⟩ : ∃ m : ℤ, x = (m : ℚ) * pow2 (min gb (g - 1)) := by
      refine ⟨ka * 2 ^ ((ga - min gb (g - 1)).toNat) +
        kb * 2 ^ ((gb - min gb (g - 1)).toNat), ?_⟩
      rw [hxv, pow2_mul_shift ka ga _ (le_trans (min_le_left _ _) hba),
        pow2_mul_shift kb gb _ (min_le_left _ _)]
      push_cast
      ring
    obtain ⟨m2, hm2⟩ : ∃ m : ℤ, ((2 * j + 1 : ℤ) : ℚ) * pow2 (g - 1) =
        (m : ℚ) * pow2 (min gb (g - 1)) :=
      ⟨(2 * j + 1) * 2 ^ ((g - 1 - min gb (g - 1)).toNat),
        pow2_mul_shift _ _ _ (min_le_right _ _)⟩
    have hdm : x - ((2 * j + 1 : ℤ) : ℚ) * pow2 (g - 1) =
        ((m1 - m2 : ℤ) : ℚ) * pow2 (min gb (g - 1)) := by
      rw [hm1, hm2]
      push_cast
      ring
    have hmne : m1 - m2 ≠ 0 := by
      intro h0
      apply hne
      have he2 : m1 = m2 := by omega
      rw [hm1, hm2, he2]
    have hge : pow2 (min gb (g - 1)) ≤ |x - ((2 * j + 1 : ℤ) : ℚ) * pow2 (g - 1)| := by
      rw [hdm]
      exact pow2_int_abs_ge _ _ hmne
    have hlt2 : pow2 (h - 1) < pow2 (min gb (g - 1)) := by
      apply pow2_lt_pow2
      have := le_min hcase (show h ≤ g - 1 from by omega)
      omega
    linarith
  · push_neg at hcase
    by_cases hc0 : (ka : ℚ) * pow2 ga = ((2 * j + 1 : ℤ) : ℚ) * pow2 (g - 1)
    · by_cases hgag : g ≤ ga
      · have hsh : (ka : ℚ) * pow2 ga =
            ((ka * 2 ^ ((ga - (g - 1)).toNat) : ℤ) : ℚ) * pow2 (g - 1) :=
          pow2_mul_shift ka ga (g - 1) (by omega)
        have hint : ka * 2 ^ ((ga - (g - 1)).toNat) = 2 * j + 1 := by
          have hAB := hsh.symm.trans hc0
          have h1 := mul_right_cancel₀ (ne_of_gt (pow2_pos (g - 1))) hAB
          exact_mod_cast h1
        obtain ⟨m, hm⟩ : ∃ m : ℤ, (2:ℤ) ^ ((ga - (g - 1)).toNat) = 2 * m := by
          refine ⟨2 ^ ((ga - (g - 1)).toNat - 1), ?_⟩
          rw [← pow_succ']
          congr 1
          omega
        have h2 : (2:ℤ) ∣ 2 * j + 1 := ⟨ka * m, by rw [← hint, hm]; ring⟩
        omega
      · push_neg at hgag
        have habs0 : |(ka : ℚ)| * pow2 ga = ((2 * j + 1 : ℤ) : ℚ) * pow2 (g - 1) := by
          have h1 := congrArg abs hc0
          rw [abs_mul, abs_of_pos (pow2_pos ga), abs_mul,
            abs_of_pos (pow2_pos (g - 1))] at h1
          rw [h1]
          congr 1
          have hpos : (0:ℤ) < 2 * j + 1 := lt_of_lt_of_le (by positivity) hcoeff
          exact abs_of_pos (by exact_mod_cast hpos)
        have hgeq2 : g = L - nf.mantBits := by
          rcases max_cases nf.gridMin (L - nf.mantBits) with ⟨he1, he2⟩ | ⟨he1, he2⟩ <;>
            rw [← hgdef] at he1 <;> omega
        have hge2 : pow2 ((nf.mantBits : ℤ) + 1) * pow2 ga ≤ |(ka : ℚ)| * pow2 ga := by
          rw [habs0]
          calc pow2 ((nf.mantBits : ℤ) + 1) * pow2 ga = pow2 (nf.mantBits + 1 + ga) :=
                (pow2_add _ _).symm
            _ ≤ pow2 L := pow2_le_pow2 _ _ (by omega)
            _ ≤ ((2 * j + 1 : ℤ) : ℚ) * pow2 (g - 1) := hmu
        have h5 : pow2 ((nf.mantBits : ℤ) + 1) ≤ |(ka : ℚ)| :=
          le_of_mul_le_mul_right hge2 (pow2_pos ga)
        linarith
    · by_cases hgag : g - 1 ≤ ga
      · obtain ⟨mc, hmc⟩ : ∃ m : ℤ,
            (ka : ℚ) * pow2 ga - ((2 * j + 1 : ℤ) : ℚ) * pow2 (g - 1) =
              (m : ℚ) * pow2 (g - 1) := by
          refine ⟨ka * 2 ^ ((ga - (g - 1)).toNat) - (2 * j + 1), ?_⟩
          rw [pow2_mul_shift ka ga (g - 1) hgag]
          push_cast
          ring
        have hmcne : mc ≠ 0 := by
          intro h0
          apply hc0
          rw [h0] at hmc
          simp at hmc
          push_cast
          linarith
        have hcge : pow2 (g - 1) ≤
            |(ka : ℚ) * pow2 ga - ((2 * j + 1 : ℤ) : ℚ) * pow2 (g - 1)| := by
          rw [hmc]
          exact pow2_int_abs_ge _ _ hmcne
        have htri : |(ka : ℚ) * pow2 ga - ((2 * j + 1 : ℤ) : ℚ) * pow2 (g - 1)| ≤
            |x - ((2 * j + 1 : ℤ) : ℚ) * pow2 (g - 1)| + |(kb : ℚ) * pow2 gb| := by
          have h1 : (ka : ℚ) * pow2 ga - ((2 * j + 1 : ℤ) : ℚ) * pow2 (g - 1) =
              (x - ((2 * j + 1 : ℤ) : ℚ) * pow2 (g - 1)) - (kb : ℚ) * pow2 gb := by
            rw [hxv]
            ring
          rw [h1]
          exact abs_sub_le_sum _ _
        have hd2 : pow2 (h - 1) ≤ pow2 (g - 2) := pow2_le_pow2 _ _ (by omega)
        have hgsplit : pow2 (g - 1) = 2 * pow2 (g - 2) := by
          rw [show g - 1 = (g - 2) + 1 from by ring, pow2_add, pow2_one]
          ring
        have hbge : pow2 (g - 2) ≤ |(kb : ℚ) * pow2 gb| := by linarith
        have hbub : |(kb : ℚ) * pow2 gb| < pow2 ((nf.mantBits : ℤ) + 1 + gb) := by
          rw [abs_mul, abs_of_pos (pow2_pos gb), pow2_add]
          exact mul_lt_mul_of_pos_right hkbQ (pow2_pos gb)
        have hgb2 := pow2_lt_pow2_rev _ _ (lt_of_le_of_lt hbge hbub)
        omega
      · push_neg at hgag
        by_cases hbig : pow2 (L - 1) < |(ka : ℚ)| * pow2 ga
        · have h1 : |(ka : ℚ)| * pow2 ga < pow2 ((nf.mantBits : ℤ) + 1 + ga) := by
            rw [pow2_add]
            exact mul_lt_mul_of_pos_right hkaQ (pow2_pos ga)
          have h2 := pow2_lt_pow2_rev _ _ (lt_trans hbig h1)
          rcases max_cases nf.gridMin (L - nf.mantBits) with ⟨he1, he2⟩ | ⟨he1, he2⟩ <;>
            rw [← hgdef] at he1 <;> omega
        · push_neg at hbig
          have hmupos : 0 < ((2 * j + 1 : ℤ) : ℚ) * pow2 (g - 1) :=
            lt_of_lt_of_le (pow2_pos L) hmu
          have hsplitL : pow2 L = 2 * pow2 (L - 1) := by
            rw [show L = (L - 1) + 1 from by ring, pow2_add, pow2_one]
            ring
          have hcge : pow2 (L - 1) ≤
              |(ka : ℚ) * pow2 ga - ((2 * j + 1 : ℤ) : ℚ) * pow2 (g - 1)| := by
            have habs1 : |(ka : ℚ) * pow2 ga| = |(ka : ℚ)| * pow2 ga := by
              rw [abs_mul, abs_of_pos (pow2_pos ga)]
            calc pow2 (L - 1) ≤
                ((2 * j + 1 : ℤ) : ℚ) * pow2 (g - 1) - |(ka : ℚ) * pow2 ga| := by
                  rw [habs1]
                  linarith
              _ ≤ |((2 * j + 1 : ℤ) : ℚ) * pow2 (g - 1)| - |(ka : ℚ) * pow2 ga| := by
                  rw [abs_of_pos hmupos]
              _ ≤ |((2 * j + 1 : ℤ) : ℚ) * pow2 (g - 1) - (ka : ℚ) * pow2 ga| :=
                  abs_sub_abs_le_abs_sub _ _
              _ = |(ka : ℚ) * pow2 ga - ((2 * j + 1 : ℤ) : ℚ) * pow2 (g - 1)| :=
                  abs_sub_comm _ _
          have htri : |(ka : ℚ) * pow2 ga - ((2 * j + 1 : ℤ) : ℚ) * pow2 (g - 1)| ≤
              |x - ((2 * j + 1 : ℤ) : ℚ) * pow2 (g - 1)| + |(kb : ℚ) * pow2 gb| := by
            have h1 : (ka : ℚ) * pow2 ga - ((2 * j + 1 : ℤ) : ℚ) * pow2 (g - 1) =
                (x - ((2 * j + 1 : ℤ) : ℚ) * pow2 (g - 1)) - (kb : ℚ) * pow2 gb := by
              rw [hxv]
              ring
            rw [h1]
            exact abs_sub_le_sum _ _
          have hd2 : pow2 (h - 1) ≤ pow2 (L - 2) := pow2_le_pow2 _ _ (by omega)
          have hsplitL1 : pow2 (L - 1) = 2 * pow2 (L - 2) := by
            rw [show L - 1 = (L - 2) + 1 from by ring, pow2_add, pow2_one]
            ring
          have hbge : pow2 (L - 2) ≤ |(kb : ℚ) * pow2 gb| := by linarith
          have hbub : |(kb : ℚ) * pow2 gb| < pow2 ((nf.mantBits : ℤ) + 1 + gb) := by
            rw [abs_mul, abs_of_pos (pow2_pos gb), pow2_add]
            exact mul_lt_mul_of_pos_right hkbQ (pow2_pos gb)
          have h3 := pow2_lt_pow2_rev _ _ (lt_of_le_of_lt hbge hbub)
          have hhgb : h ≤ gb := by
            rw [hhdef]
            exact max_le (by omega) (by omega)
          omega

/-- Exclusion zone for addition/subtraction: the magnitude of a sum of two
narrow-format values is either exactly a narrow midpoint or more than a wide
half-ulp away from each one. -/
theorem excl_add {nf wf : Fmt} (hnp : 2 ≤ nf.prec)
    (hMM2 : 2 * (nf.mantBits : ℤ) + 2 ≤ wf.mantBits)
    (hgap2 : wf.gridMin + (nf.mantBits : ℤ) + 2 ≤ nf.gridMin)
    (ka ga kb gb : ℤ)
    (hka : |ka| < 2 ^ nf.prec) (hga : nf.gridMin ≤ ga)
    (hkb : |kb| < 2 ^ nf.prec) (hgb : nf.gridMin ≤ gb)
    (x : ℚ) (hx : 0 < x)
    (hxv : x = |(ka : ℚ) * pow2 ga + (kb : ℚ) * pow2 gb|) :
    ∀ j : ℤ, x = ((2 * j + 1 : ℤ) : ℚ) *
        pow2 (max nf.gridMin (ratLog2 x - nf.mantBits) - 1) ∨
      pow2 (max wf.gridMin (ratLog2 x - wf.mantBits) - 1) <
        |x - ((2 * j + 1 : ℤ) : ℚ) *
          pow2 (max nf.gridMin (ratLog2 x - nf.mantBits) - 1)| := by
  intro j
  by_cases hfar : pow2 (max wf.gridMin (ratLog2 x - wf.mantBits) - 1) <
      |x - ((2 * j + 1 : ℤ) : ℚ) * pow2 (max nf.gridMin (ratLog2 x - nf.mantBits) - 1)|
  · exact Or.inr hfar
  push_neg at hfar
  left
  rcases abs_cases ((ka : ℚ) * pow2 ga + (kb : ℚ) * pow2 gb) with ⟨habs, _⟩ | ⟨habs, _⟩
  · have hxv2 : x = (ka : ℚ) * pow2 ga + (kb : ℚ) * pow2 gb := by
      rw [hxv, habs]
    rcases le_total gb ga with hba | hba
    · exact excl_add_core hnp hMM2 hgap2 ka ga kb gb hka hga hkb hgb hba x hx hxv2 j hfar
    · exact excl_add_core hnp hMM2 hgap2 kb gb ka ga hkb hgb hka hga hba x hx
        (by rw [hxv2]; ring) j hfar
  · have hxv2 : x = ((-ka : ℤ) : ℚ) * pow2 ga + ((-kb : ℤ) : ℚ) * pow2 gb := by
      rw [hxv, habs]
      push_cast
      ring
    have hka2 : |(-ka : ℤ)| < 2 ^ nf.prec := by
      rw [abs_neg]
      exact hka
    have hkb2 : |(-kb : ℤ)| < 2 ^ nf.prec := by
      rw [abs_neg]
      exact hkb
    rcases le_total gb ga with hba | hba
    · exact excl_add_core hnp hMM2 hgap2 (-ka) ga (-kb) gb hka2 hga hkb2 hgb hba x hx
        hxv2 j hfar
    · exact excl_add_core hnp hMM2 hgap2 (-kb) gb (-ka) ga hkb2 hgb hka2 hga hba x hx
        (by rw [hxv2]; ring) j hfar

/-- Exclusion zone for division: the magnitude of a quotient of two
narrow-format values above the underflow midpoint is either exactly a narrow
midpoint or more than a wide half-ulp away from each one. -/
theorem excl_div {nf wf : Fmt} (hnp : 2 ≤ nf.prec)
    (hMM2 : 2 * (nf.mantBits : ℤ) + 2 ≤ wf.mantBits)
    (hgap2 : wf.gridMin + (nf.mantBits : ℤ) + 2 ≤ nf.gridMin)
    (ka ga kb gb : ℤ)
    (hka : |ka| < 2 ^ nf.prec) (hga : nf.gridMin ≤ ga)
    (hkb : |kb| < 2 ^ nf.prec) (hgb : nf.gridMin ≤ gb)
    (hkb0 : kb ≠ 0)
    (x : ℚ) (hx : 0 < x) (hxlo : pow2 (nf.gridMin - 1) < x)
    (hxv : x = |(ka : ℚ) * pow2 ga| / |(kb : ℚ) * pow2 gb|) :
    ∀ j : ℤ, x = ((2 * j + 1 : ℤ) : ℚ) *
        pow2 (max nf.gridMin (ratLog2 x - nf.mantBits) - 1) ∨
      pow2 (max wf.gridMin (ratLog2 x - wf.mantBits) - 1) <
        |x - ((2 * j + 1 : ℤ) : ℚ) *
          pow2 (max nf.gridMin (ratLog2 x - nf.mantBits) - 1)| := by
  intro j
  by_cases hfar : pow2 (max wf.gridMin (ratLog2 x - wf.mantBits) - 1) <
      |x - ((2 * j + 1 : ℤ) : ℚ) * pow2 (max nf.gridMin (ratLog2 x - nf.mantBits) - 1)|
  · exact Or.inr hfar
  push_neg at hfar
  left
  set L := ratLog2 x with hLdef
  set g := max nf.gridMin (L - nf.mantBits) with hgdef
  set h := max wf.gridMin (L - wf.mantBits) with hhdef
  have hMn1 : 1 ≤ nf.mantBits := by
    unfold Fmt.mantBits
    omega
  have hprecM : (nf.prec : ℤ) = (nf.mantBits : ℤ) + 1 := by
    unfold Fmt.mantBits
    omega
  have hkaQ : |(ka : ℚ)| < pow2 ((nf.mantBits : ℤ) + 1) := by
    rw [← hprecM, pow2_natCast, ← Int.cast_abs]
    exact_mod_cast hka
  have hkbQ : |(kb : ℚ)| < pow2 ((nf.mantBits : ℤ) + 1) := by
    rw [← hprecM, pow2_natCast, ← Int.cast_abs]
    exact_mod_cast hkb
  have hL1 : pow2 L ≤ x := by
    rw [hLdef, pow2_eq]
    exact (ratLog2_spec x hx).1
  have hL2 : x < pow2 (L + 1) := by
    rw [hLdef, pow2_eq]
    exact (ratLog2_spec x hx).2
  have hLg : nf.gridMin - 1 ≤ L := by
    have := pow2_lt_pow2_rev (nf.gridMin - 1) (L + 1) (lt_trans hxlo hL2)
    omega
  have hgL1 : g ≤ L + 1 := by
    rw [hgdef]
    exact max_le (by omega) (by omega)
  have hgmg : nf.gridMin ≤ g := by
    rw [hgdef]
    exact le_max_left _ _
  have hLMg : L - nf.mantBits ≤ g := by
    rw [hgdef]
    exact le_max_right _ _
  have hGH : h + (nf.mantBits : ℤ) + 2 ≤ g := by
    have h3 : h ≤ g - nf.mantBits - 2 := by
      rw [hhdef]
      exact max_le (by omega) (by omega)
    omega
  have hcastK : (((2:ℤ) ^ (L + 1 - g).toNat : ℤ) : ℚ) = pow2 (L + 1 - g) :=
    pow2_toNat _ (by omega)
  have hBpos : 0 < |(kb : ℚ)| * pow2 gb :=
    mul_pos (abs_pos.mpr (Int.cast_ne_zero.mpr hkb0)) (pow2_pos gb)
  have hxv2 : x = (|(ka : ℚ)| * pow2 ga) / (|(kb : ℚ)| * pow2 gb) := by
    rw [hxv, abs_mul, abs_mul, abs_of_pos (pow2_pos ga), abs_of_pos (pow2_pos gb)]
  set Lb := ratLog2 (|(kb : ℚ)| * pow2 gb) with hLbdef
  have hB1 : pow2 Lb ≤ |(kb : ℚ)| * pow2 gb := by
    rw [hLbdef, pow2_eq]
    exact (ratLog2_spec _ hBpos).1
  have hB2 : |(kb : ℚ)| * pow2 gb < pow2 (Lb + 1) := by
    rw [pow2_eq (Lb + 1), hLbdef]
    exact (ratLog2_spec _ hBpos).2
  have hBub : |(kb : ℚ)| * pow2 gb < pow2 ((nf.mantBits : ℤ) + 1 + gb) := by
    rw [pow2_add]
    exact mul_lt_mul_of_pos_right hkbQ (pow2_pos gb)
  have hLb_ub : Lb ≤ (nf.mantBits : ℤ) + gb := by
    have := pow2_lt_pow2_rev Lb ((nf.mantBits : ℤ) + 1 + gb) (lt_of_le_of_lt hB1 hBub)
    omega
  have hka0 : ka ≠ 0 := by
    intro h0
    rw [h0] at hxv2
    simp at hxv2
    exact absurd hxv2 (ne_of_gt hx)
  have hApos : 0 < |(ka : ℚ)| * pow2 ga :=
    mul_pos (abs_pos.mpr (Int.cast_ne_zero.mpr hka0)) (pow2_pos ga)
  set La := ratLog2 (|(ka : ℚ)| * pow2 ga) with hLadef
  have hA2 : |(ka : ℚ)| * pow2 ga < pow2 (La + 1) := by
    rw [pow2_eq (La + 1), hLadef]
    exact (ratLog2_spec _ hApos).2
  have hA1 : pow2 La ≤ |(ka : ℚ)| * pow2 ga := by
    rw [hLadef, pow2_eq]
    exact (ratLog2_spec _ hApos).1
  have hAub : |(ka : ℚ)| * pow2 ga < pow2 ((nf.mantBits : ℤ) + 1 + ga) := by
    rw [pow2_add]
    exact mul_lt_mul_of_pos_right hkaQ (pow2_pos ga)
  have hLa_ub : La ≤ (nf.mantBits : ℤ) + ga := by
    have := pow2_lt_pow2_rev La ((nf.mantBits : ℤ) + 1 + ga) (lt_of_le_of_lt hA1 hAub)
    omega
  have hLLa : L ≤ La - Lb := by
    have hlt : x < pow2 (La + 1 - Lb) := by
      rw [hxv2, div_lt_iff₀ hBpos]
      calc |(ka : ℚ)| * pow2 ga < pow2 (La + 1) := hA2
        _ = pow2 (La + 1 - Lb) * pow2 Lb := by
            rw [← pow2_add, show La + 1 - Lb + Lb = La + 1 from by ring]
        _ ≤ pow2 (La + 1 - Lb) * (|(kb : ℚ)| * pow2 gb) :=
            mul_le_mul_of_nonneg_left hB1 (le_of_lt (pow2_pos _))
    have h2 := pow2_lt_pow2_rev L (La + 1 - Lb) (lt_of_le_of_lt hL1 hlt)
    omega
  have hLMh : h ≤ L - nf.mantBits := by
    rcases max_cases nf.gridMin (L - nf.mantBits) with ⟨he1, he2⟩ | ⟨he1, he2⟩ <;>
      rw [← hgdef] at he1 <;> omega
  have hm0a : h + Lb ≤ ga := by omega
  have hm0b : h + Lb ≤ g - 1 + gb := by omega
  set W := min ga (g - 1 + gb) with hWdef
  have hWa : W ≤ ga := min_le_left _ _
  have hWb : W ≤ g - 1 + gb := min_le_right _ _
  have hWh : h + Lb ≤ W := le_min hm0a hm0b
  obtain ⟨nR, hnR⟩ : ∃ m : ℤ,
      |(ka : ℚ)| * pow2 ga -
        ((2 * j + 1 : ℤ) : ℚ) * pow2 (g - 1) * (|(kb : ℚ)| * pow2 gb) =
      (m : ℚ) * pow2 W := by
    refine ⟨|ka| * 2 ^ ((ga - W).toNat) -
      (2 * j + 1) * |kb| * 2 ^ ((g - 1 + gb - W).toNat), ?_⟩
    have e1 : |(ka : ℚ)| * pow2 ga =
        ((|ka| * 2 ^ ((ga - W).toNat) : ℤ) : ℚ) * pow2 W := by
      rw [← Int.cast_abs]
      exact pow2_mul_shift _ _ _ hWa
    have e2 : ((2 * j + 1 : ℤ) : ℚ) * pow2 (g - 1) * (|(kb : ℚ)| * pow2 gb) =
        (((2 * j + 1) * |kb| * 2 ^ ((g - 1 + gb - W).toNat) : ℤ) : ℚ) * pow2 W := by
      rw [← Int.cast_abs]
      calc ((2 * j + 1 : ℤ) : ℚ) * pow2 (g - 1) * (((|kb| : ℤ) : ℚ) * pow2 gb) =
          (((2 * j + 1) * |kb| : ℤ) : ℚ) * pow2 (g - 1 + gb) := by
            rw [pow2_add]
            push_cast
            ring
        _ = _ := pow2_mul_shift _ _ _ hWb
    rw [e1, e2]
    push_cast
    ring
  by_cases hR0 : nR = 0
  · have hAB : |(ka : ℚ)| * pow2 ga =
        ((2 * j + 1 : ℤ) : ℚ) * pow2 (g - 1) * (|(kb : ℚ)| * pow2 gb) := by
      rw [hR0] at hnR
      rw [Int.cast_zero, zero_mul] at hnR
      push_cast at hnR ⊢
      linarith
    rw [hxv2, hAB]
    exact mul_div_cancel_right₀ _ (ne_of_gt hBpos)
  · exfalso
    have hRpos : 0 < |(|(ka : ℚ)| * pow2 ga -
        ((2 * j + 1 : ℤ) : ℚ) * pow2 (g - 1) * (|(kb : ℚ)| * pow2 gb))| := by
      rw [hnR]
      exact lt_of_lt_of_le (pow2_pos W) (pow2_int_abs_ge _ _ hR0)
    have hRge : pow2 W ≤ |(|(ka : ℚ)| * pow2 ga -
        ((2 * j + 1 : ℤ) : ℚ) * pow2 (g - 1) * (|(kb : ℚ)| * pow2 gb))| := by
      rw [hnR]
      exact pow2_int_abs_ge _ _ hR0
    have hxmu : x - ((2 * j + 1 : ℤ) : ℚ) * pow2 (g - 1) =
        (|(ka : ℚ)| * pow2 ga -
          ((2 * j + 1 : ℤ) : ℚ) * pow2 (g - 1) * (|(kb : ℚ)| * pow2 gb)) /
          (|(kb : ℚ)| * pow2 gb) := by
      rw [hxv2]
      field_simp
      ring
    have habs2 : |x - ((2 * j + 1 : ℤ) : ℚ) * pow2 (g - 1)| =
        |(|(ka : ℚ)| * pow2 ga -
          ((2 * j + 1 : ℤ) : ℚ) * pow2 (g - 1) * (|(kb : ℚ)| * pow2 gb))| /
          (|(kb : ℚ)| * pow2 gb) := by
      rw [hxmu, abs_div, abs_of_pos hBpos]
    have hchain : pow2 (h - 1) <
        |x - ((2 * j + 1 : ℤ) : ℚ) * pow2 (g - 1)| := by
      rw [habs2]
      calc pow2 (h - 1) ≤ pow2 (W - Lb - 1) := pow2_le_pow2 _ _ (by omega)
        _ = pow2 W / pow2 (Lb + 1) := by
            rw [show W - Lb - 1 = W - (Lb + 1) from by ring, pow2_sub]
        _ ≤ |(|(ka : ℚ)| * pow2 ga -
              ((2 * j + 1 : ℤ) : ℚ) * pow2 (g - 1) * (|(kb : ℚ)| * pow2 gb))| /
              pow2 (Lb + 1) := by
            have h4 := mul_le_mul_of_nonneg_right hRge
              (le_of_lt (inv_pos.mpr (pow2_pos (Lb + 1))))
            simpa [div_eq_mul_inv] using h4
        _ < _ := div_lt_div_of_pos_left hRpos hBpos hB2
    linarith

/-- IEEE-mode addition: widen, add at the wide format, narrow back — the
result is bit-identical to the native narrow addition. -/
theorem ieee_add_core {nf wf : Fmt}
    (hnp : 2 ≤ nf.prec) (hnw : 2 ≤ nf.w) (hwp : 2 ≤ wf.prec) (hww : 2 ≤ wf.w)
    (hpp : nf.prec ≤ wf.prec) (hgg : wf.gridMin ≤ nf.gridMin)
    (hme : nf.maxFinite < pow2 wf.emax) (hem : wf.emin ≤ nf.gridMin)
    (hMM2 : 2 * (nf.mantBits : ℤ) + 2 ≤ wf.mantBits)
    (hgap2 : wf.gridMin + (nf.mantBits : ℤ) + 2 ≤ nf.gridMin)
    (hee : nf.emax + 2 ≤ wf.emax)
    (a b : FPBits nf) (hWFa : a.WF) (hWFb : b.WF)
    (hca : classify a = .normal ∨ classify a = .subnormal ∨ classify a = .zero)
    (hcb : classify b = .normal ∨ classify b = .subnormal ∨ classify b = .zero) :
    convert wf nf (fpAdd wf (convert nf wf a) (convert nf wf b)) = fpAdd nf a b := by
  have hMM : (nf.mantBits : ℤ) + 1 ≤ wf.mantBits := by omega
  have hgapg : wf.gridMin + 1 ≤ nf.gridMin := by omega
  obtain ⟨hva, ⟨hcnA, hczA⟩, hsA⟩ :=
    convert_widen hnp hnw hwp hww hpp hgg hme hem a hWFa hca
  obtain ⟨hvb, ⟨hcnB, hczB⟩, hsB⟩ :=
    convert_widen hnp hnw hwp hww hpp hgg hme hem b hWFb hcb
  have hcA : classify (convert nf wf a) = .normal ∨
      classify (convert nf wf a) = .subnormal ∨
      classify (convert nf wf a) = .zero := by
    by_cases hz : toRat a = 0
    · exact Or.inr (Or.inr (hczA hz))
    · exact Or.inl (hcnA hz)
  have hcB : classify (convert nf wf b) = .normal ∨
      classify (convert nf wf b) = .subnormal ∨
      classify (convert nf wf b) = .zero := by
    by_cases hz : toRat b = 0
    · exact Or.inr (Or.inr (hczB hz))
    · exact Or.inl (hcnB hz)
  rw [fpAdd_finite _ _ hcA hcB, fpAdd_finite a b hca hcb, hva, hvb, hsA, hsB]
  by_cases hv0 : toRat a + toRat b = 0
  · rw [if_pos hv0, if_pos hv0]
    exact convert_zeroBits wf nf hww _
  · rw [if_neg hv0, if_neg hv0]
    apply convert_roundSigned hnp hnw hwp hww hMM hgapg _ hv0
    · have h1 : |toRat a| < pow2 (nf.emax + 1) :=
        toRat_abs_hi hnp hnw a hWFa (finite_exponent_ne_top hnw a hca)
      have h2 : |toRat b| < pow2 (nf.emax + 1) :=
        toRat_abs_hi hnp hnw b hWFb (finite_exponent_ne_top hnw b hcb)
      calc |toRat a + toRat b| ≤ |toRat a| + |toRat b| := abs_add _ _
        _ < pow2 (nf.emax + 1) + pow2 (nf.emax + 1) := by linarith
        _ = pow2 (nf.emax + 2) := by
            have hsplit : pow2 (nf.emax + 2) = pow2 (nf.emax + 1) * 2 := by
              rw [show nf.emax + 2 = (nf.emax + 1) + 1 from by ring, pow2_add, pow2_one]
            rw [hsplit]
            ring
        _ ≤ pow2 wf.emax := pow2_le_pow2 _ _ (by omega)
    · intro _
      obtain ⟨kA, gA, heA, hkA, hgA⟩ :=
        (fits_toRat hnp hnw a hWFa (finite_exponent_ne_top hnw a hca)).1
      obtain ⟨kB, gB, heB, hkB, hgB⟩ :=
        (fits_toRat hnp hnw b hWFb (finite_exponent_ne_top hnw b hcb)).1
      exact excl_add hnp hMM2 hgap2 kA gA kB gB hkA hgA hkB hgB _
        (abs_pos.mpr hv0) (by rw [heA, heB, pow2_eq gA, pow2_eq gB])

/-- IEEE-mode subtraction reduces to the addition case via sign flip. -/
theorem ieee_sub_core {nf wf : Fmt}
    (hnp : 2 ≤ nf.prec) (hnw : 2 ≤ nf.w) (hwp : 2 ≤ wf.prec) (hww : 2 ≤ wf.w)
    (hpp : nf.prec ≤ wf.prec) (hgg : wf.gridMin ≤ nf.gridMin)
    (hme : nf.maxFinite < pow2 wf.emax) (hem : wf.emin ≤ nf.gridMin)
    (hMM2 : 2 * (nf.mantBits : ℤ) + 2 ≤ wf.mantBits)
    (hgap2 : wf.gridMin + (nf.mantBits : ℤ) + 2 ≤ nf.gridMin)
    (hee : nf.emax + 2 ≤ wf.emax)
    (a b : FPBits nf) (hWFa : a.WF) (hWFb : b.WF)
    (hca : classify a = .normal ∨ classify a = .subnormal ∨ classify a = .zero)
    (hcb : classify b = .normal ∨ classify b = .subnormal ∨ classify b = .zero) :
    convert wf nf (fpSub wf (convert nf wf a) (convert nf wf b)) = fpSub nf a b := by
  unfold fpSub
  rw [← convert_negBits b hcb]
  exact ieee_add_core hnp hnw hwp hww hpp hgg hme hem hMM2 hgap2 hee a (negBits b)
    hWFa (WF_negBits b hWFb) hca (by rw [classify_negBits]; exact hcb)

/-- IEEE-mode multiplication: widen, multiply, narrow equals native. -/
theorem ieee_mul_core {nf wf : Fmt}
    (hnp : 2 ≤ nf.prec) (hnw : 2 ≤ nf.w) (hwp : 2 ≤ wf.prec) (hww : 2 ≤ wf.w)
    (hpp : nf.prec ≤ wf.prec) (hgg : wf.gridMin ≤ nf.gridMin)
    (hme : nf.maxFinite < pow2 wf.emax) (hem : wf.emin ≤ nf.gridMin)
    (hMM2 : 2 * (nf.mantBits : ℤ) + 2 ≤ wf.mantBits)
    (hgap2 : wf.gridMin + (nf.mantBits : ℤ) + 2 ≤ nf.gridMin)
    (hgg2 : wf.gridMin ≤ 2 * nf.gridMin)
    (hee2 : 2 * nf.emax + 2 ≤ wf.emax)
    (a b : FPBits nf) (hWFa : a.WF) (hWFb : b.WF)
    (hca : classify a = .normal ∨ classify a = .subnormal ∨ classify a = .zero)
    (hcb : classify b = .normal ∨ classify b = .subnormal ∨ classify b = .zero) :
    convert wf nf (fpMul wf (convert nf wf a) (convert nf wf b)) = fpMul nf a b := by
  have hMM : (nf.mantBits : ℤ) + 1 ≤ wf.mantBits := by omega
  have hgapg : wf.gridMin + 1 ≤ nf.gridMin := by omega
  have hprecM : (nf.prec : ℤ) = (nf.mantBits : ℤ) + 1 := by
    unfold Fmt.mantBits
    omega
  obtain ⟨hva, ⟨hcnA, hczA⟩, hsA⟩ :=
    convert_widen hnp hnw hwp hww hpp hgg hme hem a hWFa hca
  obtain ⟨hvb, ⟨hcnB, hczB⟩, hsB⟩ :=
    convert_widen hnp hnw hwp hww hpp hgg hme hem b hWFb hcb
  have hcA : classify (convert nf wf a) = .normal ∨
      classify (convert nf wf a) = .subnormal ∨
      classify (convert nf wf a) = .zero := by
    by_cases hz : toRat a = 0
    · exact Or.inr (Or.inr (hczA hz))
    · exact Or.inl (hcnA hz)
  have hcB : classify (convert nf wf b) = .normal ∨
      classify (convert nf wf b) = .subnormal ∨
      classify (convert nf wf b) = .zero := by
    by_cases hz : toRat b = 0
    · exact Or.inr (Or.inr (hczB hz))
    · exact Or.inl (hcnB hz)
  rw [fpMul_finite _ _ hcA hcB, fpMul_finite a b hca hcb, hva, hvb, hsA, hsB]
  by_cases hv0 : toRat a * toRat b = 0
  · rw [if_pos hv0, if_pos hv0]
    exact convert_zeroBits wf nf hww _
  · rw [if_neg hv0, if_neg hv0]
    apply convert_roundSigned hnp hnw hwp hww hMM hgapg _ hv0
    · have h1 : |toRat a| < pow2 (nf.emax + 1) :=
        toRat_abs_hi hnp hnw a hWFa (finite_exponent_ne_top hnw a hca)
      have h2 : |toRat b| < pow2 (nf.emax + 1) :=
        toRat_abs_hi hnp hnw b hWFb (finite_exponent_ne_top hnw b hcb)
      calc |toRat a * toRat b| = |toRat a| * |toRat b| := abs_mul _ _
        _ < pow2 (nf.emax + 1) * pow2 (nf.emax + 1) := by
            apply mul_lt_mul'' h1 h2 (abs_nonneg _) (abs_nonneg _)
        _ = pow2 (2 * nf.emax + 2) := by
            rw [← pow2_add]
            congr 1
            ring
        _ ≤ pow2 wf.emax := pow2_le_pow2 _ _ (by omega)
    · intro _
      obtain ⟨kA, gA, heA, hkA, hgA⟩ :=
        (fits_toRat hnp hnw a hWFa (finite_exponent_ne_top hnw a hca)).1
      obtain ⟨kB, gB, heB, hkB, hgB⟩ :=
        (fits_toRat hnp hnw b hWFb (finite_exponent_ne_top hnw b hcb)).1
      have haA : |toRat a| = ((|kA| : ℤ) : ℚ) * pow2 gA := by
        rw [heA, abs_mul, Int.cast_abs, pow2_eq gA,
          abs_of_pos (show (0:ℚ) < (2:ℚ) ^ gA from by positivity)]
      have haB : |toRat b| = ((|kB| : ℤ) : ℚ) * pow2 gB := by
        rw [heB, abs_mul, Int.cast_abs, pow2_eq gB,
          abs_of_pos (show (0:ℚ) < (2:ℚ) ^ gB from by positivity)]
      have hxw : |toRat a * toRat b| = ((|kA * kB| : ℤ) : ℚ) * pow2 (gA + gB) := by
        calc |toRat a * toRat b| = |toRat a| * |toRat b| := abs_mul _ _
          _ = ((|kA| * |kB| : ℤ) : ℚ) * pow2 (gA + gB) := by
              rw [haA, haB, pow2_add]
              push_cast
              ring
          _ = ((|kA * kB| : ℤ) : ℚ) * pow2 (gA + gB) := by
              rw [abs_mul]
      have hxpos : 0 < |toRat a * toRat b| := abs_pos.mpr hv0
      have hkub : (|kA * kB| : ℤ) < 2 ^ (nf.prec + nf.prec) := by
        rw [abs_mul, pow_add]
        have h1 : (0:ℤ) ≤ |kA| := abs_nonneg _
        have h2 : (0:ℤ) ≤ |kB| := abs_nonneg _
        have h3 : (0:ℤ) < 2 ^ nf.prec := by positivity
        nlinarith
      have hxub : |toRat a * toRat b| <
          pow2 (2 * (nf.mantBits : ℤ) + 2 + (gA + gB)) := by
        have hsplit : pow2 (2 * (nf.mantBits : ℤ) + 2 + (gA + gB)) =
            pow2 (2 * (nf.mantBits : ℤ) + 2) * pow2 (gA + gB) := pow2_add _ _
        rw [hxw, hsplit]
        apply mul_lt_mul_of_pos_right _ (pow2_pos _)
        have hcast : ((2:ℤ) ^ (nf.prec + nf.prec) : ℚ) =
            pow2 (2 * (nf.mantBits : ℤ) + 2) := by
          rw [← pow2_toNat (2 * (nf.mantBits : ℤ) + 2) (by omega)]
          rw [show nf.prec + nf.prec = (2 * (nf.mantBits : ℤ) + 2).toNat from by omega]
          exact (Int.cast_pow 2 _).symm
        rw [← hcast]
        exact_mod_cast hkub
      have hL1 : pow2 (ratLog2 |toRat a * toRat b|) ≤ |toRat a * toRat b| := by
        rw [pow2_eq]
        exact (ratLog2_spec _ hxpos).1
      have hLub := pow2_lt_pow2_rev _ _ (lt_of_le_of_lt hL1 hxub)
      exact excl_of_mul2 hnp hMM2 hgap2 _ hxpos (gA + gB) (|kA * kB|) hxw
        (by omega) (by omega)

/-- IEEE-mode division: widen, divide, narrow equals native, including the
zero-divisor arms (infinity and NaN results). -/
theorem ieee_div_core {nf wf : Fmt}
    (hnp : 2 ≤ nf.prec) (hnw : 2 ≤ nf.w) (hwp : 2 ≤ wf.prec) (hww : 2 ≤ wf.w)
    (hpp : nf.prec ≤ wf.prec) (hgg : wf.gridMin ≤ nf.gridMin)
    (hme : nf.maxFinite < pow2 wf.emax) (hem : wf.emin ≤ nf.gridMin)
    (hMM2 : 2 * (nf.mantBits : ℤ) + 2 ≤ wf.mantBits)
    (hgap2 : wf.gridMin + (nf.mantBits : ℤ) + 2 ≤ nf.gridMin)
    (hde : nf.emax + 1 - nf.gridMin ≤ wf.emax)
    (a b : FPBits nf) (hWFa : a.WF) (hWFb : b.WF)
    (hca : classify a = .normal ∨ classify a = .subnormal ∨ classify a = .zero)
    (hcb : classify b = .normal ∨ classify b = .subnormal ∨ classify b = .zero) :
    convert wf nf (fpDiv wf (convert nf wf a) (convert nf wf b)) = fpDiv nf a b := by
  have hMM : (nf.mantBits : ℤ) + 1 ≤ wf.mantBits := by omega
  have hgapg : wf.gridMin + 1 ≤ nf.gridMin := by omega
  obtain ⟨hva, ⟨hcnA, hczA⟩, hsA⟩ :=
    convert_widen hnp hnw hwp hww hpp hgg hme hem a hWFa hca
  obtain ⟨hvb, ⟨hcnB, hczB⟩, hsB⟩ :=
    convert_widen hnp hnw hwp hww hpp hgg hme hem b hWFb hcb
  have hcA : classify (convert nf wf a) = .normal ∨
      classify (convert nf wf a) = .subnormal ∨
      classify (convert nf wf a) = .zero := by
    by_cases hz : toRat a = 0
    · exact Or.inr (Or.inr (hczA hz))
    · exact Or.inl (hcnA hz)
  by_cases hbzero : classify b = .zero
  · -- zero divisor: the NaN and infinity arms
    have hbz : toRat b = 0 := toRat_of_zero_class b hbzero
    have hBz : classify (convert nf wf b) = .zero := hczB hbz
    by_cases haz : toRat a = 0
    · have haz2 : classify a = .zero := by
        rcases hca with h | h | h
        · exact absurd haz (toRat_ne_zero hnp a hWFa (Or.inl h))
        · exact absurd haz (toRat_ne_zero hnp a hWFa (Or.inr h))
        · exact h
      have hAz : classify (convert nf wf a) = .zero := hczA haz
      unfold fpDiv
      rw [haz2, hbzero, hAz, hBz]
      exact convert_nanBits wf nf
    · have hA : classify (convert nf wf a) = .normal := hcnA haz
      have ha2 : classify a = .normal ∨ classify a = .subnormal := by
        rcases hca with h | h | h
        · exact Or.inl h
        · exact Or.inr h
        · exact absurd (toRat_of_zero_class a h) haz
      unfold fpDiv
      rw [hA, hBz]
      rcases ha2 with h | h <;> rw [h, hbzero] <;>
      · rw [hsA, hsB]
        exact convert_infBits wf nf _
  · -- nonzero finite divisor
    have hbNS : classify b = .normal ∨ classify b = .subnormal := by
      rcases hcb with h | h | h
      · exact Or.inl h
      · exact Or.inr h
      · exact absurd h hbzero
    have hbz : toRat b ≠ 0 := toRat_ne_zero hnp b hWFb hbNS
    have hB : classify (convert nf wf b) = .normal := hcnB hbz
    rw [fpDiv_finite _ _ hcA (Or.inl hB), fpDiv_finite a b hca hbNS, hva, hvb, hsA, hsB]
    by_cases hv0 : toRat a / toRat b = 0
    · rw [if_pos hv0, if_pos hv0]
      exact convert_zeroBits wf nf hww _
    · rw [if_neg hv0, if_neg hv0]
      have hbabs : pow2 nf.gridMin ≤ |toRat b| := toRat_abs_lo hnp b hWFb hbNS
      have hbabspos : 0 < |toRat b| := abs_pos.mpr hbz
      apply convert_roundSigned hnp hnw hwp hww hMM hgapg _ hv0
      · have h1 : |toRat a| < pow2 (nf.emax + 1) :=
          toRat_abs_hi hnp hnw a hWFa (finite_exponent_ne_top hnw a hca)
        calc |toRat a / toRat b| = |toRat a| / |toRat b| := abs_div _ _
          _ < pow2 (nf.emax + 1) / pow2 nf.gridMin := by
              rw [div_lt_div_iff hbabspos (pow2_pos nf.gridMin)]
              calc |toRat a| * pow2 nf.gridMin ≤ |toRat a| * |toRat b| :=
                    mul_le_mul_of_nonneg_left hbabs (abs_nonneg _)
                _ < pow2 (nf.emax + 1) * |toRat b| :=
                    mul_lt_mul_of_pos_right h1 hbabspos
          _ = pow2 (nf.emax + 1 - nf.gridMin) := (pow2_sub _ _).symm
          _ ≤ pow2 wf.emax := pow2_le_pow2 _ _ (by omega)
      · intro hxlo
        obtain ⟨kA, gA, heA, hkA, hgA⟩ :=
          (fits_toRat hnp hnw a hWFa (finite_exponent_ne_top hnw a hca)).1
        obtain ⟨kB, gB, heB, hkB, hgB⟩ :=
          (fits_toRat hnp hnw b hWFb (finite_exponent_ne_top hnw b hcb)).1
        have hkB0 : kB ≠ 0 := by
          intro h0
          rw [h0] at heB
          simp at heB
          exact hbz heB
        exact excl_div hnp hMM2 hgap2 kA gA kB gB hkA hgA hkB hgB hkB0 _
          (abs_pos.mpr hv0) hxlo
          (by rw [abs_div, heA, heB, pow2_eq gA, pow2_eq gB])

/-! ## Claim C10: defaults of `interflop_init` -/

/-- C10: with no backend options, `interflop_init` leaves the context at its
`init_context` defaults (relErr only, absErr_exp 112, seed 0 not chosen,
daz/ftz off, sparsity 1) and the globals at mode `mca` (not `ieee`),
`t32 = 24`, `t64 = 53`. -/
theorem claim_C10 :
    interflop_init [] =
      .ok { relErr := true, absErr := false, absErr_exp := 112, choose_seed := false,
            seed := 0, daz := false, ftz := false, sparsity := 1 }
          { MCALIB_MODE := .mcamode_mca, MCALIB_BINARY32_T := 24, MCALIB_BINARY64_T := 53 } ∧
    default_mca_state.MCALIB_MODE ≠ .mcamode_ieee :=
  ⟨rfl, by decide⟩

/-! ## Claim C7: holes in the option validation of `parse_opt` -/

/-- C7 (refuting evaluation): `parse_opt` accepts `--sparsity 2.0` (no
`sparsity ≤ 1` check, contradicting the option's own help text
"0 < sparsity <= 1"), accepts `--precision-binary32 5abc` as `5` (the
`endptr` of `strtol` is never examined), and accepts
`--max-abs-error-exponent abc` as `0` (`strtol` finds no digits, returns `0`
and leaves `errno` clear) — none is the fatal configuration error the claim
requires. -/
theorem claim_C7 :
    parse_opt .KEY_SPARSITY ('2' :: '.' :: '0' :: []) init_context default_mca_state =
      .ok { init_context with sparsity := 2 } default_mca_state ∧
    parse_opt .KEY_PREC_B32 ('5' :: 'a' :: 'b' :: 'c' :: []) init_context default_mca_state =
      .ok init_context { default_mca_state with MCALIB_BINARY32_T := 5 } ∧
    parse_opt .KEY_ERR_EXP ('a' :: 'b' :: 'c' :: []) init_context default_mca_state =
      .ok { init_context with absErr_exp := 0 } default_mca_state := by
  refine ⟨?_, ?_, ?_⟩ <;> with_unfolding_all rfl

/-! ## Structure lemmas for the inexact operators and drivers -/

theorem INEXACT_not_finite {fmt : Fmt} (noiseF : ℤ → RngState → FPBits fmt × RngState)
    (st : McaState) (ctx : t_context) (x : FPBits fmt) (t : ℤ) (r : RngState)
    (h1 : classify x ≠ .normal) (h2 : classify x ≠ .subnormal) :
    INEXACT noiseF st ctx x t r = (x, r) := by
  unfold INEXACT
  rw [if_pos]
  unfold MUST_NOT_BE_NOISED
  simp [h1, h2]

theorem FAST_INEXACT_not_finite {fmt : Fmt} (noiseF : ℤ → RngState → FPBits fmt × RngState)
    (st : McaState) (x : FPBits fmt) (t : ℤ) (r : RngState)
    (h1 : classify x ≠ .normal) (h2 : classify x ≠ .subnormal) :
    FAST_INEXACT noiseF st x t r = (x, r) := by
  unfold FAST_INEXACT
  rw [if_pos]
  exact Or.inr ⟨h1, h2⟩

theorem mca_inexact_binary128_not_finite (st : McaState) (ctx : t_context)
    (x : FPBits binary128) (r : RngState)
    (h1 : classify x ≠ .normal) (h2 : classify x ≠ .subnormal) :
    mca_inexact_binary128 st ctx x r = (x, r) :=
  INEXACT_not_finite noise_binary128 st ctx x st.MCALIB_BINARY64_T r h1 h2

theorem mca_inexact_binary64_not_finite (st : McaState) (ctx : t_context)
    (x : FPBits binary64) (r : RngState)
    (h1 : classify x ≠ .normal) (h2 : classify x ≠ .subnormal) :
    mca_inexact_binary64 st ctx x r = (x, r) :=
  INEXACT_not_finite noise_binary64 st ctx x st.MCALIB_BINARY32_T r h1 h2

/-- In RR mode with DAZ and FTZ off, the binary64 driver widens, computes,
noises only the result, and narrows. -/
theorem binop64_rr_eq (a b : FPBits binary64) (op : mca_operations)
    (st : McaState) (ctx : t_context) (r : RngState)
    (hmode : st.MCALIB_MODE = .mcamode_rr)
    (hdaz : ctx.daz = false) (hftz : ctx.ftz = false) :
    mca_binary64_binary_op a b op st ctx r =
      ((convert binary128 binary64
        (mca_inexact_binary128 st ctx
          (PERFORM_BIN_OP binary128 op (convert binary64 binary128 a)
            (convert binary64 binary128 b)) r).1),
       (mca_inexact_binary128 st ctx
          (PERFORM_BIN_OP binary128 op (convert binary64 binary128 a)
            (convert binary64 binary128 b)) r).2) := by
  unfold mca_binary64_binary_op
  rw [hmode, hdaz, hftz]
  simp

/-- In RR mode with DAZ and FTZ off, the binary32 driver widens, computes,
noises only the result, and narrows. -/
theorem binop32_rr_eq (a b : FPBits binary32) (op : mca_operations)
    (st : McaState) (ctx : t_context) (r : RngState)
    (hmode : st.MCALIB_MODE = .mcamode_rr)
    (hdaz : ctx.daz = false) (hftz : ctx.ftz = false) :
    mca_binary32_binary_op a b op st ctx r =
      ((convert binary64 binary32
        (mca_inexact_binary64 st ctx
          (PERFORM_BIN_OP binary64 op (convert binary32 binary64 a)
            (convert binary32 binary64 b)) r).1),
       (mca_inexact_binary64 st ctx
          (PERFORM_BIN_OP binary64 op (convert binary32 binary64 a)
            (convert binary32 binary64 b)) r).2) := by
  unfold mca_binary32_binary_op
  rw [hmode, hdaz, hftz]
  simp

/-- In IEEE mode with DAZ and FTZ off, the binary64 driver is exactly
"widen, compute at binary128, narrow", with no noise and no draw. -/
theorem binop64_ieee_eq (a b : FPBits binary64) (op : mca_operations)
    (st : McaState) (ctx : t_context) (r : RngState)
    (hmode : st.MCALIB_MODE = .mcamode_ieee)
    (hdaz : ctx.daz = false) (hftz : ctx.ftz = false) :
    mca_binary64_binary_op a b op st ctx r =
      ((convert binary128 binary64
        (PERFORM_BIN_OP binary128 op (convert binary64 binary128 a)
          (convert binary64 binary128 b))), r) := by
  unfold mca_binary64_binary_op
  rw [hmode, hdaz, hftz]
  have hg : ∀ (x : FPBits binary128) (r' : RngState),
      mca_inexact_binary128 st ctx x r' = (x, r') := by
    intro x r'
    unfold mca_inexact_binary128 INEXACT
    rw [if_pos]
    unfold MUST_NOT_BE_NOISED
    rw [hmode]
    simp
  simp only [hg]
  simp

/-- In IEEE mode with DAZ and FTZ off, the binary32 driver is exactly
"widen, compute at binary64, narrow", with no noise and no draw. -/
theorem binop32_ieee_eq (a b : FPBits binary32) (op : mca_operations)
    (st : McaState) (ctx : t_context) (r : RngState)
    (hmode : st.MCALIB_MODE = .mcamode_ieee)
    (hdaz : ctx.daz = false) (hftz : ctx.ftz = false) :
    mca_binary32_binary_op a b op st ctx r =
      ((convert binary64 binary32
        (PERFORM_BIN_OP binary64 op (convert binary32 binary64 a)
          (convert binary32 binary64 b))), r) := by
  unfold mca_binary32_binary_op
  rw [hmode, hdaz, hftz]
  have hg : ∀ (x : FPBits binary64) (r' : RngState),
      mca_inexact_binary64 st ctx x r' = (x, r') := by
    intro x r'
    unfold mca_inexact_binary64 INEXACT
    rw [if_pos]
    unfold MUST_NOT_BE_NOISED
    rw [hmode]
    simp
  simp only [hg]
  simp

/-! ## Claim C3: no noise on zero, infinite or NaN values -/

/-- C3: in every mode and error mode, the inexact operators leave a value
whose class is `ZERO`, `INF` or `NAN` bit-exactly unchanged and consume no
random draw (`_INEXACT` and `_FAST_INEXACT` return before drawing); in
particular the binary64 driver propagates `+inf`, NaN, and signed zero
bit-exactly for every draw stream. -/
theorem claim_C3
    (fmt : Fmt) (noiseF : ℤ → RngState → FPBits fmt × RngState)
    (st : McaState) (ctx : t_context) (x : FPBits fmt) (t : ℤ) (r : RngState)
    (hcls : classify x = .zero ∨ classify x = .inf ∨ classify x = .nan) :
    INEXACT noiseF st ctx x t r = (x, r) ∧
    FAST_INEXACT noiseF st x t r = (x, r) ∧
    (∀ r' : RngState, ∀ op : mca_operations,
      mca_binary64_binary_op (infBits binary64 false) one64 op rrState init_context r' =
        (infBits binary64 false, r')) ∧
    (∀ r' : RngState,
      mca_binary64_binary_op (nanBits binary64) five64 .mca_add rrState init_context r' =
        (nanBits binary64, r')) ∧
    (∀ r' : RngState,
      mca_binary64_binary_op (zeroBits binary64 false) five64 .mca_mul rrState init_context r' =
        (zeroBits binary64 false, r')) := by
  have hcn : classify x ≠ .normal := by
    rcases hcls with h | h | h <;> rw [h] <;> intro hc <;> cases hc
  have hcs : classify x ≠ .subnormal := by
    rcases hcls with h | h | h <;> rw [h] <;> intro hc <;> cases hc
  refine ⟨INEXACT_not_finite noiseF st ctx x t r hcn hcs,
    FAST_INEXACT_not_finite noiseF st x t r hcn hcs, ?_, ?_, ?_⟩
  · intro r' op
    rw [binop64_rr_eq _ _ _ _ _ _ rfl rfl rfl]
    rw [show convert binary64 binary128 (infBits binary64 false) = infBits binary128 false by
      with_unfolding_all rfl]
    rw [show PERFORM_BIN_OP binary128 op (infBits binary128 false)
        (convert binary64 binary128 one64) = infBits binary128 false by
      cases op <;> with_unfolding_all rfl]
    rw [mca_inexact_binary128_not_finite _ _ _ _ (by decide) (by decide)]
    rw [show convert binary128 binary64 (infBits binary128 false) = infBits binary64 false by
      with_unfolding_all rfl]
  · intro r'
    rw [binop64_rr_eq _ _ _ _ _ _ rfl rfl rfl]
    rw [show convert binary64 binary128 (nanBits binary64) = nanBits binary128 by
      with_unfolding_all rfl]
    rw [show PERFORM_BIN_OP binary128 .mca_add (nanBits binary128)
        (convert binary64 binary128 five64) = nanBits binary128 by
      with_unfolding_all rfl]
    rw [mca_inexact_binary128_not_finite _ _ _ _ (by decide) (by decide)]
    rw [show convert binary128 binary64 (nanBits binary128) = nanBits binary64 by
      with_unfolding_all rfl]
  · intro r'
    rw [binop64_rr_eq _ _ _ _ _ _ rfl rfl rfl]
    rw [show convert binary64 binary128 (zeroBits binary64 false) = zeroBits binary128 false by
      with_unfolding_all rfl]
    rw [show PERFORM_BIN_OP binary128 .mca_mul (zeroBits binary128 false)
        (convert binary64 binary128 five64) = zeroBits binary128 false by
      with_unfolding_all rfl]
    rw [mca_inexact_binary128_not_finite _ _ _ _ (by decide) (by decide)]
    rw [show convert binary128 binary64 (zeroBits binary128 false) = zeroBits binary64 false by
      with_unfolding_all rfl]


/-- Witness for C3 at `x = +inf` in binary128. -/
theorem claim_C3_witness :
    (classify (infBits binary128 false) = .zero ∨ classify (infBits binary128 false) = .inf ∨
      classify (infBits binary128 false) = .nan) ∧
    INEXACT noise_binary128 default_mca_state init_context (infBits binary128 false) 53
        (constStream one64) =
      (infBits binary128 false, constStream one64) :=
  ⟨Or.inr (Or.inl (by decide)),
    (claim_C3 binary128 noise_binary128 default_mca_state init_context
      (infBits binary128 false) 53 (constStream one64)
      (Or.inr (Or.inl (by decide)))).1⟩

/-! ## Claim C9: DAZ and FTZ -/

/-- C9: with `daz=true` the driver behaves exactly as the driver with
`daz=false` on `DAZ`-flushed inputs (subnormal inputs at their original
width become signed zeros before any noise); with `ftz=true` the returned
value is the `FTZ` flush of the `ftz=false` result (subnormal outputs at the
narrowed width become signed zeros); with both flags false, values pass
through these maps unchanged. -/
theorem claim_C9
    (st : McaState) (ctx : t_context) (op : mca_operations) (r : RngState) :
    (∀ (a b : FPBits binary32), ctx.daz = true →
      mca_binary32_binary_op a b op st ctx r =
        mca_binary32_binary_op (DAZ a) (DAZ b) op st { ctx with daz := false } r) ∧
    (∀ (a b : FPBits binary64), ctx.daz = true →
      mca_binary64_binary_op a b op st ctx r =
        mca_binary64_binary_op (DAZ a) (DAZ b) op st { ctx with daz := false } r) ∧
    (∀ (a b : FPBits binary32), ctx.ftz = true →
      mca_binary32_binary_op a b op st ctx r =
        (FTZ (mca_binary32_binary_op a b op st { ctx with ftz := false } r).1,
          (mca_binary32_binary_op a b op st { ctx with ftz := false } r).2)) ∧
    (∀ (a b : FPBits binary64), ctx.ftz = true →
      mca_binary64_binary_op a b op st ctx r =
        (FTZ (mca_binary64_binary_op a b op st { ctx with ftz := false } r).1,
          (mca_binary64_binary_op a b op st { ctx with ftz := false } r).2)) := by
  refine ⟨?_, ?_, ?_, ?_⟩ <;> intro a b h
  · unfold mca_binary32_binary_op
    rw [h]
    rfl
  · unfold mca_binary64_binary_op
    rw [h]
    rfl
  · unfold mca_binary32_binary_op
    rw [h]
    rfl
  · unfold mca_binary64_binary_op
    rw [h]
    rfl

/-- Witness for C9: a subnormal binary32 operand under `daz=true`. -/
theorem claim_C9_witness :
    ({ init_context with daz := true } : t_context).daz = true ∧
    mca_binary32_binary_op sub32 one32 .mca_add rrState { init_context with daz := true }
        (constStream one64) =
      mca_binary32_binary_op (DAZ sub32) (DAZ one32) .mca_add rrState
        { init_context with daz := false } (constStream one64) :=
  ⟨rfl, (claim_C9 rrState { init_context with daz := true } .mca_add
    (constStream one64)).1 sub32 one32 rfl⟩


/-! ## Determinism of every draw-consuming component (for C6) -/

theorem RngState_eta (r : RngState) (d : ℕ → FPBits binary64)
    (h : r.draws = d) : r = ⟨d, r.idx⟩ := by
  cases r
  subst h
  rfl

theorem det_pure {α : Type} (a : α) : Deterministic (pureR a) := by
  constructor
  · intro d i
    exact ⟨rfl, le_refl i⟩
  · intro d₁ d₂ i _
    exact ⟨rfl, rfl⟩

theorem det_nextRand : Deterministic nextRand := by
  constructor
  · intro d i
    exact ⟨rfl, Nat.le_succ i⟩
  · intro d₁ d₂ i hag
    exact ⟨hag i (le_refl i) (Nat.lt_succ_self i), rfl⟩

theorem det_if {α : Type} (c : Prop) [inst : Decidable c]
    {f g : RngState → α × RngState}
    (hf : Deterministic f) (hg : Deterministic g) :
    Deterministic (fun r => if c then f r else g r) := by
  by_cases hc : c
  · have h : (fun r => if c then f r else g r) = f := by
      funext r
      rw [if_pos hc]
    rw [h]
    exact hf
  · have h : (fun r => if c then f r else g r) = g := by
      funext r
      rw [if_neg hc]
    rw [h]
    exact hg

theorem det_bind {α β : Type} {f : RngState → α × RngState}
    {g : α → RngState → β × RngState}
    (hf : Deterministic f) (hg : ∀ a, Deterministic (g a)) :
    Deterministic (bindR f g) := by
  constructor
  · intro d i
    have h1 := (hf.mono d i).1
    have h2 := (hf.mono d i).2
    have hst : (f ⟨d, i⟩).2 = ⟨d, (f ⟨d, i⟩).2.idx⟩ := RngState_eta _ _ h1
    have hb : bindR f g ⟨d, i⟩ = g (f ⟨d, i⟩).1 ⟨d, (f ⟨d, i⟩).2.idx⟩ := by
      show g (f ⟨d, i⟩).1 (f ⟨d, i⟩).2 = g (f ⟨d, i⟩).1 ⟨d, (f ⟨d, i⟩).2.idx⟩
      conv_lhs => rw [hst]
    rw [hb]
    exact ⟨((hg _).mono d _).1, le_trans h2 ((hg _).mono d _).2⟩
  · intro d₁ d₂ i hag
    have h11 := (hf.mono d₁ i).1
    have h12 := (hf.mono d₁ i).2
    have h21 := (hf.mono d₂ i).1
    have hst₁ : (f ⟨d₁, i⟩).2 = ⟨d₁, (f ⟨d₁, i⟩).2.idx⟩ := RngState_eta _ _ h11
    have hst₂ : (f ⟨d₂, i⟩).2 = ⟨d₂, (f ⟨d₂, i⟩).2.idx⟩ := RngState_eta _ _ h21
    have hb₁ : bindR f g ⟨d₁, i⟩ = g (f ⟨d₁, i⟩).1 ⟨d₁, (f ⟨d₁, i⟩).2.idx⟩ := by
      show g (f ⟨d₁, i⟩).1 (f ⟨d₁, i⟩).2 = g (f ⟨d₁, i⟩).1 ⟨d₁, (f ⟨d₁, i⟩).2.idx⟩
      conv_lhs => rw [hst₁]
    have hb₂ : bindR f g ⟨d₂, i⟩ = g (f ⟨d₂, i⟩).1 ⟨d₂, (f ⟨d₂, i⟩).2.idx⟩ := by
      show g (f ⟨d₂, i⟩).1 (f ⟨d₂, i⟩).2 = g (f ⟨d₂, i⟩).1 ⟨d₂, (f ⟨d₂, i⟩).2.idx⟩
      conv_lhs => rw [hst₂]
    have hmono₁ := ((hg (f ⟨d₁, i⟩).1).mono d₁ (f ⟨d₁, i⟩).2.idx).2
    have hagf : ∀ n, i ≤ n → n < (f ⟨d₁, i⟩).2.idx → d₁ n = d₂ n := by
      intro n hn hlt
      refine hag n hn ?_
      rw [hb₁]
      exact lt_of_lt_of_le hlt hmono₁
    have hfeq := hf.agree d₁ d₂ i hagf
    have hgag : ∀ n, (f ⟨d₁, i⟩).2.idx ≤ n →
        n < (g (f ⟨d₁, i⟩).1 ⟨d₁, (f ⟨d₁, i⟩).2.idx⟩).2.idx → d₁ n = d₂ n := by
      intro n hn hlt
      refine hag n (le_trans h12 hn) ?_
      rw [hb₁]
      exact hlt
    have hgeq := (hg (f ⟨d₁, i⟩).1).agree d₁ d₂ (f ⟨d₁, i⟩).2.idx hgag
    rw [hb₁, hb₂, ← hfeq.1, ← hfeq.2]
    exact hgeq

theorem det_skip (c : ℚ) : Deterministic (mca_skip_eval c) := by
  have h : mca_skip_eval c = fun r =>
      if 1 ≤ c then pureR false r
      else bindR nextRand (fun u => pureR (decide (c < toRat u))) r := by
    funext r
    unfold mca_skip_eval bindR pureR
    rfl
  rw [h]
  exact det_if _ (det_pure _) (det_bind det_nextRand fun u => det_pure _)

theorem det_noise_binary64 (e : ℤ) : Deterministic (noise_binary64 e) := by
  have h : noise_binary64 e = bindR nextRand
      (fun u => pureR (bitfieldAddExp (fpSub binary64 u half64) e)) := by
    funext r
    unfold noise_binary64 bindR pureR
    rfl
  rw [h]
  exact det_bind det_nextRand fun u => det_pure _

theorem det_noise_binary128 (e : ℤ) : Deterministic (noise_binary128 e) := by
  have h : noise_binary128 e = bindR nextRand
      (fun u => pureR (bitfieldAddExp
        (fpSub binary128 (convert binary64 binary128 u) half128) e)) := by
    funext r
    unfold noise_binary128 bindR pureR
    rfl
  rw [h]
  exact det_bind det_nextRand fun u => det_pure _

theorem det_INEXACT {fmt : Fmt} (noiseF : ℤ → RngState → FPBits fmt × RngState)
    (hn : ∀ e, Deterministic (noiseF e)) (st : McaState) (ctx : t_context)
    (x : FPBits fmt) (t : ℤ) :
    Deterministic (fun r => INEXACT noiseF st ctx x t r) := by
  have h : (fun r => INEXACT noiseF st ctx x t r) = fun r =>
      if MUST_NOT_BE_NOISED st x t = true then pureR x r
      else
        bindR (mca_skip_eval ctx.sparsity)
          (fun sk => fun r1 =>
            if sk = true then pureR x r1
            else
              bindR
                (fun r2 =>
                  if ctx.relErr = true then
                    bindR (noiseF (GET_EXP_FLT x - (t - 1)))
                      (fun nr => pureR (fpAdd fmt x nr)) r2
                  else pureR x r2)
                (fun y => fun r3 =>
                  if ctx.absErr = true then
                    bindR (noiseF ctx.absErr_exp)
                      (fun na => pureR (fpAdd fmt y na)) r3
                  else pureR y r3) r1) r := by
    funext r
    unfold INEXACT bindR pureR
    rfl
  rw [h]
  exact det_if _ (det_pure _)
    (det_bind (det_skip _) fun sk =>
      det_if _ (det_pure _)
        (det_bind
          (det_if _ (det_bind (hn _) fun nr => det_pure _) (det_pure _))
          (fun y => det_if _ (det_bind (hn _) fun na => det_pure _) (det_pure _))))

theorem det_mca_inexact_binary64 (st : McaState) (ctx : t_context)
    (x : FPBits binary64) :
    Deterministic (fun r => mca_inexact_binary64 st ctx x r) :=
  det_INEXACT noise_binary64 det_noise_binary64 st ctx x st.MCALIB_BINARY32_T

theorem det_mca_inexact_binary128 (st : McaState) (ctx : t_context)
    (x : FPBits binary128) :
    Deterministic (fun r => mca_inexact_binary128 st ctx x r) :=
  det_INEXACT noise_binary128 det_noise_binary128 st ctx x st.MCALIB_BINARY64_T

theorem det_binop32 (a b : FPBits binary32) (op : mca_operations)
    (st : McaState) (ctx : t_context) :
    Deterministic (fun r => mca_binary32_binary_op a b op st ctx r) := by
  by_cases hin : st.MCALIB_MODE = .mcamode_pb ∨ st.MCALIB_MODE = .mcamode_mca <;>
    by_cases hout : st.MCALIB_MODE = .mcamode_rr ∨ st.MCALIB_MODE = .mcamode_mca
  · have h : (fun r => mca_binary32_binary_op a b op st ctx r) =
        bindR
          (fun r1 => mca_inexact_binary64 st ctx
            (if ctx.daz then convert binary32 binary64 (DAZ a)
             else convert binary32 binary64 a) r1)
          (fun pa => bindR
            (fun r2 => mca_inexact_binary64 st ctx
              (if ctx.daz then convert binary32 binary64 (DAZ b)
               else convert binary32 binary64 b) r2)
            (fun pb => bindR
              (fun r3 => mca_inexact_binary64 st ctx
                (PERFORM_BIN_OP binary64 op pa pb) r3)
              (fun o => pureR
                (if ctx.ftz then FTZ (convert binary64 binary32 o)
                 else convert binary64 binary32 o)))) := by
      funext r
      simp only [mca_binary32_binary_op, bindR, pureR]
      rw [if_pos hin, if_pos hout]
    rw [h]
    exact det_bind (det_mca_inexact_binary64 st ctx _) fun pa =>
      det_bind (det_mca_inexact_binary64 st ctx _) fun pb =>
        det_bind (det_mca_inexact_binary64 st ctx _) fun o => det_pure _
  · have h : (fun r => mca_binary32_binary_op a b op st ctx r) =
        bindR
          (fun r1 => mca_inexact_binary64 st ctx
            (if ctx.daz then convert binary32 binary64 (DAZ a)
             else convert binary32 binary64 a) r1)
          (fun pa => bindR
            (fun r2 => mca_inexact_binary64 st ctx
              (if ctx.daz then convert binary32 binary64 (DAZ b)
               else convert binary32 binary64 b) r2)
            (fun pb => pureR
              (if ctx.ftz then
                FTZ (convert binary64 binary32 (PERFORM_BIN_OP binary64 op pa pb))
               else convert binary64 binary32 (PERFORM_BIN_OP binary64 op pa pb)))) := by
      funext r
      simp only [mca_binary32_binary_op, bindR, pureR]
      rw [if_pos hin, if_neg hout]
    rw [h]
    exact det_bind (det_mca_inexact_binary64 st ctx _) fun pa =>
      det_bind (det_mca_inexact_binary64 st ctx _) fun pb => det_pure _
  · have h : (fun r => mca_binary32_binary_op a b op st ctx r) =
        bindR
          (fun r3 => mca_inexact_binary64 st ctx
            (PERFORM_BIN_OP binary64 op
              (if ctx.daz then convert binary32 binary64 (DAZ a)
               else convert binary32 binary64 a)
              (if ctx.daz then convert binary32 binary64 (DAZ b)
               else convert binary32 binary64 b)) r3)
          (fun o => pureR
            (if ctx.ftz then FTZ (convert binary64 binary32 o)
             else convert binary64 binary32 o)) := by
      funext r
      simp only [mca_binary32_binary_op, bindR, pureR]
      rw [if_neg hin, if_pos hout]
    rw [h]
    exact det_bind (det_mca_inexact_binary64 st ctx _) fun o => det_pure _
  · have h : (fun r => mca_binary32_binary_op a b op st ctx r) =
        pureR
          (if ctx.ftz then
            FTZ (convert binary64 binary32 (PERFORM_BIN_OP binary64 op
              (if ctx.daz then convert binary32 binary64 (DAZ a)
               else convert binary32 binary64 a)
              (if ctx.daz then convert binary32 binary64 (DAZ b)
               else convert binary32 binary64 b)))
           else convert binary64 binary32 (PERFORM_BIN_OP binary64 op
              (if ctx.daz then convert binary32 binary64 (DAZ a)
               else convert binary32 binary64 a)
              (if ctx.daz then convert binary32 binary64 (DAZ b)
               else convert binary32 binary64 b))) := by
      funext r
      simp only [mca_binary32_binary_op, pureR]
      rw [if_neg hin, if_neg hout]
    rw [h]
    exact det_pure _

theorem det_binop64 (a b : FPBits binary64) (op : mca_operations)
    (st : McaState) (ctx : t_context) :
    Deterministic (fun r => mca_binary64_binary_op a b op st ctx r) := by
  by_cases hin : st.MCALIB_MODE = .mcamode_pb ∨ st.MCALIB_MODE = .mcamode_mca <;>
    by_cases hout : st.MCALIB_MODE = .mcamode_rr ∨ st.MCALIB_MODE = .mcamode_mca
  · have h : (fun r => mca_binary64_binary_op a b op st ctx r) =
        bindR
          (fun r1 => mca_inexact_binary128 st ctx
            (if ctx.daz then convert binary64 binary128 (DAZ a)
             else convert binary64 binary128 a) r1)
          (fun pa => bindR
            (fun r2 => mca_inexact_binary128 st ctx
              (if ctx.daz then convert binary64 binary128 (DAZ b)
               else convert binary64 binary128 b) r2)
            (fun pb => bindR
              (fun r3 => mca_inexact_binary128 st ctx
                (PERFORM_BIN_OP binary128 op pa pb) r3)
              (fun o => pureR
                (if ctx.ftz then FTZ (convert binary128 binary64 o)
                 else convert binary128 binary64 o)))) := by
      funext r
      simp only [mca_binary64_binary_op, bindR, pureR]
      rw [if_pos hin, if_pos hout]
    rw [h]
    exact det_bind (det_mca_inexact_binary128 st ctx _) fun pa =>
      det_bind (det_mca_inexact_binary128 st ctx _) fun pb =>
        det_bind (det_mca_inexact_binary128 st ctx _) fun o => det_pure _
  · have h : (fun r => mca_binary64_binary_op a b op st ctx r) =
        bindR
          (fun r1 => mca_inexact_binary128 st ctx
            (if ctx.daz then convert binary64 binary128 (DAZ a)
             else convert binary64 binary128 a) r1)
          (fun pa => bindR
            (fun r2 => mca_inexact_binary128 st ctx
              (if ctx.daz then convert binary64 binary128 (DAZ b)
               else convert binary64 binary128 b) r2)
            (fun pb => pureR
              (if ctx.ftz then
                FTZ (convert binary128 binary64 (PERFORM_BIN_OP binary128 op pa pb))
               else convert binary128 binary64 (PERFORM_BIN_OP binary128 op pa pb)))) := by
      funext r
      simp only [mca_binary64_binary_op, bindR, pureR]
      rw [if_pos hin, if_neg hout]
    rw [h]
    exact det_bind (det_mca_inexact_binary128 st ctx _) fun pa =>
      det_bind (det_mca_inexact_binary128 st ctx _) fun pb => det_pure _
  · have h : (fun r => mca_binary64_binary_op a b op st ctx r) =
        bindR
          (fun r3 => mca_inexact_binary128 st ctx
            (PERFORM_BIN_OP binary128 op
              (if ctx.daz then convert binary64 binary128 (DAZ a)
               else convert binary64 binary128 a)
              (if ctx.daz then convert binary64 binary128 (DAZ b)
               else convert binary64 binary128 b)) r3)
          (fun o => pureR
            (if ctx.ftz then FTZ (convert binary128 binary64 o)
             else convert binary128 binary64 o)) := by
      funext r
      simp only [mca_binary64_binary_op, bindR, pureR]
      rw [if_neg hin, if_pos hout]
    rw [h]
    exact det_bind (det_mca_inexact_binary128 st ctx _) fun o => det_pure _
  · have h : (fun r => mca_binary64_binary_op a b op st ctx r) =
        pureR
          (if ctx.ftz then
            FTZ (convert binary128 binary64 (PERFORM_BIN_OP binary128 op
              (if ctx.daz then convert binary64 binary128 (DAZ a)
               else convert binary64 binary128 a)
              (if ctx.daz then convert binary64 binary128 (DAZ b)
               else convert binary64 binary128 b)))
           else convert binary128 binary64 (PERFORM_BIN_OP binary128 op
              (if ctx.daz then convert binary64 binary128 (DAZ a)
               else convert binary64 binary128 a)
              (if ctx.daz then convert binary64 binary128 (DAZ b)
               else convert binary64 binary128 b))) := by
      funext r
      simp only [mca_binary64_binary_op, pureR]
      rw [if_neg hin, if_neg hout]
    rw [h]
    exact det_pure _

theorem det_runOp (st : McaState) (ctx : t_context) (o : McaOp) :
    Deterministic (fun r => runOp st ctx r o) := by
  cases o with
  | op32 a b op =>
    have h : (fun r => runOp st ctx r (.op32 a b op)) =
        bindR (fun r => mca_binary32_binary_op a b op st ctx r)
          (fun v => pureR (.inl v)) := by
      funext r
      unfold runOp bindR pureR
      rfl
    rw [h]
    exact det_bind (det_binop32 a b op st ctx) fun v => det_pure _
  | op64 a b op =>
    have h : (fun r => runOp st ctx r (.op64 a b op)) =
        bindR (fun r => mca_binary64_binary_op a b op st ctx r)
          (fun v => pureR (.inr v)) := by
      funext r
      unfold runOp bindR pureR
      rfl
    rw [h]
    exact det_bind (det_binop64 a b op st ctx) fun v => det_pure _

theorem det_runOps (st : McaState) (ctx : t_context) (ops : List McaOp) :
    Deterministic (fun r => runOps st ctx r ops) := by
  induction ops with
  | nil =>
    have h : (fun r => runOps st ctx r []) = pureR [] := by
      funext r
      unfold runOps pureR
      rfl
    rw [h]
    exact det_pure _
  | cons o os ih =>
    have h : (fun r => runOps st ctx r (o :: os)) =
        bindR (fun r => runOp st ctx r o)
          (fun v => bindR (fun r => runOps st ctx r os)
            (fun l => pureR (v :: l))) := by
      funext r
      simp only [runOps]
      unfold bindR pureR
      rfl
    rw [h]
    exact det_bind (det_runOp st ctx o) fun v =>
      det_bind ih fun l => det_pure _

/-- C6: the backend is deterministic as a function of seed and single-thread
call sequence.  A run of any operation sequence from any starting index never
rewrites the seed-determined draw stream and consumes draws in program order
(the index only advances); and two runs with identical globals (mode and
virtual precisions), identical context, identical operation sequence, and
streams that agree on every draw the run consumes produce bitwise-identical
result lists and the same final draw index.  Since an identical configured
seed yields an identical draw stream, two such runs are bitwise identical. -/
theorem claim_C6 (st : McaState) (ctx : t_context) (ops : List McaOp) :
    (∀ d i, (runOps st ctx ⟨d, i⟩ ops).2.draws = d ∧
      i ≤ (runOps st ctx ⟨d, i⟩ ops).2.idx) ∧
    (∀ d₁ d₂ i,
      (∀ n, i ≤ n → n < (runOps st ctx ⟨d₁, i⟩ ops).2.idx → d₁ n = d₂ n) →
      (runOps st ctx ⟨d₁, i⟩ ops).1 = (runOps st ctx ⟨d₂, i⟩ ops).1 ∧
      (runOps st ctx ⟨d₁, i⟩ ops).2.idx = (runOps st ctx ⟨d₂, i⟩ ops).2.idx) :=
  ⟨(det_runOps st ctx ops).mono, (det_runOps st ctx ops).agree⟩

/-- Witness for C6: an RR-mode run on `inf + 1` consumes no draw, so two
streams that are nowhere equal still agree on the consumed prefix and the two
runs coincide. -/
theorem claim_C6_witness :
    (∀ n, 0 ≤ n →
        n < (runOps rrState init_context ⟨(constStream one64).draws, 0⟩
              [.op64 (infBits binary64 false) one64 .mca_add]).2.idx →
        (constStream one64).draws n = (constStream three64).draws n) ∧
    (runOps rrState init_context ⟨(constStream one64).draws, 0⟩
        [.op64 (infBits binary64 false) one64 .mca_add]).1 =
      (runOps rrState init_context ⟨(constStream three64).draws, 0⟩
        [.op64 (infBits binary64 false) one64 .mca_add]).1 := by
  have hidx : (runOps rrState init_context ⟨(constStream one64).draws, 0⟩
      [.op64 (infBits binary64 false) one64 .mca_add]).2.idx = 0 := by
    with_unfolding_all rfl
  have hag : ∀ n, 0 ≤ n →
      n < (runOps rrState init_context ⟨(constStream one64).draws, 0⟩
            [.op64 (infBits binary64 false) one64 .mca_add]).2.idx →
      (constStream one64).draws n = (constStream three64).draws n := by
    intro n hn hlt
    rw [hidx] at hlt
    exact absurd hlt (Nat.not_lt_zero n)
  exact ⟨hag, ((claim_C6 rrState init_context
    [.op64 (infBits binary64 false) one64 .mca_add]).2
    (constStream one64).draws (constStream three64).draws 0 hag).1⟩


/-! ## Claim C8: the user-call INEXACT precision offset -/

/-- Counterexample to C8: for `ftype = QUAD` the `precision` argument is NOT
interpreted as an offset.  With `t64 = 53` and `precision = 0 ≤ 0`, the FQUAD
branch perturbs `1.0Q` at virtual precision `0` (noise `(0.75 − 0.5) · 2^1`,
giving `1.5`), while the offset interpretation `t64 + 0 = 53` would give
`1 + 2^(−54)`; the two bit patterns differ. -/
theorem claim_C8_counterexample :
    (usercall_inexact_quad rrState one128 0 (constStream d075)).1 =
      (⟨false, 16383, npow2 111⟩ : FPBits binary128) ∧
    (FAST_INEXACT noise_binary128 rrState one128 (rrState.MCALIB_BINARY64_T + 0)
        (constStream d075)).1 =
      (⟨false, 16383, npow2 58⟩ : FPBits binary128) ∧
    (⟨false, 16383, npow2 111⟩ : FPBits binary128) ≠ ⟨false, 16383, npow2 58⟩ := by
  refine ⟨?_, ?_, ?_⟩
  · with_unfolding_all rfl
  · with_unfolding_all rfl
  · decide

/-- C8 (amended): the `precision ≤ 0`-as-offset rule holds for `FLOAT`
(relative to `MCALIB_BINARY32_T`) and `DOUBLE` (relative to
`MCALIB_BINARY64_T`), and for `precision > 0` the value is used as the
absolute virtual precision; but for `QUAD` the `precision` argument is
always passed to `_FAST_INEXACT` directly, with no offset computation.  In
each case the hook applies the fast relative perturbation to the pointed-to
value (widened to the working format, perturbed, narrowed back). -/
theorem claim_C8 (st : McaState) (p : ℤ) (r : RngState) :
    (∀ x : FPBits binary32, p ≤ 0 →
      usercall_inexact_float st x p r =
        ((convert binary64 binary32 (FAST_INEXACT noise_binary64 st
            (convert binary32 binary64 x) (st.MCALIB_BINARY32_T + p) r).1),
         (FAST_INEXACT noise_binary64 st (convert binary32 binary64 x)
            (st.MCALIB_BINARY32_T + p) r).2)) ∧
    (∀ x : FPBits binary32, 0 < p →
      usercall_inexact_float st x p r =
        ((convert binary64 binary32 (FAST_INEXACT noise_binary64 st
            (convert binary32 binary64 x) p r).1),
         (FAST_INEXACT noise_binary64 st (convert binary32 binary64 x) p r).2)) ∧
    (∀ x : FPBits binary64, p ≤ 0 →
      usercall_inexact_double st x p r =
        ((convert binary128 binary64 (FAST_INEXACT noise_binary128 st
            (convert binary64 binary128 x) (st.MCALIB_BINARY64_T + p) r).1),
         (FAST_INEXACT noise_binary128 st (convert binary64 binary128 x)
            (st.MCALIB_BINARY64_T + p) r).2)) ∧
    (∀ x : FPBits binary64, 0 < p →
      usercall_inexact_double st x p r =
        ((convert binary128 binary64 (FAST_INEXACT noise_binary128 st
            (convert binary64 binary128 x) p r).1),
         (FAST_INEXACT noise_binary128 st (convert binary64 binary128 x) p r).2)) ∧
    (∀ x : FPBits binary128,
      usercall_inexact_quad st x p r = FAST_INEXACT noise_binary128 st x p r) := by
  refine ⟨?_, ?_, ?_, ?_, fun x => rfl⟩
  · intro x hp
    simp only [usercall_inexact_float]
    rw [if_pos hp]
  · intro x hp
    simp only [usercall_inexact_float]
    rw [if_neg (not_le.mpr hp)]
  · intro x hp
    simp only [usercall_inexact_double]
    rw [if_pos hp]
  · intro x hp
    simp only [usercall_inexact_double]
    rw [if_neg (not_le.mpr hp)]

/-- Witness for C8: the FLOAT branch at `precision = −10` uses the offset
precision `t32 − 10`. -/
theorem claim_C8_witness :
    (-10 : ℤ) ≤ 0 ∧
    usercall_inexact_float rrState one32 (-10) (constStream d075) =
      ((convert binary64 binary32 (FAST_INEXACT noise_binary64 rrState
          (convert binary32 binary64 one32) (rrState.MCALIB_BINARY32_T + (-10))
          (constStream d075)).1),
       (FAST_INEXACT noise_binary64 rrState (convert binary32 binary64 one32)
          (rrState.MCALIB_BINARY32_T + (-10)) (constStream d075)).2) :=
  ⟨by decide, (claim_C8 rrState (-10) (constStream d075)).1 one32 (by decide)⟩


/-! ## Claim C5: the noise generators -/

theorem bitfieldAddExp_spec {fmt : Fmt} (b : FPBits fmt) (e : ℤ)
    (hb : b.exponent ≠ 0)
    (h1 : 1 ≤ (b.exponent : ℤ) + e) (h2 : (b.exponent : ℤ) + e < (2 : ℤ) ^ fmt.w) :
    toRat (bitfieldAddExp b e) = toRat b * pow2 e ∧
    (bitfieldAddExp b e).exponent = ((b.exponent : ℤ) + e).toNat ∧
    (bitfieldAddExp b e).sign = b.sign ∧
    (bitfieldAddExp b e).mantissa = b.mantissa := by
  have hw : ((npow2 fmt.w : ℕ) : ℤ) = (2 : ℤ) ^ fmt.w := by
    rw [npow2_eq]
    push_cast
    ring
  have hmod : ((b.exponent : ℤ) + e) % ((npow2 fmt.w : ℕ) : ℤ) = (b.exponent : ℤ) + e := by
    rw [hw]
    exact Int.emod_eq_of_lt (by omega) h2
  have hb' : ((b.exponent : ℤ) + e).toNat ≠ 0 := by omega
  refine ⟨?_, ?_, rfl, rfl⟩
  · unfold bitfieldAddExp
    rw [hmod]
    simp only [toRat]
    rw [if_neg hb', if_neg hb]
    rw [pow2_eq, pow2_eq, pow2_eq]
    rw [show ((((b.exponent : ℤ) + e).toNat : ℤ) - fmt.bias - fmt.mantBits) =
      ((b.exponent : ℤ) - fmt.bias - (fmt.mantBits : ℤ)) + e from by omega]
    rw [zpow_add₀ (two_ne_zero)]
    ring
  · unfold bitfieldAddExp
    rw [hmod]

/-- Counterexample to C5: `u = 0.5` is a legal draw from `(0, 1)`, and then
`u − 0.5` is `+0`, whose biased exponent field is `0`; adding `e = 1` to the
field produces the pattern `⟨0, 1, 0⟩ = 2^(−1022)`, not
`(u − 0.5) · 2^e = 0`. -/
theorem claim_C5_counterexample :
    (0 : ℚ) < toRat half64 ∧ toRat half64 < 1 ∧
    (noise_binary64 1 (constStream half64)).1 = (⟨false, 1, 0⟩ : FPBits binary64) ∧
    toRat (⟨false, 1, 0⟩ : FPBits binary64) ≠ (toRat half64 - toRat half64) * pow2 1 := by
  have hh : toRat half64 = 1 / 2 := by with_unfolding_all rfl
  refine ⟨?_, ?_, ?_, ?_⟩
  · rw [hh]
    norm_num
  · rw [hh]
    norm_num
  · with_unfolding_all rfl
  · have h1 : toRat (⟨false, 1, 0⟩ : FPBits binary64) = pow2 (-1022) := by
      with_unfolding_all rfl
    have h2 : (toRat half64 - toRat half64) * pow2 1 = 0 := by ring
    rw [h1, h2]
    exact ne_of_gt (pow2_pos _)

/-- C5 (amended): when the binary64 (resp. binary128) difference
`d = u ⊖ 0.5` computed by the generator is NORMAL and the adjusted biased
exponent field `d.exponent + e` stays in the normal range of the width
(`[1, 2046]` for binary64, `[1, 32766]` for binary128), the generator
returns a value exactly equal to `d · 2^e` — `(u − 0.5) · 2^e` whenever the
subtraction was exact — and consumes exactly one draw.  (When `d` is zero or
subnormal the field arithmetic does not implement a multiplication by `2^e`,
as the counterexample shows.) -/
theorem claim_C5 (e : ℤ) (r : RngState) :
    (classify (fpSub binary64 (r.draws r.idx) half64) = .normal →
     1 ≤ ((fpSub binary64 (r.draws r.idx) half64).exponent : ℤ) + e →
     ((fpSub binary64 (r.draws r.idx) half64).exponent : ℤ) + e ≤ 2046 →
     toRat (noise_binary64 e r).1 =
       toRat (fpSub binary64 (r.draws r.idx) half64) * pow2 e ∧
     classify (noise_binary64 e r).1 = .normal ∧
     (noise_binary64 e r).2 = ⟨r.draws, r.idx + 1⟩) ∧
    (classify (fpSub binary128 (convert binary64 binary128 (r.draws r.idx)) half128) =
        .normal →
     1 ≤ ((fpSub binary128 (convert binary64 binary128 (r.draws r.idx))
        half128).exponent : ℤ) + e →
     ((fpSub binary128 (convert binary64 binary128 (r.draws r.idx))
        half128).exponent : ℤ) + e ≤ 32766 →
     toRat (noise_binary128 e r).1 =
       toRat (fpSub binary128 (convert binary64 binary128 (r.draws r.idx)) half128) *
         pow2 e ∧
     classify (noise_binary128 e r).1 = .normal ∧
     (noise_binary128 e r).2 = ⟨r.draws, r.idx + 1⟩) := by
  constructor
  · intro hcls h1 h2
    have hb := (classify_normal_exponent _ hcls).1
    have hpow : (2 : ℤ) ^ binary64.w = 2048 := by decide
    have hspec := bitfieldAddExp_spec
      (fpSub binary64 (r.draws r.idx) half64) e hb h1 (by omega)
    refine ⟨hspec.1, ?_, rfl⟩
    show classify (bitfieldAddExp (fpSub binary64 (r.draws r.idx) half64) e) = .normal
    have htop : binary64.expTop = 2047 := by decide
    unfold classify
    rw [hspec.2.1, htop]
    rw [if_neg (by omega), if_neg (by omega)]
  · intro hcls h1 h2
    have hb := (classify_normal_exponent _ hcls).1
    have hpow : (2 : ℤ) ^ binary128.w = 32768 := by decide
    have hspec := bitfieldAddExp_spec
      (fpSub binary128 (convert binary64 binary128 (r.draws r.idx)) half128) e hb h1
      (by omega)
    refine ⟨hspec.1, ?_, rfl⟩
    show classify (bitfieldAddExp
      (fpSub binary128 (convert binary64 binary128 (r.draws r.idx)) half128) e) = .normal
    have htop : binary128.expTop = 32767 := by decide
    unfold classify
    rw [hspec.2.1, htop]
    rw [if_neg (by omega), if_neg (by omega)]

/-- Witness for C5: the draw `u = 0.75` gives `d = 0.25` (normal), and with
`e = 1` the generator returns `0.5 = 0.25 · 2^1` exactly. -/
theorem claim_C5_witness :
    (classify (fpSub binary64 ((constStream d075).draws (constStream d075).idx) half64) =
        .normal ∧
     1 ≤ ((fpSub binary64 ((constStream d075).draws (constStream d075).idx)
        half64).exponent : ℤ) + 1 ∧
     ((fpSub binary64 ((constStream d075).draws (constStream d075).idx)
        half64).exponent : ℤ) + 1 ≤ 2046) ∧
    toRat (noise_binary64 1 (constStream d075)).1 =
      toRat (fpSub binary64 ((constStream d075).draws (constStream d075).idx) half64) *
        pow2 1 := by
  have hc : classify (fpSub binary64 ((constStream d075).draws (constStream d075).idx)
      half64) = .normal := by
    with_unfolding_all rfl
  have hlo : 1 ≤ ((fpSub binary64 ((constStream d075).draws (constStream d075).idx)
      half64).exponent : ℤ) + 1 := by
    with_unfolding_all decide
  have hhi : ((fpSub binary64 ((constStream d075).draws (constStream d075).idx)
      half64).exponent : ℤ) + 1 ≤ 2046 := by
    with_unfolding_all decide
  exact ⟨⟨hc, hlo, hhi⟩, ((claim_C5 1 (constStream d075)).1 hc hlo hhi).1⟩


/-! ## Claim C4: the RR perturbation magnitude bound -/

/-- In RR mode with relative error only and sparsity at least 1, `_INEXACT`
on a normal, non-representable value draws once and adds the relative
noise. -/
theorem INEXACT_rr_rel {fmt : Fmt} (noiseF : ℤ → RngState → FPBits fmt × RngState)
    (st : McaState) (ctx : t_context) (x : FPBits fmt) (t : ℤ) (r : RngState)
    (hmode : st.MCALIB_MODE = .mcamode_rr)
    (hrel : ctx.relErr = true) (habs : ctx.absErr = false)
    (hsp : (1:ℚ) ≤ ctx.sparsity)
    (hcls : classify x = .normal) (hnr : IS_REPRESENTABLE x t = false) :
    INEXACT noiseF st ctx x t r =
      (fpAdd fmt x (noiseF (GET_EXP_FLT x - (t - 1)) r).1,
       (noiseF (GET_EXP_FLT x - (t - 1)) r).2) := by
  have hg : MUST_NOT_BE_NOISED st x t = false := by
    unfold MUST_NOT_BE_NOISED
    rw [hmode, hcls, hnr]
    decide
  have hskip : mca_skip_eval ctx.sparsity r = (false, r) := by
    unfold mca_skip_eval
    rw [if_pos hsp]
  unfold INEXACT
  rw [if_neg (by rw [hg]; simp), hskip, hrel, habs]
  rfl


/-- Counterexample to C4: the draw `u = 0.5` is allowed by the RNG contract,
and then the "noise" is not in `(−0.5, 0.5) · 2^e` at all: for `1.0 / 3.0`
in RR mode at `t = 53` the noised result overflows all the way to `+inf`,
violating the bound `|r' − r| < 2^(e − 52)` as badly as possible. -/
theorem claim_C4_counterexample :
    (0:ℚ) < toRat half64 ∧ toRat half64 < 1 ∧
    (mca_binary64_binary_op one64 three64 .mca_div rrState init_context
        (constStream half64)).1 = infBits binary64 false := by
  have hh : toRat half64 = 1 / 2 := by with_unfolding_all rfl
  refine ⟨?_, ?_, ?_⟩
  · rw [hh]
    norm_num
  · rw [hh]
    norm_num
  · with_unfolding_all rfl

/-- C4 (amended): in RR mode (relative error only, sparsity 1), when the
working-precision result `RES` is normal and not representable at the
virtual precision `t ∈ [1, 111]`, and the draw gives a NORMAL difference
`d = u ⊖ 0.5` (`|d| ≤ 1/2`) whose adjusted exponent field stays in range,
and `RES` is not in the two highest binades, the returned value `r'`
satisfies `|r' − r| < 2^(e − (t − 1))` where `r = toRat RES` and
`e = GET_EXP(r)`.  (The excluded draw `u = 0.5` breaks the bound, as the
counterexample shows.) -/
theorem claim_C4 (st : McaState) (ctx : t_context) (RES : FPBits binary128)
    (r : RngState)
    (hmode : st.MCALIB_MODE = .mcamode_rr)
    (hrel : ctx.relErr = true) (habs : ctx.absErr = false)
    (hsp : (1:ℚ) ≤ ctx.sparsity)
    (ht1 : 1 ≤ st.MCALIB_BINARY64_T) (ht2 : st.MCALIB_BINARY64_T ≤ 111)
    (hres : classify RES = .normal) (hWF : RES.WF)
    (hnr : IS_REPRESENTABLE RES st.MCALIB_BINARY64_T = false)
    (hLhi : GET_EXP_FLT RES ≤ 16381)
    (hd : classify (fpSub binary128 (convert binary64 binary128 (r.draws r.idx))
        half128) = .normal)
    (hdabs : |toRat (fpSub binary128 (convert binary64 binary128 (r.draws r.idx))
        half128)| ≤ 1/2)
    (hf1 : 1 ≤ ((fpSub binary128 (convert binary64 binary128 (r.draws r.idx))
        half128).exponent : ℤ) + (GET_EXP_FLT RES - (st.MCALIB_BINARY64_T - 1)))
    (hf2 : ((fpSub binary128 (convert binary64 binary128 (r.draws r.idx))
        half128).exponent : ℤ) + (GET_EXP_FLT RES - (st.MCALIB_BINARY64_T - 1)) ≤ 32766) :
    |toRat (mca_inexact_binary128 st ctx RES r).1 - toRat RES| <
      pow2 (GET_EXP_FLT RES - (st.MCALIB_BINARY64_T - 1)) := by
  have hprec : (2:ℕ) ≤ binary128.prec := by decide
  have hw2 : (2:ℕ) ≤ binary128.w := by decide
  have hB : binary128.bias = 16383 := by decide
  have hMB : binary128.mantBits = 112 := by decide
  have hGM : binary128.gridMin = -16494 := by decide
  have hEM : binary128.emax = 16383 := by decide
  have hTopZ : (2:ℤ) ^ binary128.w = 32768 := by decide
  have hTopF : binary128.expTop = 32767 := by decide
  have hRchar := getExp_char hprec RES hWF (Or.inl hres)
  set t := st.MCALIB_BINARY64_T with ht_def
  set d := fpSub binary128 (convert binary64 binary128 (r.draws r.idx)) half128 with hd_def
  set L := GET_EXP_FLT RES with hL_def
  set E := L - (t - 1) with hE_def
  have hRlo : pow2 L ≤ |toRat RES| := by
    rw [pow2_eq]
    exact hRchar.1
  have hRhi : |toRat RES| < pow2 (L + 1) := by
    rw [pow2_eq]
    exact hRchar.2
  have hstruct : mca_inexact_binary128 st ctx RES r =
      (fpAdd binary128 RES (noise_binary128 E r).1, (noise_binary128 E r).2) :=
    INEXACT_rr_rel noise_binary128 st ctx RES t r hmode hrel habs hsp hres hnr
  have hdexp0 : d.exponent ≠ 0 := (classify_normal_exponent d hd).1
  have hspec := bitfieldAddExp_spec d E hdexp0 hf1 (by rw [hTopZ]; omega)
  have hNval : toRat (bitfieldAddExp d E) = toRat d * pow2 E := hspec.1
  have hNabs : |toRat (bitfieldAddExp d E)| ≤ (1/2) * pow2 E := by
    rw [hNval, abs_mul, abs_of_pos (pow2_pos E)]
    exact mul_le_mul_of_nonneg_right hdabs (le_of_lt (pow2_pos E))
  have hNcls : classify (bitfieldAddExp d E) = .normal := by
    unfold classify
    rw [hspec.2.1, hTopF]
    rw [if_neg (by omega), if_neg (by omega)]
  have hdexp_le : (d.exponent : ℤ) ≤ 16382 := by
    by_contra hcon
    push_neg at hcon
    have habs' : |toRat d| = ((npow2 binary128.mantBits + d.mantissa : ℕ) : ℚ) *
        pow2 ((d.exponent : ℤ) - binary128.bias - binary128.mantBits) := by
      rw [abs_toRat, if_neg hdexp0]
    have hcast : ((npow2 binary128.mantBits : ℕ) : ℚ) = pow2 (binary128.mantBits : ℤ) := by
      rw [npow2_eq, pow2_eq]
      push_cast
      norm_num
    have hge : pow2 ((d.exponent : ℤ) - 16383) ≤ |toRat d| := by
      rw [habs']
      have h1 : pow2 ((d.exponent : ℤ) - 16383) =
          pow2 (binary128.mantBits : ℤ) *
            pow2 ((d.exponent : ℤ) - binary128.bias - binary128.mantBits) := by
        rw [← pow2_add]
        rw [show ((binary128.mantBits : ℤ) +
          ((d.exponent : ℤ) - binary128.bias - binary128.mantBits)) =
          (d.exponent : ℤ) - binary128.bias from by ring, hB]
      rw [h1, ← hcast]
      apply mul_le_mul_of_nonneg_right _ (le_of_lt (pow2_pos _))
      have : (npow2 binary128.mantBits : ℕ) ≤ npow2 binary128.mantBits + d.mantissa :=
        Nat.le_add_right _ _
      exact_mod_cast this
    have h0 : pow2 (0:ℤ) ≤ pow2 ((d.exponent : ℤ) - 16383) := pow2_le_pow2 _ _ (by omega)
    have hone : pow2 (0:ℤ) = 1 := by
      rw [pow2_eq]
      norm_num
    linarith
  have hE_lb : -16381 ≤ E := by omega
  have hfst : (mca_inexact_binary128 st ctx RES r).1 =
      fpAdd binary128 RES (bitfieldAddExp d E) := by
    rw [hstruct]
    rfl
  rw [hfst, fpAdd_finite RES (bitfieldAddExp d E) (Or.inl hres) (Or.inl hNcls)]
  by_cases hs0 : toRat RES + toRat (bitfieldAddExp d E) = 0
  · rw [if_pos hs0, toRat_zeroBits]
    have hR : toRat RES = - toRat (bitfieldAddExp d E) := by linarith
    rw [hR, zero_sub, abs_neg, abs_neg]
    calc |toRat (bitfieldAddExp d E)| ≤ (1/2) * pow2 E := hNabs
      _ < pow2 E := by linarith [pow2_pos E]
  · rw [if_neg hs0]
    have hsabs : |toRat RES + toRat (bitfieldAddExp d E)| ≤
        |toRat RES| + |toRat (bitfieldAddExp d E)| := abs_add _ _
    have hEltL : E ≤ L := by omega
    have hpEL : pow2 E ≤ pow2 L := pow2_le_pow2 _ _ hEltL
    have hL2 : pow2 (L + 2) = pow2 (L + 1) * 2 := by
      rw [show (L + 2) = (L + 1) + 1 from by ring, pow2_add, pow2_one]
    have hL1 : pow2 (L + 1) = pow2 L * 2 := by
      rw [pow2_add, pow2_one]
    have hshi : |toRat RES + toRat (bitfieldAddExp d E)| < pow2 (L + 2) := by
      have := pow2_pos L
      linarith
    have hsemax : |toRat RES + toRat (bitfieldAddExp d E)| < pow2 binary128.emax := by
      rw [hEM]
      calc |toRat RES + toRat (bitfieldAddExp d E)| < pow2 (L + 2) := hshi
        _ ≤ pow2 16383 := pow2_le_pow2 _ _ (by omega)
    have hfl := roundSigned_err hprec hw2 _ hs0 hsemax
    have hLs : ratLog2 |toRat RES + toRat (bitfieldAddExp d E)| ≤ L + 1 := by
      have habs0 : 0 < |toRat RES + toRat (bitfieldAddExp d E)| := abs_pos.mpr hs0
      have h1 := (ratLog2_spec _ habs0).1
      have h2 : pow2 (ratLog2 |toRat RES + toRat (bitfieldAddExp d E)|) ≤
          |toRat RES + toRat (bitfieldAddExp d E)| := by
        rw [pow2_eq]
        exact h1
      have := pow2_lt_pow2_rev _ _ (lt_of_le_of_lt h2 hshi)
      omega
    have hulp : pow2 (max binary128.gridMin
        (ratLog2 |toRat RES + toRat (bitfieldAddExp d E)| - binary128.mantBits) - 1) ≤
        pow2 (E - 2) := by
      apply pow2_le_pow2
      rw [hGM, hMB]
      have h1 : max (-16494 : ℤ)
          (ratLog2 |toRat RES + toRat (bitfieldAddExp d E)| - 112) ≤ E - 1 :=
        max_le (by omega) (by omega)
      omega
    have htri : |toRat (roundSigned binary128 (toRat RES + toRat (bitfieldAddExp d E))) -
        toRat RES| ≤
        |toRat (roundSigned binary128 (toRat RES + toRat (bitfieldAddExp d E))) -
          (toRat RES + toRat (bitfieldAddExp d E))| +
        |(toRat RES + toRat (bitfieldAddExp d E)) - toRat RES| := abs_sub_le _ _ _
    have hsR : |(toRat RES + toRat (bitfieldAddExp d E)) - toRat RES| =
        |toRat (bitfieldAddExp d E)| := by
      rw [show (toRat RES + toRat (bitfieldAddExp d E)) - toRat RES =
        toRat (bitfieldAddExp d E) from by ring]
    have hE2 : pow2 E = pow2 (E - 2) * 4 := by
      rw [show E = (E - 2) + 2 from by ring, pow2_add]
      rw [show pow2 (2:ℤ) = 4 from by rw [pow2_eq]; norm_num]
      ring_nf
    calc |toRat (roundSigned binary128 (toRat RES + toRat (bitfieldAddExp d E))) -
        toRat RES| ≤
        |toRat (roundSigned binary128 (toRat RES + toRat (bitfieldAddExp d E))) -
          (toRat RES + toRat (bitfieldAddExp d E))| +
        |(toRat RES + toRat (bitfieldAddExp d E)) - toRat RES| := htri
      _ ≤ pow2 (E - 2) + (1/2) * pow2 E := by
          rw [hsR]
          have := le_trans hfl hulp
          linarith
      _ < pow2 E := by
          have := pow2_pos (E - 2)
          linarith [hE2]

/-- Witness for C4: `1.0 / 3.0` in RR at `t = 53` with the draw `u = 0.75`
(`d = 0.25`): the perturbed result stays within `2^(−54)` of `1/3`. -/
theorem claim_C4_witness :
    (classify (fpDiv binary128 (convert binary64 binary128 one64)
        (convert binary64 binary128 three64)) = .normal ∧
     IS_REPRESENTABLE (fpDiv binary128 (convert binary64 binary128 one64)
        (convert binary64 binary128 three64)) rrState.MCALIB_BINARY64_T = false) ∧
    |toRat (mca_inexact_binary128 rrState init_context
        (fpDiv binary128 (convert binary64 binary128 one64)
          (convert binary64 binary128 three64)) (constStream d075)).1 -
      toRat (fpDiv binary128 (convert binary64 binary128 one64)
        (convert binary64 binary128 three64))| <
      pow2 (GET_EXP_FLT (fpDiv binary128 (convert binary64 binary128 one64)
        (convert binary64 binary128 three64)) - (rrState.MCALIB_BINARY64_T - 1)) := by
  have h1 : classify (fpDiv binary128 (convert binary64 binary128 one64)
      (convert binary64 binary128 three64)) = .normal := by
    with_unfolding_all rfl
  have h2 : IS_REPRESENTABLE (fpDiv binary128 (convert binary64 binary128 one64)
      (convert binary64 binary128 three64)) rrState.MCALIB_BINARY64_T = false := by
    with_unfolding_all rfl
  refine ⟨⟨h1, h2⟩, ?_⟩
  exact claim_C4 rrState init_context _ (constStream d075) rfl rfl rfl
    (by norm_num [init_context]) (by decide) (by decide) h1
    (by with_unfolding_all decide) h2 (by with_unfolding_all decide)
    (by with_unfolding_all rfl) (by with_unfolding_all decide)
    (by with_unfolding_all decide) (by with_unfolding_all decide)


/-! ## Claim C2: RR exactness on representable results -/

/-- C2: with `mode=rr` (DAZ/FTZ off), for every finite operand pair and
operator whose exact result is nonzero and representable in the configured
virtual precision `t`, both drivers return the native IEEE result bit-for-bit
and consume no draw — for every RNG state, hence for every seed: the
representability guard suppresses the result perturbation. -/
theorem claim_C2 (st : McaState) (ctx : t_context) (r : RngState)
    (hmode : st.MCALIB_MODE = .mcamode_rr)
    (hdaz : ctx.daz = false) (hftz : ctx.ftz = false)
    (h32a : 1 ≤ st.MCALIB_BINARY32_T) (h32b : st.MCALIB_BINARY32_T ≤ 52)
    (h64a : 1 ≤ st.MCALIB_BINARY64_T) (h64b : st.MCALIB_BINARY64_T ≤ 112) :
    (∀ (a b : FPBits binary32) (op : mca_operations),
      a.WF → b.WF →
      (classify a = .normal ∨ classify a = .subnormal ∨ classify a = .zero) →
      (classify b = .normal ∨ classify b = .subnormal ∨ classify b = .zero) →
      exactOp op (toRat a) (toRat b) ≠ 0 →
      RepresentableAt st.MCALIB_BINARY32_T (exactOp op (toRat a) (toRat b)) →
      mca_binary32_binary_op a b op st ctx r = (native_binary32_op a b op, r)) ∧
    (∀ (a b : FPBits binary64) (op : mca_operations),
      a.WF → b.WF →
      (classify a = .normal ∨ classify a = .subnormal ∨ classify a = .zero) →
      (classify b = .normal ∨ classify b = .subnormal ∨ classify b = .zero) →
      exactOp op (toRat a) (toRat b) ≠ 0 →
      RepresentableAt st.MCALIB_BINARY64_T (exactOp op (toRat a) (toRat b)) →
      mca_binary64_binary_op a b op st ctx r = (native_binary64_op a b op, r)) := by
  constructor
  · intro a b op hWFa hWFb hfa hfb hv hrep
    have hme : binary32.maxFinite < pow2 binary64.emax := by
      with_unfolding_all decide
    have ht2 : st.MCALIB_BINARY32_T ≤ (binary64.mantBits : ℤ) := by
      have h1 : ((binary64.mantBits : ℕ) : ℤ) = 52 := by decide
      omega
    have hgw : binary64.gridMin ≤ 2 * binary32.gridMin - st.MCALIB_BINARY32_T + 1 := by
      have h1 : binary64.gridMin = -1074 := by decide
      have h2 : binary32.gridMin = -149 := by decide
      omega
    obtain ⟨hP, hIR, hC⟩ := @rr_exact_core binary32 binary64
      (by decide) (by decide) (by decide) (by decide) (by decide) (by decide)
      hme (by decide) (by decide) (by decide) (by decide) (by decide)
      st.MCALIB_BINARY32_T h32a ht2 hgw a b op hWFa hWFb hfa hfb hv hrep
    rw [binop32_rr_eq a b op st ctx r hmode hdaz hftz, hP]
    have hguard : mca_inexact_binary64 st ctx
        (roundSigned binary64 (exactOp op (toRat a) (toRat b))) r =
        (roundSigned binary64 (exactOp op (toRat a) (toRat b)), r) :=
      INEXACT_rr_representable noise_binary64 st ctx _ st.MCALIB_BINARY32_T r hmode hIR
    rw [hguard]
    show (convert binary64 binary32 (roundSigned binary64 (exactOp op (toRat a) (toRat b))),
      r) = (native_binary32_op a b op, r)
    rw [hC]
    rfl
  · intro a b op hWFa hWFb hfa hfb hv hrep
    have hme : binary64.maxFinite < pow2 binary128.emax := by
      with_unfolding_all decide
    have ht2 : st.MCALIB_BINARY64_T ≤ (binary128.mantBits : ℤ) := by
      have h1 : ((binary128.mantBits : ℕ) : ℤ) = 112 := by decide
      omega
    have hgw : binary128.gridMin ≤ 2 * binary64.gridMin - st.MCALIB_BINARY64_T + 1 := by
      have h1 : binary128.gridMin = -16494 := by decide
      have h2 : binary64.gridMin = -1074 := by decide
      omega
    obtain ⟨hP, hIR, hC⟩ := @rr_exact_core binary64 binary128
      (by decide) (by decide) (by decide) (by decide) (by decide) (by decide)
      hme (by decide) (by decide) (by decide) (by decide) (by decide)
      st.MCALIB_BINARY64_T h64a ht2 hgw a b op hWFa hWFb hfa hfb hv hrep
    rw [binop64_rr_eq a b op st ctx r hmode hdaz hftz, hP]
    have hguard : mca_inexact_binary128 st ctx
        (roundSigned binary128 (exactOp op (toRat a) (toRat b))) r =
        (roundSigned binary128 (exactOp op (toRat a) (toRat b)), r) :=
      INEXACT_rr_representable noise_binary128 st ctx _ st.MCALIB_BINARY64_T r hmode hIR
    rw [hguard]
    show (convert binary128 binary64 (roundSigned binary128 (exactOp op (toRat a) (toRat b))),
      r) = (native_binary64_op a b op, r)
    rw [hC]
    rfl

/-- Witness for C2: `1.0f + 1.0f` at `t32 = 24` in RR mode returns the
native `2.0f` for any stream. -/
theorem claim_C2_witness :
    rrState.MCALIB_MODE = .mcamode_rr ∧
    exactOp .mca_add (toRat one32) (toRat one32) ≠ 0 ∧
    mca_binary32_binary_op one32 one32 .mca_add rrState init_context (constStream d075) =
      (native_binary32_op one32 one32 .mca_add, constStream d075) := by
  have h1 : toRat one32 = 1 := by with_unfolding_all rfl
  have hv : exactOp .mca_add (toRat one32) (toRat one32) ≠ 0 := by
    rw [show exactOp .mca_add (toRat one32) (toRat one32) =
      toRat one32 + toRat one32 from rfl, h1]
    norm_num
  have hrep : RepresentableAt rrState.MCALIB_BINARY32_T
      (exactOp .mca_add (toRat one32) (toRat one32)) := by
    refine ⟨1, 1, ?_, ?_⟩
    · rw [show exactOp .mca_add (toRat one32) (toRat one32) =
        toRat one32 + toRat one32 from rfl, h1, pow2_one]
      norm_num
    · rw [show rrState.MCALIB_BINARY32_T = 24 from by with_unfolding_all rfl]
      rw [show pow2 (24:ℤ) = 16777216 from by with_unfolding_all rfl]
      norm_num
  exact ⟨rfl, hv, (claim_C2 rrState init_context (constStream d075) rfl rfl rfl
    (by with_unfolding_all decide) (by with_unfolding_all decide)
    (by with_unfolding_all decide) (by with_unfolding_all decide)).1 one32 one32 .mca_add
    (by decide) (by decide) (Or.inl (by decide)) (Or.inl (by decide)) hv hrep⟩

/-! ## Claim C1: IEEE mode is bit-identical to native arithmetic -/

/-- C1: with `mode = ieee` and DAZ/FTZ off, for every finite pair of operands
of either width (binary32 or binary64) and each of the four operators, the
binary-op driver returns a result bit-identical to the native IEEE-754
operation at that width, even though it computes at the wider format
(binary64 resp. binary128) and then narrows: for these format pairs the
double rounding is innocuous. -/
theorem claim_C1 (st : McaState) (ctx : t_context) (r : RngState)
    (hmode : st.MCALIB_MODE = .mcamode_ieee)
    (hdaz : ctx.daz = false) (hftz : ctx.ftz = false) (op : mca_operations) :
    (∀ a b : FPBits binary32, a.WF → b.WF →
        a.exponent ≠ binary32.expTop → b.exponent ≠ binary32.expTop →
        mca_binary32_binary_op a b op st ctx r = (native_binary32_op a b op, r)) ∧
    (∀ a b : FPBits binary64, a.WF → b.WF →
        a.exponent ≠ binary64.expTop → b.exponent ≠ binary64.expTop →
        mca_binary64_binary_op a b op st ctx r = (native_binary64_op a b op, r)) := by
  constructor
  · intro a b hWFa hWFb hfa hfb
    have hca : classify a = .normal ∨ classify a = .subnormal ∨ classify a = .zero := by
      rcases classify_cases a hfa with ⟨h, _, _⟩ | ⟨h, _, _⟩ | ⟨h, _⟩
      · exact Or.inr (Or.inr h)
      · exact Or.inr (Or.inl h)
      · exact Or.inl h
    have hcb : classify b = .normal ∨ classify b = .subnormal ∨ classify b = .zero := by
      rcases classify_cases b hfb with ⟨h, _, _⟩ | ⟨h, _, _⟩ | ⟨h, _⟩
      · exact Or.inr (Or.inr h)
      · exact Or.inr (Or.inl h)
      · exact Or.inl h
    rw [binop32_ieee_eq a b op st ctx r hmode hdaz hftz]
    have hme : binary32.maxFinite < pow2 binary64.emax := by
      with_unfolding_all decide
    have hcore : convert binary64 binary32
        (PERFORM_BIN_OP binary64 op (convert binary32 binary64 a)
          (convert binary32 binary64 b)) =
        PERFORM_BIN_OP binary32 op a b := by
      cases op
      · exact ieee_add_core (by decide) (by decide) (by decide) (by decide)
          (by decide) (by decide) hme (by decide) (by decide) (by decide)
          (by decide) a b hWFa hWFb hca hcb
      · exact ieee_sub_core (by decide) (by decide) (by decide) (by decide)
          (by decide) (by decide) hme (by decide) (by decide) (by decide)
          (by decide) a b hWFa hWFb hca hcb
      · exact ieee_mul_core (by decide) (by decide) (by decide) (by decide)
          (by decide) (by decide) hme (by decide) (by decide) (by decide)
          (by decide) (by decide) a b hWFa hWFb hca hcb
      · exact ieee_div_core (by decide) (by decide) (by decide) (by decide)
          (by decide) (by decide) hme (by decide) (by decide) (by decide)
          (by decide) a b hWFa hWFb hca hcb
    rw [hcore]
    rfl
  · intro a b hWFa hWFb hfa hfb
    have hca : classify a = .normal ∨ classify a = .subnormal ∨ classify a = .zero := by
      rcases classify_cases a hfa with ⟨h, _, _⟩ | ⟨h, _, _⟩ | ⟨h, _⟩
      · exact Or.inr (Or.inr h)
      · exact Or.inr (Or.inl h)
      · exact Or.inl h
    have hcb : classify b = .normal ∨ classify b = .subnormal ∨ classify b = .zero := by
      rcases classify_cases b hfb with ⟨h, _, _⟩ | ⟨h, _, _⟩ | ⟨h, _⟩
      · exact Or.inr (Or.inr h)
      · exact Or.inr (Or.inl h)
      · exact Or.inl h
    rw [binop64_ieee_eq a b op st ctx r hmode hdaz hftz]
    have hme : binary64.maxFinite < pow2 binary128.emax := by
      with_unfolding_all decide
    have hcore : convert binary128 binary64
        (PERFORM_BIN_OP binary128 op (convert binary64 binary128 a)
          (convert binary64 binary128 b)) =
        PERFORM_BIN_OP binary64 op a b := by
      cases op
      · exact ieee_add_core (by decide) (by decide) (by decide) (by decide)
          (by decide) (by decide) hme (by decide) (by decide) (by decide)
          (by decide) a b hWFa hWFb hca hcb
      · exact ieee_sub_core (by decide) (by decide) (by decide) (by decide)
          (by decide) (by decide) hme (by decide) (by decide) (by decide)
          (by decide) a b hWFa hWFb hca hcb
      · exact ieee_mul_core (by decide) (by decide) (by decide) (by decide)
          (by decide) (by decide) hme (by decide) (by decide) (by decide)
          (by decide) (by decide) a b hWFa hWFb hca hcb
      · exact ieee_div_core (by decide) (by decide) (by decide) (by decide)
          (by decide) (by decide) hme (by decide) (by decide) (by decide)
          (by decide) a b hWFa hWFb hca hcb
    rw [hcore]
    rfl

/-- Witness for C1: the binary32 driver on `1.0f + 1.0f` in IEEE mode with
the default context returns exactly the native result and an untouched
stream. -/
theorem claim_C1_witness :
    mca_binary32_binary_op one32 one32 .mca_add
        { MCALIB_MODE := .mcamode_ieee, MCALIB_BINARY32_T := 24,
          MCALIB_BINARY64_T := 53 }
        { relErr := true, absErr := false, absErr_exp := 112, choose_seed := false,
          seed := 0, daz := false, ftz := false, sparsity := 1 }
        (constStream one64) =
      (native_binary32_op one32 one32 .mca_add, constStream one64) :=
  (claim_C1 _ _ (constStream one64) rfl rfl rfl .mca_add).1 one32 one32
    (by decide) (by decide) (by decide) (by decide)

end Verificarlo
